import Mathlib

/-!
Verification of the `notion-mcp-server` core: the OpenAPI → MCP tool
converter (`src/openapi-mcp-server/openapi/parser.ts`) and the MCP proxy
(`src/openapi-mcp-server/mcp/proxy.ts`).

JavaScript runtime values are modelled by the inductive `NMCP.Json`
(numbers as integers; `undefined` is modelled as the absence of a key,
i.e. a `none` lookup result).  JS objects are association lists that keep
insertion order, as JS engines do.  Stateful class fields (`schemaCache`,
`nameCounter`) are threaded explicitly.  Potentially non-terminating
recursions of the source are given explicit fuel.
-/

namespace NMCP

/-- A JSON / JavaScript runtime value. -/
inductive Json where
  | null : Json
  | bool (b : Bool) : Json
  | num (n : Int) : Json
  | str (s : String) : Json
  | arr (xs : List Json) : Json
  | obj (kvs : List (String × Json)) : Json
deriving Repr

mutual

/-- Structural equality test for `Json`. -/
def jeq : Json → Json → Bool
  | .null, .null => true
  | .bool a, .bool b => a == b
  | .num a, .num b => a == b
  | .str a, .str b => a == b
  | .arr a, .arr b => jeqList a b
  | .obj a, .obj b => jeqFields a b
  | _, _ => false

/-- Pointwise equality test for lists of `Json`. -/
def jeqList : List Json → List Json → Bool
  | [], [] => true
  | x :: xs, y :: ys => jeq x y && jeqList xs ys
  | _, _ => false

/-- Pointwise equality test for association lists of `Json`. -/
def jeqFields : List (String × Json) → List (String × Json) → Bool
  | [], [] => true
  | (ka, va) :: xs, (kb, vb) :: ys => ka == kb && jeq va vb && jeqFields xs ys
  | _, _ => false

end

mutual

theorem jeq_iff : ∀ a b : Json, jeq a b = true ↔ a = b
  | .null, .null => by simp [jeq]
  | .bool _, .bool _ => by simp [jeq]
  | .num _, .num _ => by simp [jeq]
  | .str _, .str _ => by simp [jeq]
  | .arr x, .arr y => by simp [jeq, jeqList_iff x y]
  | .obj x, .obj y => by simp [jeq, jeqFields_iff x y]
  | .null, .bool _ | .null, .num _ | .null, .str _ | .null, .arr _ | .null, .obj _
  | .bool _, .null | .bool _, .num _ | .bool _, .str _ | .bool _, .arr _ | .bool _, .obj _
  | .num _, .null | .num _, .bool _ | .num _, .str _ | .num _, .arr _ | .num _, .obj _
  | .str _, .null | .str _, .bool _ | .str _, .num _ | .str _, .arr _ | .str _, .obj _
  | .arr _, .null | .arr _, .bool _ | .arr _, .num _ | .arr _, .str _ | .arr _, .obj _
  | .obj _, .null | .obj _, .bool _ | .obj _, .num _ | .obj _, .str _ | .obj _, .arr _ =>
    by simp [jeq]

theorem jeqList_iff : ∀ xs ys : List Json, jeqList xs ys = true ↔ xs = ys
  | [], [] => by simp [jeqList]
  | x :: xs, y :: ys => by simp [jeqList, jeq_iff x y, jeqList_iff xs ys]
  | [], _ :: _ => by simp [jeqList]
  | _ :: _, [] => by simp [jeqList]

theorem jeqFields_iff : ∀ xs ys : List (String × Json), jeqFields xs ys = true ↔ xs = ys
  | [], [] => by simp [jeqFields]
  | (ka, va) :: xs, (kb, vb) :: ys => by
    simp [jeqFields, jeq_iff va vb, jeqFields_iff xs ys, and_assoc]
  | [], _ :: _ => by simp [jeqFields]
  | _ :: _, [] => by simp [jeqFields]

end

instance : DecidableEq Json := fun a b => decidable_of_iff _ (jeq_iff a b)

/-- First-match lookup in a JS-object association list
(JS objects never hold a key twice, so first match equals last match
for objects built by the modelled code). -/
def lookupList : List (String × Json) → String → Option Json
  | [], _ => none
  | (k', v) :: r, k => if k' = k then some v else lookupList r k

/-- JS property access `o[k]`: `none` models `undefined`. -/
def Json.get : Json → String → Option Json
  | .obj kvs, k => lookupList kvs k
  | _, _ => none

/-- JS truthiness of a value. -/
def truthy : Json → Bool
  | .null => false
  | .bool b => b
  | .num n => n != 0
  | .str s => s != ""
  | .arr _ => true
  | .obj _ => true

/-- Truthiness of an optional value (`none` is `undefined`, hence falsy). -/
def truthyO : Option Json → Bool
  | none => false
  | some v => truthy v

/-- JS single-key assignment `o[k] = v`: replaces the value in place if the
key exists (keeping its position, as JS does) and appends it otherwise. -/
def assignKey : List (String × Json) → String → Json → List (String × Json)
  | [], k, v => [(k, v)]
  | (k', v') :: r, k, v =>
    if k' = k then (k, v) :: r else (k', v') :: assignKey r k v

/-- JS object spread `{...base, ...extra}` restricted to a list of extra
assignments, performed left to right. -/
def assignAll (base : List (String × Json)) : List (String × Json) → List (String × Json)
  | [] => base
  | (k, v) :: r => assignAll (assignKey base k v) r

/-! ### A concrete model of `JSON.stringify` and `JSON.parse`

`deserializeParams` in `proxy.ts` calls `JSON.parse` on strings and the
spec's round-trip property quantifies over `JSON.stringify` images, so both
are modelled executably.  Strings escape `"` and `\`; numbers are decimal
integers. -/

/-- The whitespace characters `JSON.parse` skips. -/
def isWsChar (c : Char) : Bool := c = ' ' || c = '\t' || c = '\n' || c = '\r'

/-- `String.prototype.trim`, on character lists. -/
def trimChars (l : List Char) : List Char :=
  ((l.dropWhile isWsChar).reverse.dropWhile isWsChar).reverse

/-- Digit value of a character; `10` means "not a digit". -/
def chVal (c : Char) : Nat :=
  if c = '0' then 0 else if c = '1' then 1 else if c = '2' then 2 else if c = '3' then 3
  else if c = '4' then 4 else if c = '5' then 5 else if c = '6' then 6 else if c = '7' then 7
  else if c = '8' then 8 else if c = '9' then 9 else 10

/-- Is `c` a decimal digit? -/
def isDigitCh (c : Char) : Bool :=
  c = '0' || c = '1' || c = '2' || c = '3' || c = '4' || c = '5' || c = '6' || c = '7' ||
    c = '8' || c = '9'

/-- The decimal digit character for `d < 10`. -/
def digitCh (d : Nat) : Char :=
  if d = 0 then '0' else if d = 1 then '1' else if d = 2 then '2' else if d = 3 then '3'
  else if d = 4 then '4' else if d = 5 then '5' else if d = 6 then '6' else if d = 7 then '7'
  else if d = 8 then '8' else if d = 9 then '9' else '?'

/-- Decimal digits of `n`, most significant first (`f` is fuel; `n + 1` is enough). -/
def natDigitsAux : Nat → Nat → List Char
  | 0, _ => []
  | f + 1, n => if n < 10 then [digitCh n] else natDigitsAux f (n / 10) ++ [digitCh (n % 10)]

/-- Decimal digits of a natural number. -/
def natDigits (n : Nat) : List Char := natDigitsAux (n + 1) n

/-- Decimal representation of an integer, as `String(n)` in JS. -/
def intChars (n : Int) : List Char :=
  if n < 0 then '-' :: natDigits n.natAbs else natDigits n.natAbs

/-- Numeric value of a digit list (most significant first). -/
def digitsVal (l : List Char) : Nat := l.foldl (fun a c => 10 * a + chVal c) 0

/-- JSON string escaping of `"` and `\`. -/
def escChars : List Char → List Char
  | [] => []
  | c :: r => if c = '"' || c = '\\' then '\\' :: c :: escChars r else c :: escChars r

mutual

/-- `JSON.stringify`, on character lists. -/
def stringifyV : Json → List Char
  | .null => ['n', 'u', 'l', 'l']
  | .bool b => if b then ['t', 'r', 'u', 'e'] else ['f', 'a', 'l', 's', 'e']
  | .num n => intChars n
  | .str s => '"' :: (escChars s.data ++ ['"'])
  | .arr xs => '[' :: stringifyArrBody xs
  | .obj kvs => '{' :: stringifyObjBody kvs

/-- Array body after the opening bracket. -/
def stringifyArrBody : List Json → List Char
  | [] => [']']
  | x :: xs => stringifyV x ++ (stringifyElems xs ++ [']'])

/-- Remaining array elements, each preceded by a comma. -/
def stringifyElems : List Json → List Char
  | [] => []
  | x :: xs => ',' :: (stringifyV x ++ stringifyElems xs)

/-- Object body after the opening brace. -/
def stringifyObjBody : List (String × Json) → List Char
  | [] => ['}']
  | (k, v) :: r =>
    ('"' :: (escChars k.data ++ ['"', ':'] ++ stringifyV v)) ++ (stringifyMembers r ++ ['}'])

/-- Remaining object members, each preceded by a comma. -/
def stringifyMembers : List (String × Json) → List Char
  | [] => []
  | (k, v) :: r =>
    ',' :: (('"' :: (escChars k.data ++ ['"', ':'] ++ stringifyV v)) ++ stringifyMembers r)

end

/-- One `"key":value` object member. -/
def stringifyMember (k : String) (v : Json) : List Char :=
  '"' :: (escChars k.data ++ ['"', ':'] ++ stringifyV v)

theorem stringifyObjBody_cons (k : String) (v : Json) (r : List (String × Json)) :
    stringifyObjBody ((k, v) :: r) = stringifyMember k v ++ (stringifyMembers r ++ ['}']) := rfl

theorem stringifyMembers_cons (k : String) (v : Json) (r : List (String × Json)) :
    stringifyMembers ((k, v) :: r) = ',' :: (stringifyMember k v ++ stringifyMembers r) := rfl

/-- `JSON.stringify` as a string. -/
def stringify (o : Json) : String := ⟨stringifyV o⟩

/-- Skip JSON whitespace. -/
def skipWs (l : List Char) : List Char := l.dropWhile isWsChar

/-- Unescape one escaped character inside a JSON string literal. -/
def unescCh (c : Char) : Option Char :=
  if c = '"' then some '"' else if c = '\\' then some '\\'
  else if c = '/' then some '/' else if c = 'n' then some '\n'
  else if c = 't' then some '\t' else if c = 'r' then some '\r'
  else none

/-- Parse the body of a JSON string literal (after the opening quote),
accumulating characters in reverse; the flag records whether the previous
character was an unconsumed backslash. -/
def parseStrAux : Bool → List Char → List Char → Option (String × List Char)
  | _, _, [] => none
  | true, acc, c :: r =>
    match unescCh c with
    | some c' => parseStrAux false (c' :: acc) r
    | none => none
  | false, acc, c :: r =>
    if c = '"' then some (⟨acc.reverse⟩, r)
    else if c = '\\' then parseStrAux true acc r
    else parseStrAux false (c :: acc) r

/-- Split a leading run of digits. -/
def takeDigits : List Char → List Char × List Char
  | [] => ([], [])
  | c :: r =>
    if isDigitCh c then
      let p := takeDigits r
      (c :: p.1, p.2)
    else ([], c :: r)

/-- Strip an exact expected prefix. -/
def stripPfx : List Char → List Char → Option (List Char)
  | [], l => some l
  | _ :: _, [] => none
  | c :: p, d :: l => if d = c then stripPfx p l else none

/-- Classification of the first character of a JSON value. -/
inductive HeadKind where
  | quote | obrace | obrack | litN | litT | litF | minus | digit | bad
deriving DecidableEq

/-- Classify the first character of a JSON value. -/
def classify (c : Char) : HeadKind :=
  if c = '"' then .quote else if c = '{' then .obrace else if c = '[' then .obrack
  else if c = 'n' then .litN else if c = 't' then .litT else if c = 'f' then .litF
  else if c = '-' then .minus else if isDigitCh c then .digit else .bad

mutual

/-- Recursive-descent JSON value parser (fuel-indexed). -/
def parseVal : Nat → List Char → Option (Json × List Char)
  | 0, _ => none
  | f + 1, cs =>
    match skipWs cs with
    | [] => none
    | c :: r =>
      match classify c with
      | .quote => (parseStrAux false [] r).map (fun p => (Json.str p.1, p.2))
      | .obrace =>
        match skipWs r with
        | [] => none
        | c2 :: r2 =>
          if c2 = '}' then some (Json.obj [], r2)
          else (parseMembers f (c2 :: r2)).map (fun p => (Json.obj p.1, p.2))
      | .obrack =>
        match skipWs r with
        | [] => none
        | c2 :: r2 =>
          if c2 = ']' then some (Json.arr [], r2)
          else (parseElems f (c2 :: r2)).map (fun p => (Json.arr p.1, p.2))
      | .litN =>
        match stripPfx ['u', 'l', 'l'] r with
        | some rr => some (Json.null, rr)
        | none => none
      | .litT =>
        match stripPfx ['r', 'u', 'e'] r with
        | some rr => some (Json.bool true, rr)
        | none => none
      | .litF =>
        match stripPfx ['a', 'l', 's', 'e'] r with
        | some rr => some (Json.bool false, rr)
        | none => none
      | .minus =>
        match takeDigits r with
        | ([], _) => none
        | (ds, rest) => some (Json.num (-(digitsVal ds : Int)), rest)
      | .digit =>
        match takeDigits (c :: r) with
        | ([], _) => none
        | (ds, rest) => some (Json.num ((digitsVal ds : Int)), rest)
      | .bad => none

/-- Parse one or more comma-separated array elements plus the closing bracket. -/
def parseElems : Nat → List Char → Option (List Json × List Char)
  | 0, _ => none
  | f + 1, cs => do
    let (v, r) ← parseVal f cs
    match skipWs r with
    | [] => none
    | c :: r2 =>
      if c = ',' then do
        let (vs, r3) ← parseElems f r2
        some (v :: vs, r3)
      else if c = ']' then some ([v], r2)
      else none

/-- Parse one or more comma-separated object members plus the closing brace. -/
def parseMembers : Nat → List Char → Option (List (String × Json) × List Char)
  | 0, _ => none
  | f + 1, cs =>
    match skipWs cs with
    | [] => none
    | c :: r =>
      if c = '"' then do
        let (k, r1) ← parseStrAux false [] r
        match skipWs r1 with
        | [] => none
        | c2 :: r2 =>
          if c2 = ':' then do
            let (v, r3) ← parseVal f r2
            match skipWs r3 with
            | [] => none
            | c3 :: r4 =>
              if c3 = ',' then do
                let (kvs, r5) ← parseMembers f r4
                some ((k, v) :: kvs, r5)
              else if c3 = '}' then some ([(k, v)], r4)
              else none
          else none
      else none

end

/-- `JSON.parse`: parse a complete value, allowing surrounding whitespace. -/
def jsonParse (s : String) : Option Json :=
  match parseVal (s.data.length + 1) s.data with
  | some (v, r) => if skipWs r = [] then some v else none
  | none => none

/-! ### Round trip: `jsonParse (stringify o) = some o` -/

theorem digit_cases {c : Char} (h : isDigitCh c = true) :
    c = '0' ∨ c = '1' ∨ c = '2' ∨ c = '3' ∨ c = '4' ∨ c = '5' ∨ c = '6' ∨ c = '7' ∨
      c = '8' ∨ c = '9' := by
  simp only [isDigitCh, Bool.or_eq_true, decide_eq_true_eq] at h
  tauto

theorem digit_not_ws {c : Char} (h : isDigitCh c = true) : isWsChar c = false := by
  rcases digit_cases h with rfl | rfl | rfl | rfl | rfl | rfl | rfl | rfl | rfl | rfl <;> decide

theorem classify_digit {c : Char} (h : isDigitCh c = true) : classify c = .digit := by
  rcases digit_cases h with rfl | rfl | rfl | rfl | rfl | rfl | rfl | rfl | rfl | rfl <;> decide

theorem digit_ne_rbrack {c : Char} (h : isDigitCh c = true) : c ≠ ']' := by
  rcases digit_cases h with rfl | rfl | rfl | rfl | rfl | rfl | rfl | rfl | rfl | rfl <;> decide

theorem chVal_digitCh {d : Nat} (h : d < 10) : chVal (digitCh d) = d := by
  interval_cases d <;> decide

theorem isDigitCh_digitCh {d : Nat} (h : d < 10) : isDigitCh (digitCh d) = true := by
  interval_cases d <;> decide

theorem natDigitsAux_digits :
    ∀ f n, n < f → ∀ c ∈ natDigitsAux f n, isDigitCh c = true := by
  intro f
  induction f with
  | zero => intro n h; omega
  | succ f ih =>
    intro n _ c hc
    unfold natDigitsAux at hc
    split at hc
    · next h10 =>
      simp only [List.mem_singleton] at hc
      subst hc; exact isDigitCh_digitCh h10
    · next h10 =>
      rcases List.mem_append.mp hc with h | h
      · exact ih (n / 10) (by omega) c h
      · simp only [List.mem_singleton] at h
        subst h; exact isDigitCh_digitCh (Nat.mod_lt _ (by omega))

theorem natDigitsAux_ne_nil : ∀ f n, n < f → natDigitsAux f n ≠ [] := by
  intro f
  induction f with
  | zero => intro n h; omega
  | succ f _ =>
    intro n _
    unfold natDigitsAux
    split
    · simp
    · simp

theorem digitsVal_append_one (l : List Char) (c : Char) :
    digitsVal (l ++ [c]) = 10 * digitsVal l + chVal c := by
  simp [digitsVal, List.foldl_append]

theorem digitsVal_natDigitsAux : ∀ f n, n < f → digitsVal (natDigitsAux f n) = n := by
  intro f
  induction f with
  | zero => intro n h; omega
  | succ f ih =>
    intro n hn
    unfold natDigitsAux
    split
    · next h10 => simp [digitsVal, chVal_digitCh h10]
    · next h10 =>
      rw [digitsVal_append_one, ih (n / 10) (by omega),
        chVal_digitCh (Nat.mod_lt _ (by omega))]
      omega

theorem digitsVal_natDigits (n : Nat) : digitsVal (natDigits n) = n :=
  digitsVal_natDigitsAux (n + 1) n (Nat.lt_succ_self n)

theorem natDigits_digits (n : Nat) : ∀ c ∈ natDigits n, isDigitCh c = true :=
  natDigitsAux_digits (n + 1) n (Nat.lt_succ_self n)

theorem natDigits_ne_nil (n : Nat) : natDigits n ≠ [] :=
  natDigitsAux_ne_nil (n + 1) n (Nat.lt_succ_self n)

/-- Does the remaining input not start with a digit (so that a preceding
number literal ends exactly there)? -/
def headOk : List Char → Bool
  | [] => true
  | c :: _ => !isDigitCh c

theorem takeDigits_append {l rest : List Char} (hl : ∀ c ∈ l, isDigitCh c = true)
    (hr : headOk rest = true) : takeDigits (l ++ rest) = (l, rest) := by
  induction l with
  | nil =>
    simp only [List.nil_append]
    cases rest with
    | nil => rfl
    | cons c r =>
      simp only [headOk, Bool.not_eq_true'] at hr
      simp [takeDigits, hr]
  | cons c l ih =>
    have hc : isDigitCh c = true := hl c (List.mem_cons_self c l)
    have := ih (fun d hd => hl d (List.mem_cons_of_mem c hd))
    simp [takeDigits, hc, this]

theorem skipWs_cons {c : Char} (h : isWsChar c = false) (l : List Char) :
    skipWs (c :: l) = c :: l := by
  simp [skipWs, List.dropWhile, h]

theorem parseStrAux_rt :
    ∀ (l acc rest : List Char),
      parseStrAux false acc (escChars l ++ '"' :: rest) = some (⟨acc.reverse ++ l⟩, rest) := by
  intro l
  induction l with
  | nil =>
    intro acc rest
    show parseStrAux false acc ('"' :: rest) = _
    simp [parseStrAux]
  | cons c r ih =>
    intro acc rest
    unfold escChars
    split
    · next hesc =>
      simp only [Bool.or_eq_true, decide_eq_true_eq] at hesc
      rcases hesc with rfl | rfl
      · show parseStrAux false acc ('\\' :: '"' :: (escChars r ++ '"' :: rest)) = _
        simp only [parseStrAux, unescCh, if_neg (by decide : ¬('\\' : Char) = '"'),
          if_pos rfl, if_pos (rfl : ('"' : Char) = '"'), ih]
        simp
      · show parseStrAux false acc ('\\' :: '\\' :: (escChars r ++ '"' :: rest)) = _
        simp only [parseStrAux, unescCh, if_neg (by decide : ¬('\\' : Char) = '"'),
          if_pos rfl, ih]
        simp
    · next hesc =>
      have h1 : ¬ c = '"' := by intro hq; subst hq; simp at hesc
      have h2 : ¬ c = '\\' := by intro hq; subst hq; simp at hesc
      show parseStrAux false acc (c :: (escChars r ++ '"' :: rest)) = _
      simp only [parseStrAux]
      rw [if_neg h1, if_neg h2, ih]
      simp

theorem digit_ne_rbrace {c : Char} (h : isDigitCh c = true) : c ≠ '}' := by
  rcases digit_cases h with rfl | rfl | rfl | rfl | rfl | rfl | rfl | rfl | rfl | rfl <;> decide

-- Fuel sufficient for `parseVal` on the printed form of a value.
mutual

/-- Fuel sufficient for `parseVal` on the printed form of a value. -/
def pFuel : Json → Nat
  | .null => 1
  | .bool _ => 1
  | .num _ => 1
  | .str _ => 1
  | .arr xs => 1 + eFuelList xs
  | .obj kvs => 1 + mFuelList kvs

def eFuelList : List Json → Nat
  | [] => 0
  | x :: xs => 1 + max (pFuel x) (eFuelList xs)

def mFuelList : List (String × Json) → Nat
  | [] => 0
  | (_, v) :: r => 1 + max (pFuel v) (mFuelList r)

end

theorem pFuel_pos (o : Json) : 1 ≤ pFuel o := by
  cases o <;> simp [pFuel]

theorem stringifyV_head (o : Json) :
    ∃ c r, stringifyV o = c :: r ∧ isWsChar c = false ∧ c ≠ ']' ∧ c ≠ '}' := by
  cases o with
  | null => exact ⟨'n', _, rfl, by decide, by decide, by decide⟩
  | bool b =>
    cases b with
    | true => exact ⟨'t', ['r', 'u', 'e'], rfl, by decide, by decide, by decide⟩
    | false => exact ⟨'f', ['a', 'l', 's', 'e'], rfl, by decide, by decide, by decide⟩
  | num n =>
    rw [show stringifyV (.num n) = intChars n from rfl]
    unfold intChars
    by_cases hn : n < 0
    · rw [if_pos hn]
      exact ⟨'-', _, rfl, by decide, by decide, by decide⟩
    · rw [if_neg hn]
      obtain ⟨d, ds, hds⟩ : ∃ d ds, natDigits n.natAbs = d :: ds := by
        cases h : natDigits n.natAbs with
        | nil => exact absurd h (natDigits_ne_nil _)
        | cons d ds => exact ⟨d, ds, rfl⟩
      have hdig : isDigitCh d = true :=
        natDigits_digits _ d (by rw [hds]; exact List.mem_cons_self _ _)
      exact ⟨d, ds, hds, digit_not_ws hdig, digit_ne_rbrack hdig, digit_ne_rbrace hdig⟩
  | str s => exact ⟨'"', _, rfl, by decide, by decide, by decide⟩
  | arr xs => exact ⟨'[', _, rfl, by decide, by decide, by decide⟩
  | obj kvs => exact ⟨'{', _, rfl, by decide, by decide, by decide⟩

theorem parseVal_obrace (f : Nat) (c2 : Char) (r2 : List Char)
    (h : isWsChar c2 = false) (h2 : c2 ≠ '}') :
    parseVal (f + 1) ('{' :: c2 :: r2)
      = (parseMembers f (c2 :: r2)).map (fun p => (Json.obj p.1, p.2)) := by
  have h3 : skipWs (c2 :: r2) = c2 :: r2 := skipWs_cons h _
  simp only [parseVal, skipWs_cons (show isWsChar '{' = false from by decide)]
  rw [show classify '{' = HeadKind.obrace from rfl]
  simp only [h3]
  rw [if_neg h2]

theorem parseVal_obrack (f : Nat) (c2 : Char) (r2 : List Char)
    (h : isWsChar c2 = false) (h2 : c2 ≠ ']') :
    parseVal (f + 1) ('[' :: c2 :: r2)
      = (parseElems f (c2 :: r2)).map (fun p => (Json.arr p.1, p.2)) := by
  have h3 : skipWs (c2 :: r2) = c2 :: r2 := skipWs_cons h _
  simp only [parseVal, skipWs_cons (show isWsChar '[' = false from by decide)]
  rw [show classify '[' = HeadKind.obrack from rfl]
  simp only [h3]
  rw [if_neg h2]

theorem parseVal_minus (f : Nat) (r : List Char) (d : Char) (ds rest : List Char)
    (hd : takeDigits r = (d :: ds, rest)) :
    parseVal (f + 1) ('-' :: r) = some (.num (-(digitsVal (d :: ds) : Int)), rest) := by
  simp only [parseVal, skipWs_cons (show isWsChar '-' = false from by decide)]
  rw [show classify '-' = HeadKind.minus from rfl]
  simp only [hd]

theorem parseVal_digitHead (f : Nat) (c : Char) (r : List Char) (d : Char) (ds rest : List Char)
    (hc : isDigitCh c = true) (hd : takeDigits (c :: r) = (d :: ds, rest)) :
    parseVal (f + 1) (c :: r) = some (.num ((digitsVal (d :: ds) : Int)), rest) := by
  simp only [parseVal, skipWs_cons (digit_not_ws hc)]
  rw [classify_digit hc]
  simp only [hd]

theorem parseElems_last (f : Nat) (cs rest : List Char) (v : Json)
    (h : parseVal f cs = some (v, ']' :: rest)) :
    parseElems (f + 1) cs = some ([v], rest) := by
  simp [parseElems, h, skipWs, isWsChar, List.dropWhile]

theorem parseElems_more (f : Nat) (cs r2 : List Char) (v : Json)
    (h : parseVal f cs = some (v, ',' :: r2)) :
    parseElems (f + 1) cs
      = (parseElems f r2).bind (fun p => some (v :: p.1, p.2)) := by
  simp [parseElems, h, skipWs, isWsChar, List.dropWhile]

theorem parseMembers_last (f : Nat) (k : String) (R rest : List Char) (v : Json)
    (hv : parseVal f R = some (v, '}' :: rest)) :
    parseMembers (f + 1) ('"' :: (escChars k.data ++ '"' :: ':' :: R))
      = some ([(k, v)], rest) := by
  have hs := parseStrAux_rt k.data [] (':' :: R)
  simp only [List.reverse_nil, List.nil_append] at hs
  simp [parseMembers, skipWs, isWsChar, List.dropWhile, hs, hv]

theorem parseMembers_more (f : Nat) (k : String) (R r4 : List Char) (v : Json)
    (hv : parseVal f R = some (v, ',' :: r4)) :
    parseMembers (f + 1) ('"' :: (escChars k.data ++ '"' :: ':' :: R))
      = (parseMembers f r4).bind (fun p => some ((k, v) :: p.1, p.2)) := by
  have hs := parseStrAux_rt k.data [] (':' :: R)
  simp only [List.reverse_nil, List.nil_append] at hs
  simp [parseMembers, skipWs, isWsChar, List.dropWhile, hs, hv]

mutual

theorem rtV : ∀ (o : Json) (rest : List Char) (f : Nat), pFuel o ≤ f → headOk rest = true →
    parseVal f (stringifyV o ++ rest) = some (o, rest)
  | .null, rest, f, hf, _ => by
    obtain ⟨f', rfl⟩ : ∃ f', f = f' + 1 := ⟨f - 1, by have := pFuel_pos Json.null; omega⟩
    rfl
  | .bool true, rest, f, hf, _ => by
    obtain ⟨f', rfl⟩ : ∃ f', f = f' + 1 :=
      ⟨f - 1, by have := pFuel_pos (Json.bool true); omega⟩
    rfl
  | .bool false, rest, f, hf, _ => by
    obtain ⟨f', rfl⟩ : ∃ f', f = f' + 1 :=
      ⟨f - 1, by have := pFuel_pos (Json.bool false); omega⟩
    rfl
  | .num n, rest, f, hf, hok => by
    obtain ⟨f', rfl⟩ : ∃ f', f = f' + 1 := ⟨f - 1, by have := pFuel_pos (Json.num n); omega⟩
    show parseVal (f' + 1) (intChars n ++ rest) = some (.num n, rest)
    obtain ⟨d, ds, hds⟩ : ∃ d ds, natDigits n.natAbs = d :: ds := by
      cases h : natDigits n.natAbs with
      | nil => exact absurd h (natDigits_ne_nil _)
      | cons d ds => exact ⟨d, ds, rfl⟩
    have hd : takeDigits (natDigits n.natAbs ++ rest) = (d :: ds, rest) := by
      rw [takeDigits_append (natDigits_digits _) hok, hds]
    have hval : digitsVal (d :: ds) = n.natAbs := by rw [← hds, digitsVal_natDigits]
    by_cases hn : n < 0
    · rw [show intChars n = '-' :: natDigits n.natAbs from by unfold intChars; rw [if_pos hn],
        List.cons_append, parseVal_minus f' _ d ds rest hd, hval]
      have : -((n.natAbs : Nat) : Int) = n := by omega
      rw [this]
    · have hdig : isDigitCh d = true :=
        natDigits_digits _ d (by rw [hds]; exact List.mem_cons_self _ _)
      have hshape : intChars n ++ rest = d :: (ds ++ rest) := by
        unfold intChars
        rw [if_neg hn, hds, List.cons_append]
      have hd2 : takeDigits (d :: (ds ++ rest)) = (d :: ds, rest) := by
        rw [← List.cons_append, ← hds]
        exact takeDigits_append (natDigits_digits _) hok
      rw [hshape, parseVal_digitHead f' d (ds ++ rest) d ds rest hdig hd2, hval]
      have : ((n.natAbs : Nat) : Int) = n := by omega
      rw [this]
  | .str s, rest, f, hf, _ => by
    obtain ⟨f', rfl⟩ : ∃ f', f = f' + 1 := ⟨f - 1, by have := pFuel_pos (Json.str s); omega⟩
    show parseVal (f' + 1) ('"' :: ((escChars s.data ++ ['"']) ++ rest)) = some (.str s, rest)
    rw [show (escChars s.data ++ ['"']) ++ rest = escChars s.data ++ '"' :: rest from by simp]
    rw [show parseVal (f' + 1) ('"' :: (escChars s.data ++ '"' :: rest))
        = (parseStrAux false [] (escChars s.data ++ '"' :: rest)).map
            (fun p => (Json.str p.1, p.2)) from rfl]
    rw [parseStrAux_rt s.data [] rest]
    simp
  | .arr [], rest, f, hf, _ => by
    obtain ⟨f', rfl⟩ : ∃ f', f = f' + 1 :=
      ⟨f - 1, by have := pFuel_pos (Json.arr []); omega⟩
    rfl
  | .arr (x :: xs), rest, f, hf, _ => by
    obtain ⟨f', rfl⟩ : ∃ f', f = f' + 1 :=
      ⟨f - 1, by have := pFuel_pos (Json.arr (x :: xs)); omega⟩
    obtain ⟨c, r, hcr, hw, hrb, _⟩ := stringifyV_head x
    show parseVal (f' + 1) ('[' :: (stringifyArrBody (x :: xs) ++ rest))
      = some (.arr (x :: xs), rest)
    have hb : stringifyArrBody (x :: xs) ++ rest
        = stringifyV x ++ (stringifyElems xs ++ (']' :: rest)) := by
      rw [show stringifyArrBody (x :: xs)
          = stringifyV x ++ (stringifyElems xs ++ [']']) from rfl]
      simp
    have hfe : eFuelList (x :: xs) ≤ f' := by
      have : pFuel (Json.arr (x :: xs)) = 1 + eFuelList (x :: xs) := rfl
      omega
    rw [hb, hcr, List.cons_append, parseVal_obrack f' c _ hw hrb, ← List.cons_append, ← hcr,
      rtElems x xs rest f' hfe]
    rfl
  | .obj [], rest, f, hf, _ => by
    obtain ⟨f', rfl⟩ : ∃ f', f = f' + 1 :=
      ⟨f - 1, by have := pFuel_pos (Json.obj []); omega⟩
    rfl
  | .obj ((k, v) :: r), rest, f, hf, _ => by
    obtain ⟨f', rfl⟩ : ∃ f', f = f' + 1 :=
      ⟨f - 1, by have := pFuel_pos (Json.obj ((k, v) :: r)); omega⟩
    show parseVal (f' + 1) ('{' :: (stringifyObjBody ((k, v) :: r) ++ rest))
      = some (.obj ((k, v) :: r), rest)
    have hb : stringifyObjBody ((k, v) :: r) ++ rest
        = stringifyMember k v ++ (stringifyMembers r ++ ('}' :: rest)) := by
      rw [stringifyObjBody_cons]
      simp
    have hb2 : stringifyMember k v ++ (stringifyMembers r ++ ('}' :: rest))
        = '"' :: ((escChars k.data ++ ['"', ':'] ++ stringifyV v)
            ++ (stringifyMembers r ++ ('}' :: rest))) := by
      rw [stringifyMember, List.cons_append]
    have hfm : mFuelList ((k, v) :: r) ≤ f' := by
      have : pFuel (Json.obj ((k, v) :: r)) = 1 + mFuelList ((k, v) :: r) := rfl
      omega
    rw [hb, hb2, parseVal_obrace f' '"' _ (by decide) (by decide), ← List.cons_append,
      ← stringifyMember, rtMembers k v r rest f' hfm]
    rfl
termination_by o rest f hf hok => sizeOf o
decreasing_by all_goals (simp_wf; try omega)

theorem rtElems : ∀ (x : Json) (xs : List Json) (rest : List Char) (f : Nat),
    eFuelList (x :: xs) ≤ f →
    parseElems f (stringifyV x ++ (stringifyElems xs ++ ']' :: rest)) = some (x :: xs, rest)
  | x, [], rest, f, hf => by
    have hfx : eFuelList (x :: []) = 1 + max (pFuel x) (eFuelList []) := rfl
    obtain ⟨f', rfl⟩ : ∃ f', f = f' + 1 := ⟨f - 1, by omega⟩
    have hmax := Nat.le_max_left (pFuel x) (eFuelList [])
    have hpx : pFuel x ≤ f' := by omega
    show parseElems (f' + 1) (stringifyV x ++ (stringifyElems [] ++ ']' :: rest))
      = some ([x], rest)
    rw [show stringifyElems [] ++ ']' :: rest = ']' :: rest from rfl]
    exact parseElems_last f' _ rest x (rtV x (']' :: rest) f' hpx rfl)
  | x, y :: ys, rest, f, hf => by
    have hfx : eFuelList (x :: y :: ys) = 1 + max (pFuel x) (eFuelList (y :: ys)) := rfl
    obtain ⟨f', rfl⟩ : ∃ f', f = f' + 1 := ⟨f - 1, by omega⟩
    have hmax := Nat.le_max_left (pFuel x) (eFuelList (y :: ys))
    have hpx : pFuel x ≤ f' := by omega
    have hmax2 := Nat.le_max_right (pFuel x) (eFuelList (y :: ys))
    have hey : eFuelList (y :: ys) ≤ f' := by omega
    show parseElems (f' + 1) (stringifyV x ++ (stringifyElems (y :: ys) ++ ']' :: rest))
      = some (x :: y :: ys, rest)
    have hre : stringifyElems (y :: ys) ++ ']' :: rest
        = ',' :: (stringifyV y ++ (stringifyElems ys ++ ']' :: rest)) := by
      rw [show stringifyElems (y :: ys) = ',' :: (stringifyV y ++ stringifyElems ys) from rfl]
      simp
    rw [hre, parseElems_more f' _ _ x (rtV x _ f' hpx rfl), rtElems y ys rest f' hey]
    rfl
termination_by x xs rest f hf => sizeOf x + sizeOf xs
decreasing_by all_goals (simp_wf; try omega)

theorem rtMembers : ∀ (k : String) (v : Json) (kvs : List (String × Json)) (rest : List Char)
    (f : Nat), mFuelList ((k, v) :: kvs) ≤ f →
    parseMembers f (stringifyMember k v ++ (stringifyMembers kvs ++ '}' :: rest))
      = some ((k, v) :: kvs, rest)
  | k, v, [], rest, f, hf => by
    have hfx : mFuelList ((k, v) :: []) = 1 + max (pFuel v) (mFuelList []) := rfl
    obtain ⟨f', rfl⟩ : ∃ f', f = f' + 1 := ⟨f - 1, by omega⟩
    have hmax := Nat.le_max_left (pFuel v) (mFuelList [])
    have hpv : pFuel v ≤ f' := by omega
    have hshape : stringifyMember k v ++ (stringifyMembers [] ++ '}' :: rest)
        = '"' :: (escChars k.data ++ '"' :: ':'
            :: (stringifyV v ++ (stringifyMembers [] ++ '}' :: rest))) := by
      rw [stringifyMember]
      simp
    rw [hshape]
    have hv : parseVal f' (stringifyV v ++ (stringifyMembers [] ++ '}' :: rest))
        = some (v, '}' :: rest) := by
      rw [show stringifyMembers ([] : List (String × Json)) ++ '}' :: rest
          = '}' :: rest from rfl]
      exact rtV v ('}' :: rest) f' hpv rfl
    rw [show stringifyMembers ([] : List (String × Json)) ++ '}' :: rest
        = '}' :: rest from rfl] at hv ⊢
    exact parseMembers_last f' k _ rest v hv
  | k, v, (k2, v2) :: r2, rest, f, hf => by
    have hfx : mFuelList ((k, v) :: (k2, v2) :: r2)
        = 1 + max (pFuel v) (mFuelList ((k2, v2) :: r2)) := rfl
    obtain ⟨f', rfl⟩ : ∃ f', f = f' + 1 := ⟨f - 1, by omega⟩
    have hmax := Nat.le_max_left (pFuel v) (mFuelList ((k2, v2) :: r2))
    have hpv : pFuel v ≤ f' := by omega
    have hshape : stringifyMember k v ++ (stringifyMembers ((k2, v2) :: r2) ++ '}' :: rest)
        = '"' :: (escChars k.data ++ '"' :: ':'
            :: (stringifyV v ++ (stringifyMembers ((k2, v2) :: r2) ++ '}' :: rest))) := by
      rw [stringifyMember]
      simp
    have hmax2 := Nat.le_max_right (pFuel v) (mFuelList ((k2, v2) :: r2))
    have hm2 : mFuelList ((k2, v2) :: r2) ≤ f' := by omega
    rw [hshape]
    have hre : stringifyMembers ((k2, v2) :: r2) ++ '}' :: rest
        = ',' :: (stringifyMember k2 v2 ++ (stringifyMembers r2 ++ '}' :: rest)) := by
      rw [stringifyMembers_cons]
      simp
    rw [hre]
    have hv2 : parseVal f' (stringifyV v
        ++ (',' :: (stringifyMember k2 v2 ++ (stringifyMembers r2 ++ '}' :: rest))))
        = some (v, ',' :: (stringifyMember k2 v2 ++ (stringifyMembers r2 ++ '}' :: rest))) :=
      rtV v _ f' hpv rfl
    rw [parseMembers_more f' k _ _ v hv2, rtMembers k2 v2 r2 rest f' hm2]
    rfl
termination_by k v kvs rest f hf => sizeOf v + sizeOf kvs
decreasing_by all_goals (simp_wf; try omega)

end

mutual

theorem pFuel_le : ∀ o : Json, pFuel o ≤ (stringifyV o).length + 1
  | .null => by simp [pFuel, stringifyV]
  | .bool b => by cases b <;> simp [pFuel, stringifyV]
  | .num n => by
    have : pFuel (Json.num n) = 1 := rfl
    omega
  | .str s => by
    have : pFuel (Json.str s) = 1 := rfl
    omega
  | .arr [] => by simp [pFuel, eFuelList, stringifyV, stringifyArrBody]
  | .arr (x :: xs) => by
    have h1 := pFuel_le x
    have h2 := eFuelList_le xs
    have e1 : pFuel (Json.arr (x :: xs)) = 1 + (1 + max (pFuel x) (eFuelList xs)) := rfl
    have e2 : (stringifyV (Json.arr (x :: xs))).length
        = 1 + ((stringifyV x).length + ((stringifyElems xs).length + 1)) := by
      simp [stringifyV, stringifyArrBody]
      omega
    have h3 : max (pFuel x) (eFuelList xs)
        ≤ (stringifyV x).length + (stringifyElems xs).length + 1 :=
      max_le (by omega) (by omega)
    omega
  | .obj [] => by simp [pFuel, mFuelList, stringifyV, stringifyObjBody]
  | .obj ((k, v) :: r) => by
    have h1 := pFuel_le v
    have h2 := mFuelList_le r
    have e1 : pFuel (Json.obj ((k, v) :: r)) = 1 + (1 + max (pFuel v) (mFuelList r)) := rfl
    have e2 : (stringifyV (Json.obj ((k, v) :: r))).length
        = 1 + ((1 + ((escChars k.data).length + (2 + (stringifyV v).length)))
            + ((stringifyMembers r).length + 1)) := by
      simp [stringifyV, stringifyObjBody_cons, stringifyMember]
      omega
    have h3 : max (pFuel v) (mFuelList r)
        ≤ (stringifyV v).length + (stringifyMembers r).length + 1 :=
      max_le (by omega) (by omega)
    omega

theorem eFuelList_le : ∀ xs : List Json, eFuelList xs ≤ (stringifyElems xs).length + 1
  | [] => by simp [eFuelList]
  | x :: xs => by
    have h1 := pFuel_le x
    have h2 := eFuelList_le xs
    have e1 : eFuelList (x :: xs) = 1 + max (pFuel x) (eFuelList xs) := rfl
    have e2 : (stringifyElems (x :: xs)).length
        = 1 + ((stringifyV x).length + (stringifyElems xs).length) := by
      simp [stringifyElems]
      omega
    have h3 : max (pFuel x) (eFuelList xs)
        ≤ (stringifyV x).length + (stringifyElems xs).length + 1 :=
      max_le (by omega) (by omega)
    omega

theorem mFuelList_le : ∀ kvs : List (String × Json),
    mFuelList kvs ≤ (stringifyMembers kvs).length + 1
  | [] => by simp [mFuelList]
  | (k, v) :: r => by
    have h1 := pFuel_le v
    have h2 := mFuelList_le r
    have e1 : mFuelList ((k, v) :: r) = 1 + max (pFuel v) (mFuelList r) := rfl
    have e2 : (stringifyMembers ((k, v) :: r)).length
        = 1 + ((1 + ((escChars k.data).length + (2 + (stringifyV v).length)))
            + (stringifyMembers r).length) := by
      simp [stringifyMembers_cons, stringifyMember]
      omega
    have h3 : max (pFuel v) (mFuelList r)
        ≤ (stringifyV v).length + (stringifyMembers r).length + 1 :=
      max_le (by omega) (by omega)
    omega

end

/-- `JSON.parse` inverts `JSON.stringify` in this model. -/
theorem jsonParse_stringify (o : Json) : jsonParse (stringify o) = some o := by
  have hlen : pFuel o ≤ (stringifyV o).length + 1 := pFuel_le o
  have h := rtV o [] ((stringifyV o).length + 1) hlen rfl
  rw [List.append_nil] at h
  show (match parseVal ((stringifyV o).length + 1) (stringifyV o) with
    | some (v, r) => if skipWs r = [] then some v else none
    | none => none) = some o
  rw [h]
  rfl

/-! ### The argument recovery engine (`deserializeParams`, proxy.ts 33-84)

The TS function recurses into objects parsed out of strings; its termination
rests on the parsed value being smaller than the string.  The model uses
fuel plus the weight `jw`, which under-approximates the characters the
parser consumes, to pick a provably sufficient fuel. -/

/-- Does a string look like a JSON object/array (`value.trim()` starts and
ends with matching braces/brackets), as tested by `deserializeParams`? -/
def looksJson (s : String) : Bool :=
  let t := trimChars s.data
  (t.head? = some '{' && t.getLast? = some '}')
    || (t.head? = some '[' && t.getLast? = some ']')

mutual

/-- Weight of a value: a lower bound on the characters its JSON text uses. -/
def jw : Json → Nat
  | .null => 1
  | .bool _ => 1
  | .num _ => 1
  | .str s => s.data.length + 2
  | .arr xs => 1 + jwL xs
  | .obj kvs => 1 + jwF kvs

/-- Weight of array elements. -/
def jwL : List Json → Nat
  | [] => 0
  | x :: r => jw x + jwTail r

/-- Weight of non-initial array elements (with their commas). -/
def jwTail : List Json → Nat
  | [] => 0
  | x :: r => 1 + (jw x + jwTail r)

/-- Weight of object members. -/
def jwF : List (String × Json) → Nat
  | [] => 0
  | (_, v) :: r => jw v + 3 + jwFTail r

/-- Weight of non-initial object members (with their commas). -/
def jwFTail : List (String × Json) → Nat
  | [] => 0
  | (_, v) :: r => 1 + (jw v + 3 + jwFTail r)

end

mutual

/-- The entry loop of `deserializeParams`. -/
def dEntries : Nat → List (String × Json) → List (String × Json)
  | _, [] => []
  | 0, l => l
  | f + 1, (k, v) :: r => (k, dVal1 f v) :: dEntries f r

/-- The element loop of the array branch of `deserializeParams`. -/
def dElems : Nat → List Json → List Json
  | _, [] => []
  | 0, l => l
  | f + 1, x :: r => dElem1 f x :: dElems f r

/-- One entry value: a JSON-looking string is parsed (an object result is
recursively repaired, an array result kept as parsed), an array value has
its elements repaired, anything else passes through. -/
def dVal1 : Nat → Json → Json
  | 0, v => v
  | f + 1, Json.str s =>
    if looksJson s then
      match jsonParse s with
      | some (Json.obj kvs) => Json.obj (dEntries f kvs)
      | some (Json.arr xs) => Json.arr xs
      | _ => Json.str s
    else Json.str s
  | f + 1, Json.arr xs => Json.arr (dElems f xs)
  | _ + 1, v => v

/-- One array element: a JSON-looking string element is parsed the same
way; non-string elements pass through (arrays inside arrays are not
recursed into). -/
def dElem1 : Nat → Json → Json
  | 0, v => v
  | f + 1, Json.str s =>
    if looksJson s then
      match jsonParse s with
      | some (Json.obj kvs) => Json.obj (dEntries f kvs)
      | some (Json.arr xs) => Json.arr xs
      | _ => Json.str s
    else Json.str s
  | _ + 1, v => v

end

/-- `deserializeParams` from `proxy.ts`: repairs double-serialized values in
a tool-call argument object. -/
def deserializeParams (l : List (String × Json)) : List (String × Json) :=
  dEntries (jwF l + 1) l

theorem jw_pos (v : Json) : 1 ≤ jw v := by
  cases v <;> simp [jw] <;> try omega

theorem jwL_le_jwTail (l : List Json) : jwL l ≤ jwTail l := by
  cases l <;> simp [jwL, jwTail] <;> try omega

theorem jwF_le_jwFTail (l : List (String × Json)) : jwF l ≤ jwFTail l := by
  cases l with
  | nil => simp [jwF, jwFTail]
  | cons kv r =>
    obtain ⟨k, v⟩ := kv
    simp [jwF, jwFTail]

theorem skipWs_len (l : List Char) : (skipWs l).length ≤ l.length := by
  induction l with
  | nil => simp [skipWs]
  | cons c r ih =>
    rw [skipWs, List.dropWhile]
    split
    · exact le_trans ih (by simp)
    · simp

theorem takeDigits_len : ∀ l ds rest, takeDigits l = (ds, rest) →
    ds.length + rest.length = l.length := by
  intro l
  induction l with
  | nil =>
    intro ds rest h
    simp only [takeDigits, Prod.mk.injEq] at h
    obtain ⟨h1, h2⟩ := h
    subst h1; subst h2; rfl
  | cons c r ih =>
    intro ds rest h
    simp only [takeDigits] at h
    split_ifs at h with hd
    · simp only [Prod.mk.injEq] at h
      obtain ⟨h1, h2⟩ := h
      have := ih (takeDigits r).1 (takeDigits r).2 rfl
      subst h1; subst h2
      simp only [List.length_cons]
      omega
    · simp only [Prod.mk.injEq] at h
      obtain ⟨h1, h2⟩ := h
      subst h1; subst h2
      simp

theorem stripPfx_len : ∀ p l rr, stripPfx p l = some rr →
    p.length + rr.length = l.length := by
  intro p
  induction p with
  | nil =>
    intro l rr h
    simp only [stripPfx, Option.some.injEq] at h
    simp [h]
  | cons c p ih =>
    intro l rr h
    cases l with
    | nil => simp [stripPfx] at h
    | cons d l =>
      simp only [stripPfx] at h
      split_ifs at h with hd
      have := ih l rr h
      simp only [List.length_cons]
      omega

theorem parseStrAux_weight : ∀ (cs : List Char) (e : Bool) (acc : List Char) (s : String)
    (r : List Char), parseStrAux e acc cs = some (s, r) →
    s.data.length + 1 + r.length ≤ acc.length + cs.length + cond e 1 0 := by
  intro cs
  induction cs with
  | nil => intro e acc s r hp; cases e <;> simp [parseStrAux] at hp
  | cons c cs ih =>
    intro e acc s r hp
    cases e with
    | true =>
      simp only [parseStrAux] at hp
      split at hp
      · rename_i c' heq
        have := ih false (c' :: acc) s r hp
        simp only [List.length_cons, Bool.cond_true, Bool.cond_false] at this ⊢
        omega
      · simp at hp
    | false =>
      simp only [parseStrAux] at hp
      split_ifs at hp with h1 h2
      · simp only [Option.some.injEq, Prod.mk.injEq] at hp
        obtain ⟨hs, hr⟩ := hp
        subst hr
        have hlen : s.data.length = acc.length := by
          rw [← hs]
          show acc.reverse.length = acc.length
          exact List.length_reverse acc
        simp only [List.length_cons, Bool.cond_false]
        omega
      · have := ih true acc s r hp
        simp only [List.length_cons, Bool.cond_true, Bool.cond_false] at this ⊢
        omega
      · have := ih false (c :: acc) s r hp
        simp only [List.length_cons, Bool.cond_false] at this ⊢
        omega

theorem jwTail_le (l : List Json) : jwTail l ≤ jwL l + 1 := by
  cases l <;> simp [jwL, jwTail] <;> omega

theorem jwFTail_le (l : List (String × Json)) : jwFTail l ≤ jwF l + 1 := by
  cases l with
  | nil => simp [jwF, jwFTail]
  | cons kv r =>
    obtain ⟨k, v⟩ := kv
    simp [jwF, jwFTail]
    omega

theorem parseWeight : ∀ f : Nat,
    (∀ cs v r, parseVal f cs = some (v, r) → jw v + r.length ≤ cs.length)
  ∧ (∀ cs vs r, parseElems f cs = some (vs, r) → jwL vs + 1 + r.length ≤ cs.length)
  ∧ (∀ cs kvs r, parseMembers f cs = some (kvs, r) → jwF kvs + 1 + r.length ≤ cs.length) := by
  intro f
  induction f with
  | zero =>
    refine ⟨?_, ?_, ?_⟩ <;> intro cs a r hp <;>
      simp [parseVal, parseElems, parseMembers] at hp
  | succ f ih =>
    obtain ⟨ihV, ihE, ihM⟩ := ih
    refine ⟨?_, ?_, ?_⟩
    · intro cs v r hp
      simp only [parseVal] at hp
      split at hp
      · simp at hp
      · rename_i c r1 hs
        have hlen1 : r1.length + 1 ≤ cs.length := by
          have := skipWs_len cs
          rw [hs] at this
          simp only [List.length_cons] at this
          omega
        split at hp
        -- quote
        · cases hps : parseStrAux false [] r1 with
          | none => rw [hps] at hp; simp at hp
          | some p =>
            obtain ⟨s', r'⟩ := p
            rw [hps] at hp
            simp only [Option.map, Option.some.injEq, Prod.mk.injEq] at hp
            obtain ⟨hv, hr⟩ := hp
            subst hv; subst hr
            have hw := parseStrAux_weight r1 false [] s' r' hps
            simp only [List.length_nil, Bool.cond_false] at hw
            have hjw : jw (Json.str s') = s'.data.length + 2 := rfl
            omega
        -- obrace
        · split at hp
          · simp at hp
          · rename_i c2 r2 hs2
            have hlen2 : r2.length + 1 ≤ r1.length := by
              have := skipWs_len r1
              rw [hs2] at this
              simp only [List.length_cons] at this
              omega
            split_ifs at hp with hc2
            · simp only [Option.some.injEq, Prod.mk.injEq] at hp
              obtain ⟨hv, hr⟩ := hp
              subst hv; subst hr
              have hjw : jw (Json.obj []) = 1 := rfl
              omega
            · cases hpm : parseMembers f (c2 :: r2) with
              | none => rw [hpm] at hp; simp at hp
              | some p =>
                obtain ⟨kvs, r'⟩ := p
                rw [hpm] at hp
                have hw := ihM (c2 :: r2) kvs r' hpm
                simp only [Option.map, Option.some.injEq, Prod.mk.injEq] at hp
                obtain ⟨hv, hr⟩ := hp
                subst hv; subst hr
                simp only [List.length_cons] at hw
                have hjw : jw (Json.obj kvs) = 1 + jwF kvs := rfl
                omega
        -- obrack
        · split at hp
          · simp at hp
          · rename_i c2 r2 hs2
            have hlen2 : r2.length + 1 ≤ r1.length := by
              have := skipWs_len r1
              rw [hs2] at this
              simp only [List.length_cons] at this
              omega
            split_ifs at hp with hc2
            · simp only [Option.some.injEq, Prod.mk.injEq] at hp
              obtain ⟨hv, hr⟩ := hp
              subst hv; subst hr
              have hjw : jw (Json.arr []) = 1 := rfl
              omega
            · cases hpe : parseElems f (c2 :: r2) with
              | none => rw [hpe] at hp; simp at hp
              | some p =>
                obtain ⟨vs, r'⟩ := p
                rw [hpe] at hp
                have hw := ihE (c2 :: r2) vs r' hpe
                simp only [Option.map, Option.some.injEq, Prod.mk.injEq] at hp
                obtain ⟨hv, hr⟩ := hp
                subst hv; subst hr
                simp only [List.length_cons] at hw
                have hjw : jw (Json.arr vs) = 1 + jwL vs := rfl
                omega
        -- litN
        · split at hp
          · rename_i rr hrr
            simp only [Option.some.injEq, Prod.mk.injEq] at hp
            obtain ⟨hv, hr⟩ := hp
            subst hv; subst hr
            have := stripPfx_len _ _ _ hrr
            have hjw : jw Json.null = 1 := rfl
            simp only [List.length_cons, List.length_nil] at this
            omega
          · simp at hp
        -- litT
        · split at hp
          · rename_i rr hrr
            simp only [Option.some.injEq, Prod.mk.injEq] at hp
            obtain ⟨hv, hr⟩ := hp
            subst hv; subst hr
            have := stripPfx_len _ _ _ hrr
            have hjw : jw (Json.bool true) = 1 := rfl
            simp only [List.length_cons, List.length_nil] at this
            omega
          · simp at hp
        -- litF
        · split at hp
          · rename_i rr hrr
            simp only [Option.some.injEq, Prod.mk.injEq] at hp
            obtain ⟨hv, hr⟩ := hp
            subst hv; subst hr
            have := stripPfx_len _ _ _ hrr
            have hjw : jw (Json.bool false) = 1 := rfl
            simp only [List.length_cons, List.length_nil] at this
            omega
          · simp at hp
        -- minus
        · split at hp
          · simp at hp
          · rename_i ds rest hne hds
            simp only [Option.some.injEq, Prod.mk.injEq] at hp
            obtain ⟨hv, hr⟩ := hp
            subst hv; subst hr
            have := takeDigits_len _ _ _ hds
            have hd1 : 1 ≤ ds.length := by
              cases ds with
              | nil => exact absurd rfl hne
              | cons a b => simp
            have hjw : ∀ m : Int, jw (Json.num m) = 1 := fun _ => rfl
            rw [hjw]
            omega
        -- digit
        · split at hp
          · simp at hp
          · rename_i ds rest hne hds
            simp only [Option.some.injEq, Prod.mk.injEq] at hp
            obtain ⟨hv, hr⟩ := hp
            subst hv; subst hr
            have := takeDigits_len _ _ _ hds
            simp only [List.length_cons] at this
            have hd1 : 1 ≤ ds.length := by
              cases ds with
              | nil => exact absurd rfl hne
              | cons a b => simp
            have hjw : ∀ m : Int, jw (Json.num m) = 1 := fun _ => rfl
            rw [hjw]
            omega
        -- bad
        · simp at hp
    · intro cs vs r hp
      simp only [parseElems] at hp
      cases hpv : parseVal f cs with
      | none => rw [hpv] at hp; simp at hp
      | some p =>
        obtain ⟨v1, r1⟩ := p
        rw [hpv] at hp
        simp only [Option.bind_eq_bind, Option.some_bind] at hp
        have hwv := ihV cs v1 r1 hpv
        split at hp
        · simp at hp
        · rename_i c r2 hs2
          have hlen2 : r2.length + 1 ≤ r1.length := by
            have := skipWs_len r1
            rw [hs2] at this
            simp only [List.length_cons] at this
            omega
          split_ifs at hp with hc hc2
          · cases hpe : parseElems f r2 with
            | none => rw [hpe] at hp; simp at hp
            | some p2 =>
              obtain ⟨vs2, r3⟩ := p2
              rw [hpe] at hp
              simp only [Option.bind_eq_bind, Option.some_bind, Option.some.injEq,
                Prod.mk.injEq] at hp
              obtain ⟨hv, hr⟩ := hp
              subst hv; subst hr
              have hw2 := ihE r2 vs2 r3 hpe
              have hjl : jwL (v1 :: vs2) = jw v1 + jwTail vs2 := rfl
              have := jwTail_le vs2
              omega
          · simp only [Option.some.injEq, Prod.mk.injEq] at hp
            obtain ⟨hv, hr⟩ := hp
            subst hv; subst hr
            have hjl : jwL [v1] = jw v1 + 0 := rfl
            omega
    · intro cs kvs r hp
      simp only [parseMembers] at hp
      split at hp
      · simp at hp
      · rename_i c r1 hs
        have hlen1 : r1.length + 1 ≤ cs.length := by
          have := skipWs_len cs
          rw [hs] at this
          simp only [List.length_cons] at this
          omega
        split_ifs at hp with hq
        · cases hps : parseStrAux false [] r1 with
          | none => rw [hps] at hp; simp at hp
          | some p =>
            obtain ⟨k, r2⟩ := p
            rw [hps] at hp
            simp only [Option.bind_eq_bind, Option.some_bind] at hp
            have hwk := parseStrAux_weight r1 false [] k r2 hps
            simp only [List.length_nil, Bool.cond_false] at hwk
            split at hp
            · simp at hp
            · rename_i c2 r3 hs3
              have hlen3 : r3.length + 1 ≤ r2.length := by
                have := skipWs_len r2
                rw [hs3] at this
                simp only [List.length_cons] at this
                omega
              split_ifs at hp with hcol
              · cases hpv : parseVal f r3 with
                | none => rw [hpv] at hp; simp at hp
                | some p2 =>
                  obtain ⟨v, r4⟩ := p2
                  rw [hpv] at hp
                  simp only [Option.bind_eq_bind, Option.some_bind] at hp
                  have hwv := ihV r3 v r4 hpv
                  split at hp
                  · simp at hp
                  · rename_i c3 r5 hs5
                    have hlen5 : r5.length + 1 ≤ r4.length := by
                      have := skipWs_len r4
                      rw [hs5] at this
                      simp only [List.length_cons] at this
                      omega
                    split_ifs at hp with hcm hcb
                    · cases hpm : parseMembers f r5 with
                      | none => rw [hpm] at hp; simp at hp
                      | some p3 =>
                        obtain ⟨kvs2, r6⟩ := p3
                        rw [hpm] at hp
                        simp only [Option.bind_eq_bind, Option.some_bind,
                          Option.some.injEq, Prod.mk.injEq] at hp
                        obtain ⟨hv2, hr2⟩ := hp
                        subst hv2; subst hr2
                        have hw3 := ihM r5 kvs2 r6 hpm
                        have hjf : jwF ((k, v) :: kvs2) = jw v + 3 + jwFTail kvs2 := rfl
                        have := jwFTail_le kvs2
                        omega
                    · simp only [Option.some.injEq, Prod.mk.injEq] at hp
                      obtain ⟨hv2, hr2⟩ := hp
                      subst hv2; subst hr2
                      have hjf : jwF [(k, v)] = jw v + 3 + 0 := rfl
                      omega

theorem jsonParse_weight {s : String} {v : Json} (h : jsonParse s = some v) :
    jw v ≤ s.data.length := by
  unfold jsonParse at h
  split at h
  · rename_i v0 r0 hp
    split_ifs at h with hw
    · simp only [Option.some.injEq] at h
      subst h
      have := (parseWeight (s.data.length + 1)).1 s.data v0 r0 hp
      omega
  · simp at h

theorem dEntries_nil (f : Nat) : dEntries f [] = [] := by cases f <;> rfl

theorem dElems_nil (f : Nat) : dElems f [] = [] := by cases f <;> rfl

theorem dSuff : ∀ f : Nat,
    (∀ (l : List (String × Json)) (g : Nat), f ≤ g → jwF l + 1 ≤ f →
      dEntries f l = dEntries g l)
  ∧ (∀ (xs : List Json) (g : Nat), f ≤ g → jwL xs + 2 ≤ f → dElems f xs = dElems g xs)
  ∧ (∀ (v : Json) (g : Nat), f ≤ g → jw v + 2 ≤ f → dVal1 f v = dVal1 g v)
  ∧ (∀ (v : Json) (g : Nat), f ≤ g → jw v + 1 ≤ f → dElem1 f v = dElem1 g v) := by
  intro f
  induction f using Nat.strong_induction_on with
  | _ f ih =>
    refine ⟨?_, ?_, ?_, ?_⟩
    · intro l g hfg hw
      match l with
      | [] => rw [dEntries_nil, dEntries_nil]
      | (k, v) :: r =>
        have hjf : jwF ((k, v) :: r) = jw v + 3 + jwFTail r := rfl
        have hjv := jw_pos v
        have hft := jwF_le_jwFTail r
        obtain ⟨f1, rfl⟩ : ∃ f1, f = f1 + 1 := ⟨f - 1, by omega⟩
        obtain ⟨g1, rfl⟩ : ∃ g1, g = g1 + 1 := ⟨g - 1, by omega⟩
        have e1 : dEntries (f1 + 1) ((k, v) :: r) = (k, dVal1 f1 v) :: dEntries f1 r := rfl
        have e2 : dEntries (g1 + 1) ((k, v) :: r) = (k, dVal1 g1 v) :: dEntries g1 r := rfl
        rw [e1, e2,
          (ih f1 (by omega)).2.2.1 v g1 (by omega) (by omega),
          (ih f1 (by omega)).1 r g1 (by omega) (by omega)]
    · intro xs g hfg hw
      match xs with
      | [] => rw [dElems_nil, dElems_nil]
      | x :: r =>
        have hjl : jwL (x :: r) = jw x + jwTail r := rfl
        have hjx := jw_pos x
        have hlt := jwL_le_jwTail r
        obtain ⟨f1, rfl⟩ : ∃ f1, f = f1 + 1 := ⟨f - 1, by omega⟩
        obtain ⟨g1, rfl⟩ : ∃ g1, g = g1 + 1 := ⟨g - 1, by omega⟩
        have e1 : dElems (f1 + 1) (x :: r) = dElem1 f1 x :: dElems f1 r := rfl
        have e2 : dElems (g1 + 1) (x :: r) = dElem1 g1 x :: dElems g1 r := rfl
        rw [e1, e2,
          (ih f1 (by omega)).2.2.2 x g1 (by omega) (by omega),
          (ih f1 (by omega)).2.1 r g1 (by omega) (by omega)]
    · intro v g hfg hw
      have hjv := jw_pos v
      obtain ⟨f1, rfl⟩ : ∃ f1, f = f1 + 1 := ⟨f - 1, by omega⟩
      obtain ⟨g1, rfl⟩ : ∃ g1, g = g1 + 1 := ⟨g - 1, by omega⟩
      match v with
      | Json.null => rfl
      | Json.bool b => rfl
      | Json.num n => rfl
      | Json.obj kvs => rfl
      | Json.str s =>
        have hjs : jw (Json.str s) = s.data.length + 2 := rfl
        have e1 : dVal1 (f1 + 1) (Json.str s)
            = (if looksJson s then
                match jsonParse s with
                | some (Json.obj kvs) => Json.obj (dEntries f1 kvs)
                | some (Json.arr xs) => Json.arr xs
                | _ => Json.str s
              else Json.str s) := rfl
        have e2 : dVal1 (g1 + 1) (Json.str s)
            = (if looksJson s then
                match jsonParse s with
                | some (Json.obj kvs) => Json.obj (dEntries g1 kvs)
                | some (Json.arr xs) => Json.arr xs
                | _ => Json.str s
              else Json.str s) := rfl
        rw [e1, e2]
        by_cases hls : looksJson s = true
        · rw [if_pos hls, if_pos hls]
          cases hj : jsonParse s with
          | none => rfl
          | some j =>
            cases j with
            | obj kvs =>
              have hwj := jsonParse_weight hj
              have hjo : jw (Json.obj kvs) = 1 + jwF kvs := rfl
              exact congrArg Json.obj ((ih f1 (by omega)).1 kvs g1 (by omega) (by omega))
            | null => rfl
            | bool b => rfl
            | num n => rfl
            | str s2 => rfl
            | arr xs => rfl
        · rw [if_neg hls, if_neg hls]
      | Json.arr xs =>
        have hja : jw (Json.arr xs) = 1 + jwL xs := rfl
        have e1 : dVal1 (f1 + 1) (Json.arr xs) = Json.arr (dElems f1 xs) := rfl
        have e2 : dVal1 (g1 + 1) (Json.arr xs) = Json.arr (dElems g1 xs) := rfl
        rw [e1, e2]
        exact congrArg Json.arr ((ih f1 (by omega)).2.1 xs g1 (by omega) (by omega))
    · intro v g hfg hw
      have hjv := jw_pos v
      obtain ⟨f1, rfl⟩ : ∃ f1, f = f1 + 1 := ⟨f - 1, by omega⟩
      obtain ⟨g1, rfl⟩ : ∃ g1, g = g1 + 1 := ⟨g - 1, by omega⟩
      match v with
      | Json.null => rfl
      | Json.bool b => rfl
      | Json.num n => rfl
      | Json.obj kvs => rfl
      | Json.arr xs => rfl
      | Json.str s =>
        have hjs : jw (Json.str s) = s.data.length + 2 := rfl
        have e1 : dElem1 (f1 + 1) (Json.str s)
            = (if looksJson s then
                match jsonParse s with
                | some (Json.obj kvs) => Json.obj (dEntries f1 kvs)
                | some (Json.arr xs) => Json.arr xs
                | _ => Json.str s
              else Json.str s) := rfl
        have e2 : dElem1 (g1 + 1) (Json.str s)
            = (if looksJson s then
                match jsonParse s with
                | some (Json.obj kvs) => Json.obj (dEntries g1 kvs)
                | some (Json.arr xs) => Json.arr xs
                | _ => Json.str s
              else Json.str s) := rfl
        rw [e1, e2]
        by_cases hls : looksJson s = true
        · rw [if_pos hls, if_pos hls]
          cases hj : jsonParse s with
          | none => rfl
          | some j =>
            cases j with
            | obj kvs =>
              have hwj := jsonParse_weight hj
              have hjo : jw (Json.obj kvs) = 1 + jwF kvs := rfl
              exact congrArg Json.obj ((ih f1 (by omega)).1 kvs g1 (by omega) (by omega))
            | null => rfl
            | bool b => rfl
            | num n => rfl
            | str s2 => rfl
            | arr xs => rfl
        · rw [if_neg hls, if_neg hls]

/-- Any sufficient fuel computes `deserializeParams`. -/
theorem dEntries_eq_deserializeParams {f : Nat} {l : List (String × Json)}
    (h : jwF l + 1 ≤ f) : dEntries f l = deserializeParams l :=
  ((dSuff (jwF l + 1)).1 l f h (Nat.le_refl _)).symm

theorem trimChars_eq {l : List Char} (h1 : ∀ c, l.head? = some c → isWsChar c = false)
    (h2 : ∀ c, l.getLast? = some c → isWsChar c = false) : trimChars l = l := by
  unfold trimChars
  cases l with
  | nil => rfl
  | cons c r =>
    have hc : isWsChar c = false := h1 c rfl
    rw [List.dropWhile_cons, if_neg (by simp [hc])]
    cases hrev : (c :: r).reverse with
    | nil => exact absurd hrev (by simp)
    | cons d rt =>
      have hd : (c :: r).getLast? = some d := by
        rw [← List.head?_reverse, hrev]
        rfl
      have hdw : isWsChar d = false := h2 d hd
      rw [List.dropWhile_cons, if_neg (by simp [hdw]), ← hrev, List.reverse_reverse]

theorem stringify_obj_split (kvs : List (String × Json)) :
    ∃ mid, stringifyV (Json.obj kvs) = ('{' :: mid) ++ ['}'] := by
  cases kvs with
  | nil => exact ⟨[], rfl⟩
  | cons kv r =>
    obtain ⟨k, v⟩ := kv
    refine ⟨('"' :: (escChars k.data ++ ['"', ':'] ++ stringifyV v)) ++ stringifyMembers r, ?_⟩
    show '{' :: stringifyObjBody ((k, v) :: r) = _
    rw [show stringifyObjBody ((k, v) :: r)
        = ('"' :: (escChars k.data ++ ['"', ':'] ++ stringifyV v))
          ++ (stringifyMembers r ++ ['}']) from rfl]
    simp

theorem stringify_arr_split (xs : List Json) :
    ∃ mid, stringifyV (Json.arr xs) = ('[' :: mid) ++ [']'] := by
  cases xs with
  | nil => exact ⟨[], rfl⟩
  | cons x r =>
    refine ⟨stringifyV x ++ stringifyElems r, ?_⟩
    show '[' :: stringifyArrBody (x :: r) = _
    rw [show stringifyArrBody (x :: r) = stringifyV x ++ (stringifyElems r ++ [']']) from rfl]
    simp

theorem looksJson_stringify_obj (kvs : List (String × Json)) :
    looksJson (stringify (Json.obj kvs)) = true := by
  obtain ⟨mid, hmid⟩ := stringify_obj_split kvs
  unfold looksJson
  have hdata : (stringify (Json.obj kvs)).data = stringifyV (Json.obj kvs) := rfl
  rw [hdata, trimChars_eq, hmid]
  · have hlast : ('{' :: (mid ++ ['}'])).getLast? = some '}' := by
      rw [← List.cons_append]
      exact List.getLast?_concat _
    simp [hlast]
  · intro c hc
    rw [hmid] at hc
    simp at hc
    subst hc
    rfl
  · intro c hc
    rw [hmid, List.getLast?_concat] at hc
    simp at hc
    subst hc
    rfl

theorem looksJson_stringify_arr (xs : List Json) :
    looksJson (stringify (Json.arr xs)) = true := by
  obtain ⟨mid, hmid⟩ := stringify_arr_split xs
  unfold looksJson
  have hdata : (stringify (Json.arr xs)).data = stringifyV (Json.arr xs) := rfl
  rw [hdata, trimChars_eq, hmid]
  · have hlast : ('[' :: (mid ++ [']'])).getLast? = some ']' := by
      rw [← List.cons_append]
      exact List.getLast?_concat _
    simp [hlast]
  · intro c hc
    rw [hmid] at hc
    simp at hc
    subst hc
    rfl
  · intro c hc
    rw [hmid, List.getLast?_concat] at hc
    simp at hc
    subst hc
    rfl

/-- Is a string left untouched by the string branch of `deserializeParams`
(it does not look like JSON, or does not parse to an object/array)? -/
def benignStr (s : String) : Bool :=
  !looksJson s ||
    (match jsonParse s with
     | some (Json.obj _) => false
     | some (Json.arr _) => false
     | _ => true)

/-- Is an array element left untouched by recovery? -/
def benignElem : Json → Bool
  | .str s => benignStr s
  | _ => true

/-- Are all array elements left untouched by recovery? -/
def benignElems (xs : List Json) : Bool := xs.all benignElem

/-- Is an entry value left untouched by recovery? -/
def benignVal : Json → Bool
  | .str s => benignStr s
  | .arr xs => benignElems xs
  | _ => true

/-- Are all entries of an argument object left untouched by recovery? -/
def benignEntries (l : List (String × Json)) : Bool := l.all (fun e => benignVal e.2)

theorem benign_id : ∀ f : Nat,
    (∀ l, benignEntries l = true → dEntries f l = l)
  ∧ (∀ xs, benignElems xs = true → dElems f xs = xs)
  ∧ (∀ v, benignVal v = true → dVal1 f v = v)
  ∧ (∀ v, benignElem v = true → dElem1 f v = v) := by
  intro f
  induction f with
  | zero =>
    refine ⟨fun l _ => by cases l <;> rfl, fun xs _ => by cases xs <;> rfl,
      fun v _ => rfl, fun v _ => rfl⟩
  | succ f ih =>
    obtain ⟨ihE, ihL, ihV, ihX⟩ := ih
    have hstr : ∀ s, benignStr s = true →
        (if looksJson s then
          match jsonParse s with
          | some (Json.obj kvs) => Json.obj (dEntries f kvs)
          | some (Json.arr xs) => Json.arr xs
          | _ => Json.str s
        else Json.str s) = Json.str s := by
      intro s hb
      by_cases hls : looksJson s = true
      · rw [if_pos hls]
        unfold benignStr at hb
        rw [hls] at hb
        simp only [Bool.not_true, Bool.false_or] at hb
        cases hj : jsonParse s with
        | none => rfl
        | some j =>
          rw [hj] at hb
          cases j with
          | obj kvs => simp at hb
          | arr xs => simp at hb
          | null => rfl
          | bool b => rfl
          | num n => rfl
          | str s2 => rfl
      · rw [if_neg hls]
    refine ⟨?_, ?_, ?_, ?_⟩
    · intro l hb
      cases l with
      | nil => rfl
      | cons kv r =>
        obtain ⟨k, v⟩ := kv
        simp only [benignEntries, List.all_cons, Bool.and_eq_true] at hb
        have e1 : dEntries (f + 1) ((k, v) :: r) = (k, dVal1 f v) :: dEntries f r := rfl
        rw [e1, ihV v hb.1, ihE r hb.2]
    · intro xs hb
      cases xs with
      | nil => rfl
      | cons x r =>
        simp only [benignElems, List.all_cons, Bool.and_eq_true] at hb
        have e1 : dElems (f + 1) (x :: r) = dElem1 f x :: dElems f r := rfl
        rw [e1, ihX x hb.1, ihL r hb.2]
    · intro v hb
      cases v with
      | str s => exact hstr s hb
      | arr xs =>
        have e1 : dVal1 (f + 1) (Json.arr xs) = Json.arr (dElems f xs) := rfl
        rw [e1, ihL xs hb]
      | null => rfl
      | bool b => rfl
      | num n => rfl
      | obj kvs => rfl
    · intro v hb
      cases v with
      | str s => exact hstr s hb
      | null => rfl
      | bool b => rfl
      | num n => rfl
      | arr xs => rfl
      | obj kvs => rfl

theorem dEntries_single (f : Nat) (k : String) (v : Json) :
    dEntries (f + 1) [(k, v)] = [(k, dVal1 f v)] := by
  show (k, dVal1 f v) :: dEntries f [] = _
  rw [dEntries_nil]

/-- `deserializeParams` on a single string-valued argument, exposing the
string branch with an explicit sufficient fuel. -/
theorem deserialize_single_str (s : String) :
    deserializeParams [("x", Json.str s)]
      = [("x", dVal1 (s.data.length + 5) (Json.str s))] := by
  have hjw : jwF [("x", Json.str s)] + 1 ≤ s.data.length + 5 + 1 := by
    have : jwF [("x", Json.str s)] = s.data.length + 2 + 3 + 0 := rfl
    omega
  rw [← dEntries_eq_deserializeParams hjw, dEntries_single]

theorem dVal1_str_obj {f : Nat} {s : String} {kvs : List (String × Json)}
    (h1 : looksJson s = true) (h2 : jsonParse s = some (Json.obj kvs)) :
    dVal1 (f + 1) (Json.str s) = Json.obj (dEntries f kvs) := by
  simp only [dVal1, h1, if_true, h2]

theorem dVal1_str_arr {f : Nat} {s : String} {xs : List Json}
    (h1 : looksJson s = true) (h2 : jsonParse s = some (Json.arr xs)) :
    dVal1 (f + 1) (Json.str s) = Json.arr xs := by
  simp only [dVal1, h1, if_true, h2]

theorem dVal1_str_not_looks {f : Nat} {s : String}
    (h1 : looksJson s = false) :
    dVal1 (f + 1) (Json.str s) = Json.str s := by
  simp only [dVal1, h1, if_false, Bool.false_eq_true]

theorem dVal1_str_none {f : Nat} {s : String}
    (h2 : jsonParse s = none) :
    dVal1 (f + 1) (Json.str s) = Json.str s := by
  by_cases h1 : looksJson s = true
  · simp only [dVal1, h1, if_true, h2]
  · simp only [dVal1, h1, if_false, Bool.false_eq_true]

/-- Claim C3 counterexample (closed): for the non-null object
`o = { y: JSON.stringify({}) }`, recovery on
`{ x: JSON.stringify(o) }` parses the inner string leaf as well, so the
recovered entry `x` is `{ y: {} }`, which does not deep-equal `o`. -/
theorem C3_counterexample :
    deserializeParams
        [("x", Json.str (stringify (Json.obj [("y", Json.str (stringify (Json.obj [])))])))]
      = [("x", Json.obj [("y", Json.obj [])])]
    ∧ Json.obj [("y", Json.obj [])]
        ≠ Json.obj [("y", Json.str (stringify (Json.obj [])))] := by
  exact ⟨by decide, by decide⟩

/-- Claim C3 (corrected).  What `deserializeParams` actually guarantees on a
single entry `x` holding a string: (a) a stringified array round-trips
exactly; (b) a stringified object is recursively re-recovered, so the result
is the object with `deserializeParams` applied to its entries — it
deep-equals the original only when no entry value is itself a JSON-looking
string (or an array containing one), which is conjunct (c); (d) a string
that is not bracket-delimited after trimming is kept unchanged; (e) a
bracket-delimited string that does not parse is kept unchanged. -/
theorem C3_deserialize_roundtrip :
    (∀ xs : List Json,
      deserializeParams [("x", Json.str (stringify (Json.arr xs)))]
        = [("x", Json.arr xs)])
  ∧ (∀ kvs : List (String × Json),
      deserializeParams [("x", Json.str (stringify (Json.obj kvs)))]
        = [("x", Json.obj (deserializeParams kvs))])
  ∧ (∀ kvs : List (String × Json), benignEntries kvs = true →
      deserializeParams [("x", Json.str (stringify (Json.obj kvs)))]
        = [("x", Json.obj kvs)])
  ∧ (∀ s : String, looksJson s = false →
      deserializeParams [("x", Json.str s)] = [("x", Json.str s)])
  ∧ (∀ s : String, jsonParse s = none →
      deserializeParams [("x", Json.str s)] = [("x", Json.str s)]) := by
  refine ⟨?_, ?_, ?_, ?_, ?_⟩
  · intro xs
    rw [deserialize_single_str]
    rw [show (stringify (Json.arr xs)).data.length + 5
        = ((stringify (Json.arr xs)).data.length + 4) + 1 from by omega]
    rw [dVal1_str_arr (looksJson_stringify_arr xs) (jsonParse_stringify (Json.arr xs))]
  · intro kvs
    rw [deserialize_single_str]
    rw [show (stringify (Json.obj kvs)).data.length + 5
        = ((stringify (Json.obj kvs)).data.length + 4) + 1 from by omega]
    rw [dVal1_str_obj (looksJson_stringify_obj kvs) (jsonParse_stringify (Json.obj kvs))]
    have hb : jwF kvs + 1 ≤ (stringify (Json.obj kvs)).data.length + 4 := by
      have hw := jsonParse_weight (jsonParse_stringify (Json.obj kvs))
      have hjw : jw (Json.obj kvs) = 1 + jwF kvs := rfl
      omega
    rw [dEntries_eq_deserializeParams hb]
  · intro kvs hben
    rw [deserialize_single_str]
    rw [show (stringify (Json.obj kvs)).data.length + 5
        = ((stringify (Json.obj kvs)).data.length + 4) + 1 from by omega]
    rw [dVal1_str_obj (looksJson_stringify_obj kvs) (jsonParse_stringify (Json.obj kvs))]
    rw [(benign_id _).1 kvs hben]
  · intro s h1
    rw [deserialize_single_str]
    rw [show s.data.length + 5 = (s.data.length + 4) + 1 from by omega]
    rw [dVal1_str_not_looks h1]
  · intro s h2
    rw [deserialize_single_str]
    rw [show s.data.length + 5 = (s.data.length + 4) + 1 from by omega]
    rw [dVal1_str_none h2]

/-- Witness for C3: the corrected theorem applied at the spec scenarios
("plain text", an invalid bracket-delimited string, and a stringified
object whose entries are benign). -/
theorem C3_witness :
    (looksJson "plain text" = false
      ∧ deserializeParams [("x", Json.str "plain text")]
          = [("x", Json.str "plain text")])
  ∧ (jsonParse "\x7b not valid json \x7d" = none
      ∧ deserializeParams [("x", Json.str "\x7b not valid json \x7d")]
          = [("x", Json.str "\x7b not valid json \x7d")])
  ∧ (benignEntries [("y", Json.str "plain")] = true
      ∧ deserializeParams
            [("x", Json.str (stringify (Json.obj [("y", Json.str "plain")])))]
          = [("x", Json.obj [("y", Json.str "plain")])]) := by
  refine ⟨⟨by decide, C3_deserialize_roundtrip.2.2.2.1 "plain text" (by decide)⟩,
    ⟨by decide, C3_deserialize_roundtrip.2.2.2.2 "\x7b not valid json \x7d" (by decide)⟩,
    ⟨by decide, C3_deserialize_roundtrip.2.2.1 [("y", Json.str "plain")] (by decide)⟩⟩

/-! ### The OpenAPI → MCP converter (`openapi/parser.ts`)

The OpenAPI document and every schema node are modelled as `Json` values
(an absent key models `undefined`).  The converter instance's state — the
`schemaCache` record and the `nameCounter` — is threaded explicitly, and
the mutable `resolvedRefs` set of one top-level translation is threaded
alongside the cache.  Recursion through the document's reference graph is
not structural, so the recursive functions take fuel; entry points supply
a fuel large enough for the executions the theorems touch. -/

/-- Strip an exact string prefix (`ref.replace(/^.../, '')` with an
anchored pattern), `none` when the string does not start with it. -/
def stripPfxStr (p s : String) : Option String :=
  match stripPfx p.data s.data with
  | some r => some ⟨r⟩
  | none => none

/-- `String.prototype.startsWith`. -/
def strStarts (p s : String) : Bool := (stripPfx p.data s.data).isSome

/-- `String.prototype.split('/')` (auxiliary: accumulated segment is kept
reversed). -/
def splitSlashAux : List Char → List Char → List String
  | acc, [] => [⟨acc.reverse⟩]
  | acc, c :: r =>
    if c = '/' then ⟨acc.reverse⟩ :: splitSlashAux [] r else splitSlashAux (c :: acc) r

/-- `String.prototype.split('/')`. -/
def splitSlash (s : String) : List String := splitSlashAux [] s.data

/-- A canonical numeric property key: JS `arr[k]` hits an index only when
`k` is the canonical decimal form of the index. -/
def canonNat (s : String) : Option Nat :=
  match s.data with
  | [] => none
  | c :: r =>
    if (c :: r).all isDigitCh && (c != '0' || r.isEmpty) then some (digitsVal (c :: r))
    else none

mutual

/-- JS `String(v)` coercion (template literals, `+` concatenation):
arrays join their elements with commas, plain objects print as
`[object Object]`. -/
def jsStr : Json → String
  | .null => "null"
  | .bool b => if b then "true" else "false"
  | .num n => ⟨intChars n⟩
  | .str s => s
  | .arr xs => jsStrElems xs
  | .obj _ => "[object Object]"

/-- `Array.prototype.join(',')` over `String(·)` of the elements. -/
def jsStrElems : List Json → String
  | [] => ""
  | x :: r => jsStrElem x ++ jsStrTail r

/-- Non-initial joined elements, with their commas. -/
def jsStrTail : List Json → String
  | [] => ""
  | x :: r => "," ++ jsStrElem x ++ jsStrTail r

/-- One joined element: `join` prints `null` (and `undefined`) as the
empty string, unlike `String(null)`. -/
def jsStrElem : Json → String
  | .null => ""
  | .bool b => if b then "true" else "false"
  | .num n => ⟨intChars n⟩
  | .str s => s
  | .arr xs => jsStrElems xs
  | .obj _ => "[object Object]"

end

/-- ASCII lower-casing of one character (`String.prototype.toLowerCase`,
restricted to the ASCII letters the HTTP method names use). -/
def lowerCh (c : Char) : Char :=
  if 'A' ≤ c ∧ c ≤ 'Z' then Char.ofNat (c.toNat + 32) else c

/-- `String.prototype.toLowerCase` (ASCII). -/
def lowerStr (s : String) : String := ⟨s.data.map lowerCh⟩

/-- JS `a || b` for a possibly-undefined `a`: the value when truthy,
otherwise the default. -/
def jsOr (a : Option Json) (b : Json) : Json :=
  match a with
  | some v => if truthy v then v else b
  | none => b

/-- JS `a || b` kept optional: first operand when truthy, else second. -/
def jsOrO (a b : Option Json) : Option Json :=
  match a with
  | some v => if truthy v then some v else b
  | none => b

/-- Normalize for `??`: a JS `null` behaves like `undefined` in a
nullish-coalescing chain. -/
def nnOpt : Option Json → Option Json
  | some .null => none
  | o => o

/-- Index/value entries of a list (`Object.entries` on a JS array). -/
def idxEntries : Nat → List Json → List (String × Json)
  | _, [] => []
  | i, x :: r => (⟨natDigits i⟩, x) :: idxEntries (i + 1) r

/-- `Object.entries(v)`: an object's own entries, an array's (or a
string's) index/value pairs, and nothing for other primitives. -/
def entriesOf : Json → List (String × Json)
  | .obj kvs => kvs
  | .arr xs => idxEntries 0 xs
  | .str s => idxEntries 0 (s.data.map (fun ch => Json.str ⟨[ch]⟩))
  | _ => []

/-- The elements of an array value, `[]` otherwise (`for ... of` and
spread `...` are only used on arrays by the source; on a non-array they
throw, which the model does not represent). -/
def elemsOf : Json → List Json
  | .arr xs => xs
  | _ => []

/-- JS property access `current[part]` as the ref walker uses it: object
key lookup, array (or string) indexing by a canonical numeric key, and
the `length` property of arrays and strings. -/
def getField : Json → String → Option Json
  | .obj kvs, k => lookupList kvs k
  | .arr xs, k =>
    if k = "length" then some (Json.num xs.length) else
    match canonNat k with
    | some i => xs.get? i
    | none => none
  | .str s, k =>
    if k = "length" then some (Json.num s.data.length) else
    match canonNat k with
    | some i =>
      match s.data.get? i with
      | some ch => some (Json.str ⟨[ch]⟩)
      | none => none
    | none => none
  | _, _ => none

/-- The walk of `internalResolveRef` (parser.ts:40-43): follow each path
part; a missing or falsy intermediate aborts with `null`. -/
def refWalk : Json → List String → Option Json
  | cur, [] => some cur
  | cur, p :: r =>
    match getField cur p with
    | none => none
    | some v => if truthy v then refWalk v r else none

/-- `internalResolveRef` (parser.ts:30-46): `none` unless the ref starts
with `#/`, is not yet in the `resolvedRefs` set, and walks to a truthy
node; on success the ref is added to the set. -/
def internalResolveRef (doc : Json) (ref : String) (resolved : List String) :
    Option Json × List String :=
  match stripPfxStr "#/" ref with
  | none => (none, resolved)
  | some rest =>
    if ref ∈ resolved then (none, resolved)
    else
      match refWalk doc (splitSlash rest) with
      | none => (none, resolved)
      | some v => (some v, ref :: resolved)

/-- The converter's threaded state: the instance `schemaCache` record and
the `resolvedRefs` set of the current top-level translation. -/
structure CState where
  cache : List (String × Json)
  resolved : List String
deriving DecidableEq

/-- `ref.replace(/^#\x5c\x2fcomponents\x5c\x2fschemas\x5c\x2f\x2f, '#/$defs/')`:
rewrite the components prefix to the local-defs prefix, other refs
unchanged. -/
def rewriteRef (ref : String) : String :=
  match stripPfxStr "#/components/schemas/" ref with
  | some sfx => "#/$defs/" ++ sfx
  | none => ref

/-- The `description` entry spread into a preserved `$ref` node when the
referencing node carries the key (parser.ts:63), whatever its value. -/
def descKeep (kvs : List (String × Json)) : List (String × Json) :=
  match lookupList kvs "description" with
  | some d => [("description", d)]
  | none => []

/-- The description of the unresolved-ref fallback node (parser.ts:86):
the referencing node's `description ?? ''` when the key is present,
`''` otherwise. -/
def descFallback (kvs : List (String × Json)) : Json :=
  match lookupList kvs "description" with
  | some .null => Json.str ""
  | some d => d
  | none => Json.str ""

/-- The fixed binary-format description text (parser.ts:106). -/
def binaryDesc : String := "absolute paths to local files"

/-- parser.ts:99-101 — copy a truthy `type` into the result. -/
def stepType (schema : Json) (res : List (String × Json)) : List (String × Json) :=
  match Json.get schema "type" with
  | some t => if truthy t then assignKey res "type" t else res
  | none => res

/-- parser.ts:104-115 — `format: 'binary'` becomes `uri-reference` with the
enhanced description; otherwise truthy `format` and `description` are
copied. -/
def stepFormatDesc (schema : Json) (res : List (String × Json)) : List (String × Json) :=
  if Json.get schema "format" = some (Json.str "binary") then
    let res1 := assignKey res "format" (Json.str "uri-reference")
    match Json.get schema "description" with
    | some d =>
      if truthy d then
        assignKey res1 "description" (Json.str (jsStr d ++ " (" ++ binaryDesc ++ ")"))
      else assignKey res1 "description" (Json.str binaryDesc)
    | none => assignKey res1 "description" (Json.str binaryDesc)
  else
    let res1 :=
      match Json.get schema "format" with
      | some fv => if truthy fv then assignKey res "format" fv else res
      | none => res
    match Json.get schema "description" with
    | some d => if truthy d then assignKey res1 "description" d else res1
    | none => res1

/-- parser.ts:117-119 — copy a truthy `enum`. -/
def stepEnum (schema : Json) (res : List (String × Json)) : List (String × Json) :=
  match Json.get schema "enum" with
  | some v => if truthy v then assignKey res "enum" v else res
  | none => res

/-- parser.ts:122-124 — copy `const` when the key is present (a present
key is never `undefined` in the model). -/
def stepConst (schema : Json) (res : List (String × Json)) : List (String × Json) :=
  match Json.get schema "const" with
  | some v => assignKey res "const" v
  | none => res

/-- parser.ts:126-128 — copy `default` when the key is present. -/
def stepDefault (schema : Json) (res : List (String × Json)) : List (String × Json) :=
  match Json.get schema "default" with
  | some v => assignKey res "default" v
  | none => res

/-- parser.ts:139-141 — copy a truthy `required` as-is. -/
def stepRequired (schema : Json) (res : List (String × Json)) : List (String × Json) :=
  match Json.get schema "required" with
  | some v => if truthy v then assignKey res "required" v else res
  | none => res

mutual

/-- `convertOpenApiSchemaToJsonSchema` (parser.ts:52-169), fuel-indexed.
A reference node (an object with a string under `$ref`) takes the ref
branch: in preserved mode (`resolveRefs = false`) a `#/components/schemas/`
ref returns a rewritten local `$ref` node at once; any other ref falls
through to the cache/resolution path.  A non-object input (or a `$ref` key
holding a non-string, on which the TS code throws) is modelled as `null`. -/
def convertOpenApiSchemaToJsonSchema (doc : Json) :
    Nat → Json → Bool → CState → Json × CState
  | 0, _, _, st => (Json.null, st)
  | f + 1, .obj kvs, resolveRefs, st =>
    match lookupList kvs "$ref" with
    | some (.str ref) =>
      if resolveRefs = false && strStarts "#/components/schemas/" ref then
        (Json.obj (("$ref", Json.str (rewriteRef ref)) :: descKeep kvs), st)
      else
        match lookupList st.cache ref with
        | some cached =>
          if truthy cached then (cached, st) else resolveAndCache doc f ref kvs resolveRefs st
        | none => resolveAndCache doc f ref kvs resolveRefs st
    | some _ => (Json.null, st)
    | none => inlinePart doc f (.obj kvs) resolveRefs st
  | f + 1, .arr xs, resolveRefs, st => inlinePart doc f (.arr xs) resolveRefs st
  | _ + 1, _, _, st => (Json.null, st)

/-- parser.ts:80-93 — resolve the ref in the document (the dead local
`refSchema` of lines 70-73 is not modelled): failure yields the fallback
`$ref`/`description` node; success recurses into the resolved schema and
caches the conversion after the recursion returns. -/
def resolveAndCache (doc : Json) :
    Nat → String → List (String × Json) → Bool → CState → Json × CState
  | 0, _, _, _, st => (Json.null, st)
  | f + 1, ref, kvs, resolveRefs, st =>
    match internalResolveRef doc ref st.resolved with
    | (none, res1) =>
      (Json.obj [("$ref", Json.str (rewriteRef ref)), ("description", descFallback kvs)],
        ⟨st.cache, res1⟩)
    | (some s, res1) =>
      let p := convertOpenApiSchemaToJsonSchema doc f s resolveRefs ⟨st.cache, res1⟩
      (p.1, ⟨assignKey p.2.cache ref p.1, p.2.resolved⟩)

/-- parser.ts:97-168 — the inline branch: the result object is built by
key assignment in source order; the object branch, the array branch and
the three composition branches are split into helper stages below. -/
def inlinePart (doc : Json) : Nat → Json → Bool → CState → Json × CState
  | 0, _, _, st => (Json.null, st)
  | f + 1, schema, resolveRefs, st =>
    let r5 := stepDefault schema (stepConst schema (stepEnum schema
      (stepFormatDesc schema (stepType schema []))))
    let pA := composePart doc f schema "allOf" resolveRefs
      (composePart doc f schema "anyOf" resolveRefs
        (composePart doc f schema "oneOf" resolveRefs
          (arrBranchPart doc f schema resolveRefs
            (objBranchPart doc f schema resolveRefs (r5, st)))))
    (Json.obj pA.1, pA.2)

/-- parser.ts:131-149 — the `type: 'object'` branch: `type` is
(re)assigned, truthy `properties` are converted entrywise, truthy
`required` is copied, and `additionalProperties` is normalized (absent or
`true` stays `true`, object-typed values are converted, anything else
becomes `false`). -/
def objBranchPart (doc : Json) :
    Nat → Json → Bool → List (String × Json) × CState → List (String × Json) × CState
  | 0, _, _, p => p
  | f + 1, schema, resolveRefs, p =>
    if Json.get schema "type" = some (Json.str "object") then
      let rA := assignKey p.1 "type" (Json.str "object")
      let pB : List (String × Json) × CState :=
        match Json.get schema "properties" with
        | some pv =>
          if truthy pv then
            let pr := convertPairs doc f (entriesOf pv) resolveRefs p.2
            (assignKey rA "properties" (Json.obj (assignAll [] pr.1)), pr.2)
          else (rA, p.2)
        | none => (rA, p.2)
      let rC := stepRequired schema pB.1
      match Json.get schema "additionalProperties" with
      | none => (assignKey rC "additionalProperties" (Json.bool true), pB.2)
      | some (.bool true) => (assignKey rC "additionalProperties" (Json.bool true), pB.2)
      | some (.obj akvs) =>
        let pc := convertOpenApiSchemaToJsonSchema doc f (.obj akvs) resolveRefs pB.2
        (assignKey rC "additionalProperties" pc.1, pc.2)
      | some (.arr axs) =>
        let pc := convertOpenApiSchemaToJsonSchema doc f (.arr axs) resolveRefs pB.2
        (assignKey rC "additionalProperties" pc.1, pc.2)
      | some _ => (assignKey rC "additionalProperties" (Json.bool false), pB.2)
    else p

/-- parser.ts:152-155 — the `type: 'array'` branch: with truthy `items`,
`type` is reassigned and the item schema converted. -/
def arrBranchPart (doc : Json) :
    Nat → Json → Bool → List (String × Json) × CState → List (String × Json) × CState
  | 0, _, _, p => p
  | f + 1, schema, resolveRefs, p =>
    if Json.get schema "type" = some (Json.str "array") then
      match Json.get schema "items" with
      | some iv =>
        if truthy iv then
          let pc := convertOpenApiSchemaToJsonSchema doc f iv resolveRefs p.2
          (assignKey (assignKey p.1 "type" (Json.str "array")) "items" pc.1, pc.2)
        else p
      | none => p
    else p

/-- parser.ts:158-166 — one composition branch (`oneOf`, `anyOf` or
`allOf`, passed as `key`): an array value is converted elementwise (a
truthy non-array, on which `.map` throws, leaves the model's result
unchanged). -/
def composePart (doc : Json) :
    Nat → Json → String → Bool → List (String × Json) × CState →
    List (String × Json) × CState
  | 0, _, _, _, p => p
  | f + 1, schema, key, resolveRefs, p =>
    match Json.get schema key with
    | some (.arr xs) =>
      let pc := convertListJ doc f xs resolveRefs p.2
      (assignKey p.1 key (Json.arr pc.1), pc.2)
    | _ => p

/-- The `properties` loop (parser.ts:134-137): converted entries in
source order. -/
def convertPairs (doc : Json) :
    Nat → List (String × Json) → Bool → CState → List (String × Json) × CState
  | 0, _, _, st => ([], st)
  | _ + 1, [], _, st => ([], st)
  | f + 1, (k, v) :: r, resolveRefs, st =>
    let p := convertOpenApiSchemaToJsonSchema doc f v resolveRefs st
    let q := convertPairs doc f r resolveRefs p.2
    ((k, p.1) :: q.1, q.2)

/-- The `oneOf`/`anyOf`/`allOf` maps (parser.ts:158-166). -/
def convertListJ (doc : Json) :
    Nat → List Json → Bool → CState → List Json × CState
  | 0, _, _, st => ([], st)
  | _ + 1, [], _, st => ([], st)
  | f + 1, x :: r, resolveRefs, st =>
    let p := convertOpenApiSchemaToJsonSchema doc f x resolveRefs st
    let q := convertListJ doc f r resolveRefs p.2
    (p.1 :: q.1, q.2)

end

/-- The fold of `convertComponentsToJsonSchema` (parser.ts:261-263): each
entry is converted in preserved mode with a fresh `resolvedRefs` set; the
cache persists across entries.  The accumulator is (schema map, cache). -/
def componentsFold (doc : Json) (f : Nat) :
    List (String × Json) → List (String × Json) × List (String × Json) →
    List (String × Json) × List (String × Json)
  | [], acc => acc
  | (k, v) :: r, acc =>
    let p := convertOpenApiSchemaToJsonSchema doc f v false ⟨acc.2, []⟩
    componentsFold doc f r (assignKey acc.1 k p.1, p.2.cache)

/-- `convertComponentsToJsonSchema` (parser.ts:258-265): the converted
`components.schemas` map, plus the updated cache. -/
def convertComponentsToJsonSchema (doc : Json) (f : Nat) (cache : List (String × Json)) :
    List (String × Json) × List (String × Json) :=
  componentsFold doc f
    (entriesOf (jsOr (Json.get (jsOr (Json.get doc "components") (Json.obj [])) "schemas")
      (Json.obj [])))
    ([], cache)

/-- `resolveParameter` (parser.ts:332-342): a parameter without `$ref` is
returned as-is; a ref parameter resolves through a fresh set and is kept
only when the resolved node has a truthy `name`. -/
def resolveParameter (doc : Json) (param : Json) : Option Json :=
  match Json.get param "$ref" with
  | none => some param
  | some (.str ref) =>
    match (internalResolveRef doc ref []).1 with
    | some r => if truthyO (Json.get r "name") then some r else none
    | none => none
  | some _ => none

/-- `resolveRequestBody` (parser.ts:344-354). -/
def resolveRequestBody (doc : Json) (body : Json) : Option Json :=
  match Json.get body "$ref" with
  | none => some body
  | some (.str ref) => (internalResolveRef doc ref []).1
  | some _ => none

/-- `resolveResponse` (parser.ts:356-366). -/
def resolveResponse (doc : Json) (response : Json) : Option Json :=
  match Json.get response "$ref" with
  | none => some response
  | some (.str ref) => (internalResolveRef doc ref []).1
  | some _ => none

/-- `withStringFallback` (parser.ts:490-516): complex schemas become
`anyOf [schema, string]`; arrays with items widen the item schema;
anything else is unchanged. -/
def withStringFallback (schema : Json) : Json :=
  let isComplex :=
    Json.get schema "type" = some (Json.str "object")
      || (Json.get schema "$ref").isSome
      || (Json.get schema "anyOf").isSome
      || (Json.get schema "oneOf").isSome
      || (Json.get schema "allOf").isSome
  if isComplex then
    Json.obj [("anyOf", Json.arr [schema, Json.obj [("type", Json.str "string")]])]
  else
    if Json.get schema "type" = some (Json.str "array") then
      match Json.get schema "items" with
      | some items =>
        if truthy items then
          match schema with
          | .obj kvs =>
            Json.obj (assignKey kvs "items" (Json.obj [("anyOf", Json.arr
              [items, Json.obj [("type", Json.str "string")],
               Json.obj [("type", Json.str "object"),
                 ("additionalProperties", Json.bool true)]])]))
          | v => v
        else schema
      | none => schema
    else schema

/-- parser.ts:539-544 — the non-JSON fallbacks of `extractResponseType`. -/
def extractResponseFallback (respObj cv : Json)
    (cache : List (String × Json)) : Option Json × List (String × Json) :=
  if truthyO (Json.get cv "image/png") || truthyO (Json.get cv "image/jpeg") then
    (some (Json.obj [("type", Json.str "string"), ("format", Json.str "binary"),
      ("description", jsOr (Json.get respObj "description") (Json.str ""))]), cache)
  else
    (some (Json.obj [("type", Json.str "string"),
      ("description", jsOr (Json.get respObj "description") (Json.str ""))]), cache)

/-- `extractResponseType` (parser.ts:518-545): the first truthy success
response (200, 201, 202, 204) decides; a JSON response schema is converted
in preserved mode and gets `$defs` assigned afterwards, with the response
description attached only when the conversion left none; image responses
and everything else fall back to string placeholders.  Returns the schema
(`none` models `null`) and the updated cache. -/
def extractResponseType (doc : Json) (f : Nat) (responses : Option Json)
    (cache : List (String × Json)) : Option Json × List (String × Json) :=
  let get2 : String → Option Json := fun code =>
    match responses with
    | some r => Json.get r code
    | none => none
  match jsOrO (get2 "200") (jsOrO (get2 "201") (jsOrO (get2 "202") (get2 "204"))) with
  | none => (none, cache)
  | some sv =>
    if truthy sv = false then (none, cache) else
    match resolveResponse doc sv with
    | none => (none, cache)
    | some respObj =>
      match Json.get respObj "content" with
      | none => (none, cache)
      | some cv =>
        if truthy cv = false then (none, cache) else
        let appJson :=
          match Json.get cv "application/json" with
          | some aj => Json.get aj "schema"
          | none => none
        match appJson with
        | some sch =>
          if truthy sch then
            let p := convertOpenApiSchemaToJsonSchema doc f sch false ⟨cache, []⟩
            let q := convertComponentsToJsonSchema doc f p.2.cache
            let withDefs :=
              match p.1 with
              | .obj kvs => Json.obj (assignKey kvs "$defs" (Json.obj q.1))
              | v => v
            let final :=
              match withDefs with
              | .obj kvs2 =>
                match Json.get respObj "description" with
                | some dv =>
                  if truthy dv && !truthyO (lookupList kvs2 "description") then
                    Json.obj (assignKey kvs2 "description" dv)
                  else Json.obj kvs2
                | none => Json.obj kvs2
              | v => v
            (some final, q.2)
          else
            extractResponseFallback respObj cv cache
        | none => extractResponseFallback respObj cv cache

/-- A converted MCP tool method (the `NewToolMethod` record): the
description is kept as a JS value, since the source only coerces it to a
string when it appends error responses or the `Notion | ` prefix. -/
structure MCPMethod where
  name : String
  description : Json
  inputSchema : Json
  returnSchema : Option Json
deriving DecidableEq

/-- Assignment `schema.description = d` on a converted schema node. -/
def setDescription (schema : Json) (d : Json) : Json :=
  match schema with
  | .obj kvs => Json.obj (assignKey kvs "description" d)
  | v => v

/-- The parameter loop of `convertOperationToMCPMethod` (parser.ts:384-399).
The accumulator is (properties entries, required values, cache).  A
parameter's property key is the JS string coercion of its `name` (the key
is `"undefined"` when the name is absent); the raw `name` value is what is
pushed onto `required` (`null` models pushing `undefined`). -/
def paramsFold (doc : Json) (f : Nat) :
    List Json → List (String × Json) × List Json × List (String × Json) →
    List (String × Json) × List Json × List (String × Json)
  | [], acc => acc
  | p :: r, acc =>
    match resolveParameter doc p with
    | none => paramsFold doc f r acc
    | some paramObj =>
      match Json.get paramObj "schema" with
      | none => paramsFold doc f r acc
      | some psch =>
        if truthy psch = false then paramsFold doc f r acc
        else
          let cnv := convertOpenApiSchemaToJsonSchema doc f psch false ⟨acc.2.2, []⟩
          let schemaJ :=
            match Json.get paramObj "description" with
            | some d => if truthy d then setDescription cnv.1 d else cnv.1
            | none => cnv.1
          let keyName :=
            match Json.get paramObj "name" with
            | some nv => jsStr nv
            | none => "undefined"
          let props1 := assignKey acc.1 keyName (withStringFallback schemaJ)
          let req1 :=
            if truthyO (Json.get paramObj "required") then
              acc.2.1 ++ [jsOr (Json.get paramObj "name") Json.null]
            else acc.2.1
          paramsFold doc f r (props1, req1, cnv.2.cache)

/-- Merge a converted body schema's properties (each wrapped by
`withStringFallback`) into the accumulated properties, in source order. -/
def propsAssignAll : List (String × Json) → List (String × Json) → List (String × Json)
  | props, [] => props
  | props, (k, v) :: r => propsAssignAll (assignKey props k (withStringFallback v)) r

/-- The object-body merge of parser.ts:410-417 / 423-429: when the
converted body schema has `type: 'object'` and truthy `properties`, its
properties (string-fallback wrapped) and its `required` list are merged;
`none` when the body schema is not such an object. -/
def mergeObjectSchema (props : List (String × Json)) (req : List Json) (conv : Json) :
    Option (List (String × Json) × List Json) :=
  if Json.get conv "type" = some (Json.str "object") then
    match Json.get conv "properties" with
    | some pv =>
      if truthy pv then
        let props1 := propsAssignAll props (entriesOf pv)
        let req1 :=
          match Json.get conv "required" with
          | some rv => if truthy rv then req ++ elemsOf rv else req
          | none => req
        some (props1, req1)
      else none
    | none => none
  else none

/-- parser.ts:420-435 — the `application/json` alternative of the body
handling. -/
def bodyFoldJson (doc : Json) (f : Nat) (cv : Json)
    (acc : List (String × Json) × List Json × List (String × Json)) :
    List (String × Json) × List Json × List (String × Json) :=
  let ajSchema :=
    match Json.get cv "application/json" with
    | some aj => Json.get aj "schema"
    | none => none
  match ajSchema with
  | some bsch =>
    if truthy bsch then
      let cnv := convertOpenApiSchemaToJsonSchema doc f bsch false ⟨acc.2.2, []⟩
      match mergeObjectSchema acc.1 acc.2.1 cnv.1 with
      | some pr => (pr.1, pr.2, cnv.2.cache)
      | none =>
        (assignKey acc.1 "body" (withStringFallback cnv.1),
          acc.2.1 ++ [Json.str "body"], cnv.2.cache)
    else acc
  | none => acc

/-- The request-body handling of `convertOperationToMCPMethod`
(parser.ts:402-437): `multipart/form-data` is preferred; its non-object
body schemas contribute nothing, while a non-object `application/json`
body schema lands under a required `body` property. -/
def bodyFold (doc : Json) (f : Nat) (operation : Json)
    (acc : List (String × Json) × List Json × List (String × Json)) :
    List (String × Json) × List Json × List (String × Json) :=
  match Json.get operation "requestBody" with
  | none => acc
  | some rb =>
    if truthy rb = false then acc else
    match resolveRequestBody doc rb with
    | none => acc
    | some bodyObj =>
      match Json.get bodyObj "content" with
      | none => acc
      | some cv =>
        if truthy cv = false then acc else
        let mpSchema :=
          match Json.get cv "multipart/form-data" with
          | some m => Json.get m "schema"
          | none => none
        match mpSchema with
        | some msch =>
          if truthy msch then
            let cnv := convertOpenApiSchemaToJsonSchema doc f msch false ⟨acc.2.2, []⟩
            match mergeObjectSchema acc.1 acc.2.1 cnv.1 with
            | some pr => (pr.1, pr.2, cnv.2.cache)
            | none => (acc.1, acc.2.1, cnv.2.cache)
          else bodyFoldJson doc f cv acc
        | none => bodyFoldJson doc f cv acc

/-- Join with newlines (`Array.prototype.join('\n')` on strings),
non-initial elements. -/
def joinNLTail : List String → String
  | [] => ""
  | x :: r => "\n" ++ x ++ joinNLTail r

/-- `Array.prototype.join('\n')` on strings. -/
def joinNL : List String → String
  | [] => ""
  | x :: r => x ++ joinNLTail r

/-- The error-response lines of parser.ts:442-448: `code: description` for
every response entry whose code starts with 4 or 5. -/
def errLines (doc : Json) : List (String × Json) → List String
  | [] => []
  | (code, response) :: r =>
    if strStarts "4" code || strStarts "5" code then
      let errorDesc :=
        match resolveResponse doc response with
        | some ro => jsOr (Json.get ro "description") (Json.str "")
        | none => Json.str ""
      (code ++ ": " ++ jsStr errorDesc) :: errLines doc r
    else errLines doc r

/-- `convertOperationToMCPMethod` (parser.ts:368-481): `none` models the
`null` returns (a falsy `operationId`; a non-string `operationId` later
throws in `ensureUniqueName` and is also modelled as `none`).  The
`$defs` map is converted first, then parameters, then the request body;
the response type conversion threads the cache last. -/
def convertOperationToMCPMethod (doc : Json) (f : Nat) (operation : Json)
    (cache : List (String × Json)) : Option MCPMethod × List (String × Json) :=
  match Json.get operation "operationId" with
  | none => (none, cache)
  | some mid =>
    if truthy mid = false then (none, cache) else
    match mid with
    | .str methodName =>
      let q := convertComponentsToJsonSchema doc f cache
      let afterParams :=
        match Json.get operation "parameters" with
        | some pv =>
          if truthy pv then paramsFold doc f (elemsOf pv) ([], [], q.2) else ([], [], q.2)
        | none => ([], [], q.2)
      let afterBody := bodyFold doc f operation afterParams
      let baseDesc :=
        jsOr (Json.get operation "summary") (jsOr (Json.get operation "description") (Json.str ""))
      let errs :=
        match Json.get operation "responses" with
        | some resp => if truthy resp then errLines doc (entriesOf resp) else []
        | none => []
      let descJ :=
        if errs.isEmpty then baseDesc
        else Json.str (jsStr baseDesc ++ "\nError Responses:\n" ++ joinNL errs)
      let ret := extractResponseType doc f (Json.get operation "responses") afterBody.2.2
      let inputSchema := Json.obj
        [("$defs", Json.obj q.1), ("type", Json.str "object"),
         ("properties", Json.obj afterBody.1), ("required", Json.arr afterBody.2.1)]
      (some ⟨methodName, descJ, inputSchema, ret.1⟩, ret.2)
    | _ => (none, cache)

/-- `nameCounter.toString().padStart(4, '0')`. -/
def pad4 (n : Nat) : String :=
  ⟨List.replicate (4 - (natDigits n).length) '0' ++ natDigits n⟩

/-- `ensureUniqueName` with `generateUniqueSuffix` (parser.ts:547-560):
names of length ≤ 64 pass through; longer names keep their first 59
characters and get a hyphen and the zero-padded incremented counter. -/
def ensureUniqueName (name : String) (counter : Nat) : String × Nat :=
  if name.length ≤ 64 then (name, counter)
  else (⟨name.data.take 59⟩ ++ "-" ++ pad4 (counter + 1), counter + 1)

/-- `getDescription` (parser.ts:562-568): the `Notion | ` prefix exactly
when the document's `info.title` is `Notion API`. -/
def getDescription (doc : Json) (d : Json) : Json :=
  let title :=
    match Json.get doc "info" with
    | some iv => Json.get iv "title"
    | none => none
  if title = some (Json.str "Notion API") then Json.str ("Notion | " ++ jsStr d) else d

/-- `isOperation` (parser.ts:320-322). -/
def isOperation (method : String) : Bool :=
  (["get", "post", "put", "delete", "patch"] : List String).contains (lowerStr method)

/-- The accumulator of `convertToMCPTools`: the single tool's method list,
the `openApiLookup` record, the schema cache, and the name counter (the
`zip` record pairs the same data and is not modelled separately). -/
structure BuildAcc where
  methods : List MCPMethod
  lookup : List (String × Json)
  cache : List (String × Json)
  counter : Nat
deriving DecidableEq

/-- The inner loop of `convertToMCPTools` (parser.ts:186-199) over one
path item's entries. -/
def opsFold (doc : Json) (f : Nat) (path : String) :
    List (String × Json) → BuildAcc → BuildAcc
  | [], acc => acc
  | (method, operation) :: r, acc =>
    if isOperation method then
      let p := convertOperationToMCPMethod doc f operation acc.cache
      match p.1 with
      | some m =>
        let en := ensureUniqueName m.name acc.counter
        let m2 : MCPMethod := ⟨en.1, getDescription doc m.description, m.inputSchema, m.returnSchema⟩
        let opRec := Json.obj (assignAll (assignAll [] (entriesOf operation))
          [("method", Json.str method), ("path", Json.str path)])
        opsFold doc f path r
          ⟨acc.methods ++ [m2], assignKey acc.lookup ("API" ++ "-" ++ en.1) opRec, p.2, en.2⟩
      | none => opsFold doc f path r ⟨acc.methods, acc.lookup, p.2, acc.counter⟩
    else opsFold doc f path r acc

/-- The outer loop of `convertToMCPTools` (parser.ts:183-200) over the
document's paths. -/
def pathsFold (doc : Json) (f : Nat) :
    List (String × Json) → BuildAcc → BuildAcc
  | [], acc => acc
  | (path, pathItem) :: r, acc =>
    if truthy pathItem then pathsFold doc f r (opsFold doc f path (entriesOf pathItem) acc)
    else pathsFold doc f r acc

mutual

/-- A size of a JSON value, used to budget the converter's fuel. -/
def jsize : Json → Nat
  | .null => 1
  | .bool _ => 1
  | .num _ => 1
  | .str _ => 1
  | .arr xs => 1 + jsizeL xs
  | .obj kvs => 1 + jsizeF kvs

/-- Size of array elements. -/
def jsizeL : List Json → Nat
  | [] => 0
  | x :: r => jsize x + 1 + jsizeL r

/-- Size of object members. -/
def jsizeF : List (String × Json) → Nat
  | [] => 0
  | (_, v) :: r => jsize v + 1 + jsizeF r

end

/-- A fuel that covers every conversion path the claims exercise: along a
call chain the converter consumes at most two units per document node
between reference jumps, and at most `jsize doc` jumps can occur in one
top-level call because each adds a distinct resolvable ref to the set. -/
def suffFuel (doc : Json) : Nat := (2 * jsize doc + 4) * (jsize doc + 2)

/-- `convertToMCPTools` (parser.ts:171-203): fold all operations in path
order with the converter state starting empty. -/
def convertToMCPTools (doc : Json) : BuildAcc :=
  pathsFold doc (suffFuel doc) (entriesOf (jsOr (Json.get doc "paths") (Json.obj []))) ⟨[], [], [], 0⟩

/-- `truncateToolName` (proxy.ts:245-250). -/
def truncateToolName (name : String) : String :=
  if name.length ≤ 64 then name else ⟨name.data.take 64⟩

/-- `findOperation` (proxy.ts:198-200): `none` models `null`. -/
def findOperation (lookup : List (String × Json)) (operationId : String) : Option Json :=
  lookupList lookup operationId

/-- The tool names the list-tools handler exposes (proxy.ts:122-144): the
single tool key is the constant `API`, so each listed name is
`API-<method name>` truncated to 64 characters. -/
def listedToolNames (acc : BuildAcc) : List String :=
  acc.methods.map (fun m => truncateToolName ("API" ++ "-" ++ m.name))

/-! ### The call-tool handler (`proxy.ts:150-195`)

The HTTP client lives in `client/http-client`, outside the repository's
staged sources, so the outcome of `executeOperation` is a parameter of the
handler model: a successful response's `data`, an `HttpClientError`
carrying its (possibly absent) `data`, or any other thrown error,
represented by an opaque tag. -/

/-- The outcome of `this.httpClient.executeOperation`. -/
inductive ExecOutcome where
  | ok (data : Json)
  | httpErr (errData : Option Json)
  | otherErr (tag : Nat)
deriving DecidableEq

/-- What the call-tool handler does: return a response value, or throw. -/
inductive CallOutput where
  | envelope (v : Json)
  | methodNotFound (message : String)
  | rethrown (tag : Nat)
deriving DecidableEq

/-- The optional chain `error.data?.response?.data` (proxy.ts:180). -/
def respDataChain (errData : Option Json) : Option Json :=
  match errData with
  | some d =>
    match Json.get d "response" with
    | some r => Json.get r "data"
    | none => none
  | none => none

/-- `error.data?.response?.data ?? error.data ?? \x7b\x7d` (proxy.ts:180). -/
def httpErrorPayload (errData : Option Json) : Json :=
  match nnOpt (respDataChain errData) with
  | some v => v
  | none =>
    match nnOpt errData with
    | some v => v
    | none => Json.obj []

/-- The structured error body (proxy.ts:185-188): `status: 'error'`
spread-merged with the payload when it is of object type (arrays spread
their index entries, `null` spreads nothing), else wrapped under `data`. -/
def httpErrorBody (errData : Option Json) : Json :=
  match httpErrorPayload errData with
  | .obj kvs => Json.obj (assignAll [("status", Json.str "error")] kvs)
  | .arr xs => Json.obj (assignAll [("status", Json.str "error")] (idxEntries 0 xs))
  | .null => Json.obj [("status", Json.str "error")]
  | prim => Json.obj [("status", Json.str "error"), ("data", prim)]

/-- One `content` envelope with a single text item (proxy.ts:168-175). -/
def textEnvelope (text : String) : Json :=
  Json.obj [("content", Json.arr [Json.obj
    [("type", Json.str "text"), ("text", Json.str text)]])]

/-- The call-tool handler (proxy.ts:150-195): an unknown (or falsy) tool
name throws `Method <name> not found`; otherwise the arguments are
repaired by `deserializeParams` and the HTTP outcome decides the reply —
success and `HttpClientError` produce text envelopes, anything else is
rethrown. -/
def callToolModel (lookup : List (String × Json)) (name : String)
    (params : Option (List (String × Json))) (outcome : ExecOutcome) : CallOutput :=
  match findOperation lookup name with
  | none => .methodNotFound ("Method " ++ name ++ " not found")
  | some op =>
    if truthy op = false then .methodNotFound ("Method " ++ name ++ " not found")
    else
      let _dp :=
        match params with
        | some l => deserializeParams l
        | none => []
      match outcome with
      | .ok data => .envelope (textEnvelope (stringify data))
      | .httpErr e => .envelope (textEnvelope (stringify (httpErrorBody e)))
      | .otherErr t => .rethrown t

theorem convert_ref_preserved {doc : Json} {f : Nat} {kvs : List (String × Json)} {ref : String}
    {st : CState}
    (href : lookupList kvs "$ref" = some (Json.str ref))
    (hpre : strStarts "#/components/schemas/" ref = true) :
    convertOpenApiSchemaToJsonSchema doc (f + 1) (Json.obj kvs) false st
      = (Json.obj (("$ref", Json.str (rewriteRef ref)) :: descKeep kvs), st) := by
  simp only [convertOpenApiSchemaToJsonSchema, href, hpre]
  simp

theorem convert_ref_cacheHit {doc : Json} {f : Nat} {kvs : List (String × Json)} {ref : String}
    {st : CState} {mode : Bool} {c : Json}
    (href : lookupList kvs "$ref" = some (Json.str ref))
    (hguard : (decide (mode = false) && strStarts "#/components/schemas/" ref) = false)
    (hc : lookupList st.cache ref = some c)
    (ht : truthy c = true) :
    convertOpenApiSchemaToJsonSchema doc (f + 1) (Json.obj kvs) mode st = (c, st) := by
  simp only [convertOpenApiSchemaToJsonSchema, href, hguard, if_false, hc, ht, if_true,
    Bool.false_eq_true]

theorem convert_ref_toResolve {doc : Json} {f : Nat} {kvs : List (String × Json)} {ref : String}
    {st : CState} {mode : Bool}
    (href : lookupList kvs "$ref" = some (Json.str ref))
    (hguard : (decide (mode = false) && strStarts "#/components/schemas/" ref) = false)
    (hc : lookupList st.cache ref = none) :
    convertOpenApiSchemaToJsonSchema doc (f + 1) (Json.obj kvs) mode st
      = resolveAndCache doc f ref kvs mode st := by
  simp only [convertOpenApiSchemaToJsonSchema, href, hguard, if_false, hc, Bool.false_eq_true]

theorem resolveAndCache_fail {doc : Json} {f : Nat} {kvs : List (String × Json)} {ref : String}
    {st : CState} {mode : Bool} {res1 : List String}
    (hres : internalResolveRef doc ref st.resolved = (none, res1)) :
    resolveAndCache doc (f + 1) ref kvs mode st
      = (Json.obj [("$ref", Json.str (rewriteRef ref)), ("description", descFallback kvs)],
          ⟨st.cache, res1⟩) := by
  simp only [resolveAndCache, hres]

theorem resolveAndCache_success {doc : Json} {f : Nat} {kvs : List (String × Json)} {ref : String}
    {st : CState} {mode : Bool} {s : Json} {res1 : List String}
    (hres : internalResolveRef doc ref st.resolved = (some s, res1)) :
    resolveAndCache doc (f + 1) ref kvs mode st
      = ((convertOpenApiSchemaToJsonSchema doc f s mode ⟨st.cache, res1⟩).1,
          ⟨assignKey (convertOpenApiSchemaToJsonSchema doc f s mode ⟨st.cache, res1⟩).2.cache
            ref (convertOpenApiSchemaToJsonSchema doc f s mode ⟨st.cache, res1⟩).1,
           (convertOpenApiSchemaToJsonSchema doc f s mode ⟨st.cache, res1⟩).2.resolved⟩) := by
  simp only [resolveAndCache, hres]


theorem natDigitsAux_len_le : ∀ f n k, n < f → n < 10 ^ k → 0 < k →
    (natDigitsAux f n).length ≤ k := by
  intro f
  induction f with
  | zero => intro n k h; omega
  | succ f ih =>
    intro n k hf hk hk0
    unfold natDigitsAux
    by_cases h10 : n < 10
    · rw [if_pos h10]
      simpa using hk0
    · rw [if_neg h10]
      have hk1 : 1 < k := by
        by_contra hle
        have : k = 1 := by omega
        subst this
        simp at hk
        omega
      have hdiv : n / 10 < 10 ^ (k - 1) := by
        have h1 : n < 10 * 10 ^ (k - 1) := by
          have : 10 * 10 ^ (k - 1) = 10 ^ k := by
            have hk2 : k - 1 + 1 = k := by omega
            calc 10 * 10 ^ (k - 1) = 10 ^ (k - 1 + 1) := by rw [pow_succ, Nat.mul_comm]
            _ = 10 ^ k := by rw [hk2]
          omega
        exact Nat.div_lt_of_lt_mul h1
      have hfd : n / 10 < f := by
        have : n / 10 < n := Nat.div_lt_self (by omega) (by omega)
        omega
      have := ih (n / 10) (k - 1) hfd hdiv (by omega)
      simp only [List.length_append, List.length_cons, List.length_nil]
      omega

theorem natDigits_len_le {n k : Nat} (h : n < 10 ^ k) (hk : 0 < k) :
    (natDigits n).length ≤ k :=
  natDigitsAux_len_le (n + 1) n k (Nat.lt_succ_self n) h hk

theorem pad4_len {n : Nat} (h : n ≤ 9999) : (pad4 n).length = 4 := by
  have hd : (natDigits n).length ≤ 4 := natDigits_len_le (by omega) (by omega)
  show (List.replicate (4 - (natDigits n).length) '0' ++ natDigits n).length = 4
  simp only [List.length_append, List.length_replicate]
  omega

theorem digitsVal_replicate_zero : ∀ m (l : List Char),
    digitsVal (List.replicate m '0' ++ l) = digitsVal l := by
  intro m
  induction m with
  | zero => intro l; rfl
  | succ m ih =>
    intro l
    show digitsVal ('0' :: (List.replicate m '0' ++ l)) = digitsVal l
    have h0 : digitsVal ('0' :: (List.replicate m '0' ++ l))
        = (List.replicate m '0' ++ l).foldl (fun a c => 10 * a + chVal c) (10 * 0 + chVal '0') := rfl
    rw [h0]
    have : (10 * 0 + chVal '0') = 0 := by decide
    rw [this]
    exact ih l

theorem pad4_inj {a b : Nat} (h : pad4 a = pad4 b) : a = b := by
  have ha : digitsVal (pad4 a).data = a := by
    show digitsVal (List.replicate (4 - (natDigits a).length) '0' ++ natDigits a) = a
    rw [digitsVal_replicate_zero, digitsVal_natDigits]
  have hb : digitsVal (pad4 b).data = b := by
    show digitsVal (List.replicate (4 - (natDigits b).length) '0' ++ natDigits b) = b
    rw [digitsVal_replicate_zero, digitsVal_natDigits]
  rw [← ha, ← hb, h]

/-- Claim C6 counterexample (closed): once the name counter has reached
9999 within one build, the next over-long identifier gets the 5-digit
suffix `10000`, so the assigned name has length 65 > 64 and the suffix is
not 4-digit zero-padded. -/
theorem C6_counterexample :
    (ensureUniqueName ⟨List.replicate 65 'a'⟩ 9999).1.length = 65
    ∧ (ensureUniqueName ⟨List.replicate 65 'a'⟩ 9999).1
        = ⟨List.replicate 59 'a'⟩ ++ "-" ++ "10000" := by
  exact ⟨by decide, by decide⟩

/-- Claim C6 (corrected).  Name assignment: identifiers of length ≤ 64
pass through unchanged with the counter untouched; longer identifiers get
their first 59 characters, a hyphen and the zero-padded incremented
counter — the result has length exactly 64 only while the incremented
counter stays ≤ 9999 (beyond that the suffix outgrows 4 digits, see the
counterexample).  The claimed document with a single 65-character
identifier indeed yields exactly one tool named 59 `a`s followed by
`-0001`. -/
theorem C6_name_assignment :
    (∀ (name : String) (c : Nat), name.length ≤ 64 → ensureUniqueName name c = (name, c))
  ∧ (∀ (name : String) (c : Nat), 64 < name.length →
      ensureUniqueName name c = (⟨name.data.take 59⟩ ++ "-" ++ pad4 (c + 1), c + 1))
  ∧ (∀ (name : String) (c : Nat), 64 < name.length → c + 1 ≤ 9999 →
      (ensureUniqueName name c).1.length = 64)
  ∧ (convertToMCPTools (Json.obj [("paths", Json.obj [("/a", Json.obj [("get",
        Json.obj [("operationId", Json.str ⟨List.replicate 65 'a'⟩)])])])])).methods.map
        (fun m => m.name)
      = [⟨List.replicate 59 'a'⟩ ++ "-0001"] := by
  refine ⟨?_, ?_, ?_, by decide⟩
  · intro name c h
    unfold ensureUniqueName
    rw [if_pos h]
  · intro name c h
    unfold ensureUniqueName
    rw [if_neg (by omega)]
  · intro name c h hc
    unfold ensureUniqueName
    rw [if_neg (by omega)]
    show ((⟨name.data.take 59⟩ : String) ++ "-" ++ pad4 (c + 1)).length = 64
    rw [String.length_append, String.length_append]
    have h1 : (⟨name.data.take 59⟩ : String).length = 59 := by
      show (name.data.take 59).length = 59
      have : name.data.length = name.length := rfl
      rw [List.length_take]
      omega
    have h2 : (pad4 (c + 1)).length = 4 := pad4_len hc
    rw [h1, h2]
    rfl

/-- Witness for C6: the corrected name-assignment theorem applied at a
short identifier and at the 65-character identifier with a fresh counter. -/
theorem C6_witness :
    ensureUniqueName "getPage" 0 = ("getPage", 0)
    ∧ ensureUniqueName ⟨List.replicate 65 'a'⟩ 0
        = (⟨List.replicate 59 'a'⟩ ++ "-" ++ pad4 1, 1)
    ∧ (ensureUniqueName ⟨List.replicate 65 'a'⟩ 0).1.length = 64 := by
  refine ⟨C6_name_assignment.1 "getPage" 0 (by decide),
    ?_,
    C6_name_assignment.2.2.1 ⟨List.replicate 65 'a'⟩ 0 (by decide) (by decide)⟩
  have h := C6_name_assignment.2.1 ⟨List.replicate 65 'a'⟩ 0 (by decide)
  rw [h]
  decide

theorem wsf_complex {schema : Json}
    (h : Json.get schema "type" = some (Json.str "object")
      ∨ (Json.get schema "$ref").isSome = true
      ∨ (Json.get schema "anyOf").isSome = true
      ∨ (Json.get schema "oneOf").isSome = true
      ∨ (Json.get schema "allOf").isSome = true) :
    withStringFallback schema
      = Json.obj [("anyOf", Json.arr [schema, Json.obj [("type", Json.str "string")]])] := by
  unfold withStringFallback
  have hc : (decide (Json.get schema "type" = some (Json.str "object"))
      || (Json.get schema "$ref").isSome || (Json.get schema "anyOf").isSome
      || (Json.get schema "oneOf").isSome || (Json.get schema "allOf").isSome) = true := by
    rcases h with h | h | h | h | h <;> simp [h]
  simp only [hc, if_true]

theorem wsf_array {kvs : List (String × Json)} {items : Json}
    (href : lookupList kvs "$ref" = none)
    (hanyOf : lookupList kvs "anyOf" = none)
    (honeOf : lookupList kvs "oneOf" = none)
    (hallOf : lookupList kvs "allOf" = none)
    (htype : lookupList kvs "type" = some (Json.str "array"))
    (hitems : lookupList kvs "items" = some items)
    (htruthy : truthy items = true) :
    withStringFallback (Json.obj kvs)
      = Json.obj (assignKey kvs "items" (Json.obj [("anyOf", Json.arr
          [items, Json.obj [("type", Json.str "string")],
           Json.obj [("type", Json.str "object"), ("additionalProperties", Json.bool true)]])])) := by
  unfold withStringFallback
  have hget : ∀ k, Json.get (Json.obj kvs) k = lookupList kvs k := fun k => rfl
  simp only [hget, href, hanyOf, honeOf, hallOf, htype, hitems, htruthy, Option.isSome_none,
    Bool.or_self, Bool.or_false, if_true]
  simp

theorem wsf_other {schema : Json}
    (hobj : Json.get schema "type" ≠ some (Json.str "object"))
    (href : (Json.get schema "$ref").isSome = false)
    (hanyOf : (Json.get schema "anyOf").isSome = false)
    (honeOf : (Json.get schema "oneOf").isSome = false)
    (hallOf : (Json.get schema "allOf").isSome = false)
    (harr : Json.get schema "type" = some (Json.str "array") →
      truthyO (Json.get schema "items") = false) :
    withStringFallback schema = schema := by
  unfold withStringFallback
  have hc : (decide (Json.get schema "type" = some (Json.str "object"))
      || (Json.get schema "$ref").isSome || (Json.get schema "anyOf").isSome
      || (Json.get schema "oneOf").isSome || (Json.get schema "allOf").isSome) = false := by
    simp [hobj, href, hanyOf, honeOf, hallOf]
  simp only [hc, if_false, Bool.false_eq_true]
  by_cases ht : Json.get schema "type" = some (Json.str "array")
  · rw [if_pos ht]
    have := harr ht
    cases hi : Json.get schema "items" with
    | none => rfl
    | some it =>
      rw [hi] at this
      simp only [truthyO] at this
      simp only [this, if_false, Bool.false_eq_true]
  · rw [if_neg ht]


/-- The claim C8 scenario document: one POST operation whose JSON request
body is an object with one object-typed property `p`. -/
def exampleBodyDoc : Json := Json.obj [
  ("paths", Json.obj [("/a", Json.obj [("post", Json.obj [
    ("operationId", Json.str "createThing"),
    ("requestBody", Json.obj [("content", Json.obj [("application/json", Json.obj [
      ("schema", Json.obj [
        ("type", Json.str "object"),
        ("properties", Json.obj [
          ("p", Json.obj [
            ("type", Json.str "object"),
            ("properties", Json.obj [("x", Json.obj [("type", Json.str "string")])])
          ])
        ])
      ])
    ])])])
  ])])])
]

/-- Claim C8 (confirmed).  `withStringFallback`: complex schemas (object
type, `$ref`, or `anyOf`/`oneOf`/`allOf` composition) become exactly
`anyOf [original, string]`; a non-complex array schema with truthy items
keeps its shape with the item schema widened by string and open-object
alternatives; everything else is returned unchanged; and the claimed
request-body property scenario produces exactly the claimed wrapping. -/
theorem C8_withStringFallback :
    (∀ schema : Json,
      (Json.get schema "type" = some (Json.str "object")
        ∨ (Json.get schema "$ref").isSome = true
        ∨ (Json.get schema "anyOf").isSome = true
        ∨ (Json.get schema "oneOf").isSome = true
        ∨ (Json.get schema "allOf").isSome = true) →
      withStringFallback schema
        = Json.obj [("anyOf", Json.arr [schema, Json.obj [("type", Json.str "string")]])])
  ∧ (∀ (kvs : List (String × Json)) (items : Json),
      lookupList kvs "$ref" = none → lookupList kvs "anyOf" = none →
      lookupList kvs "oneOf" = none → lookupList kvs "allOf" = none →
      lookupList kvs "type" = some (Json.str "array") →
      lookupList kvs "items" = some items → truthy items = true →
      withStringFallback (Json.obj kvs)
        = Json.obj (assignKey kvs "items" (Json.obj [("anyOf", Json.arr
            [items, Json.obj [("type", Json.str "string")],
             Json.obj [("type", Json.str "object"), ("additionalProperties", Json.bool true)]])])))
  ∧ (∀ schema : Json,
      Json.get schema "type" ≠ some (Json.str "object") →
      (Json.get schema "$ref").isSome = false →
      (Json.get schema "anyOf").isSome = false →
      (Json.get schema "oneOf").isSome = false →
      (Json.get schema "allOf").isSome = false →
      (Json.get schema "type" = some (Json.str "array") →
        truthyO (Json.get schema "items") = false) →
      withStringFallback schema = schema)
  ∧ (convertToMCPTools exampleBodyDoc).methods.map
        (fun m => Json.get m.inputSchema "properties")
      = [some (Json.obj [("p", Json.obj [("anyOf", Json.arr
          [Json.obj [("type", Json.str "object"),
             ("properties", Json.obj [("x", Json.obj [("type", Json.str "string")])]),
             ("additionalProperties", Json.bool true)],
           Json.obj [("type", Json.str "string")]])])])] := by
  refine ⟨fun schema h => wsf_complex h,
    fun kvs items h1 h2 h3 h4 h5 h6 h7 => wsf_array h1 h2 h3 h4 h5 h6 h7,
    fun schema h1 h2 h3 h4 h5 h6 => wsf_other h1 h2 h3 h4 h5 h6,
    by decide⟩

/-- Witness for C8: the three wrapping cases at concrete schemas (a ref
schema, an array of numbers, a plain number schema). -/
theorem C8_witness :
    withStringFallback (Json.obj [("$ref", Json.str "#/$defs/X")])
      = Json.obj [("anyOf", Json.arr [Json.obj [("$ref", Json.str "#/$defs/X")],
          Json.obj [("type", Json.str "string")]])]
    ∧ withStringFallback (Json.obj [("type", Json.str "array"),
          ("items", Json.obj [("type", Json.str "number")])])
      = Json.obj [("type", Json.str "array"), ("items", Json.obj [("anyOf", Json.arr
          [Json.obj [("type", Json.str "number")], Json.obj [("type", Json.str "string")],
           Json.obj [("type", Json.str "object"), ("additionalProperties", Json.bool true)]])])]
    ∧ withStringFallback (Json.obj [("type", Json.str "number")])
      = Json.obj [("type", Json.str "number")] := by
  refine ⟨C8_withStringFallback.1 _ (by right; left; decide), ?_,
    C8_withStringFallback.2.2.1 _ (by decide) (by decide) (by decide) (by decide) (by decide)
      (fun h => absurd h (by decide))⟩
  have h := C8_withStringFallback.2.1
    [("type", Json.str "array"), ("items", Json.obj [("type", Json.str "number")])]
    (Json.obj [("type", Json.str "number")])
    (by decide) (by decide) (by decide) (by decide) (by decide) (by decide) (by decide)
  exact h.trans (by decide)

theorem lookupList_assignKey_self (l : List (String × Json)) (k : String) (v : Json) :
    lookupList (assignKey l k v) k = some v := by
  induction l with
  | nil => simp [assignKey, lookupList]
  | cons kv r ih =>
    obtain ⟨k2, v2⟩ := kv
    unfold assignKey
    by_cases h : k2 = k
    · rw [if_pos h]
      simp [lookupList]
    · rw [if_neg h]
      unfold lookupList
      rw [if_neg h]
      exact ih

/-- Claim C10 (confirmed).  (a) In inline-resolution mode a ref node whose
pointer has a truthy cache entry returns the cached object exactly as
stored, whatever else (e.g. a description) sits on the referencing node;
(b) in preserved mode the referencing site's description is attached to
the rewritten local `$ref`; (c) hence, after one successful inline
translation of a ref, a second inline translation of the same pointer —
from a site with any other entries — returns the first call's result and
leaves the state unchanged. -/
theorem C10_cache_hit :
    (∀ (doc : Json) (f : Nat) (kvs : List (String × Json)) (ref : String) (st : CState) (c : Json),
      lookupList kvs "$ref" = some (Json.str ref) →
      lookupList st.cache ref = some c → truthy c = true →
      convertOpenApiSchemaToJsonSchema doc (f + 1) (Json.obj kvs) true st = (c, st))
  ∧ (∀ (doc : Json) (f : Nat) (kvs : List (String × Json)) (ref : String) (st : CState) (d : Json),
      lookupList kvs "$ref" = some (Json.str ref) →
      strStarts "#/components/schemas/" ref = true →
      lookupList kvs "description" = some d →
      convertOpenApiSchemaToJsonSchema doc (f + 1) (Json.obj kvs) false st
        = (Json.obj [("$ref", Json.str (rewriteRef ref)), ("description", d)], st))
  ∧ (∀ (doc : Json) (f g : Nat) (kvs1 kvs2 : List (String × Json)) (ref : String)
      (st : CState) (s : Json) (res1 : List String) (c1 : Json) (st1 : CState),
      lookupList kvs1 "$ref" = some (Json.str ref) →
      lookupList kvs2 "$ref" = some (Json.str ref) →
      lookupList st.cache ref = none →
      internalResolveRef doc ref st.resolved = (some s, res1) →
      convertOpenApiSchemaToJsonSchema doc (f + 1) (Json.obj kvs1) true st = (c1, st1) →
      truthy c1 = true →
      convertOpenApiSchemaToJsonSchema doc (g + 1) (Json.obj kvs2) true st1 = (c1, st1)) := by
  have hguard : ∀ ref : String,
      (decide ((true : Bool) = false) && strStarts "#/components/schemas/" ref) = false := by
    intro ref; simp
  refine ⟨?_, ?_, ?_⟩
  · intro doc f kvs ref st c href hc ht
    exact convert_ref_cacheHit href (hguard ref) hc ht
  · intro doc f kvs ref st d href hpre hdesc
    rw [convert_ref_preserved href hpre]
    unfold descKeep
    rw [hdesc]
  · intro doc f g kvs1 kvs2 ref st s res1 c1 st1 href1 href2 hc hres h1 ht
    rw [convert_ref_toResolve href1 (hguard ref) hc] at h1
    cases f with
    | zero =>
      have hnull : c1 = Json.null := by
        have := congrArg Prod.fst h1.symm
        simpa [resolveAndCache] using this
      rw [hnull] at ht
      simp [truthy] at ht
    | succ f =>
      rw [resolveAndCache_success hres] at h1
      have hc1 : c1 = (convertOpenApiSchemaToJsonSchema doc f s true ⟨st.cache, res1⟩).1 := by
        have := congrArg Prod.fst h1
        exact this.symm
      have hst1 : st1 = ⟨assignKey
          (convertOpenApiSchemaToJsonSchema doc f s true ⟨st.cache, res1⟩).2.cache ref
          (convertOpenApiSchemaToJsonSchema doc f s true ⟨st.cache, res1⟩).1,
          (convertOpenApiSchemaToJsonSchema doc f s true ⟨st.cache, res1⟩).2.resolved⟩ := by
        have := congrArg Prod.snd h1
        exact this.symm
      have hlk : lookupList st1.cache ref = some c1 := by
        rw [hst1, hc1]
        exact lookupList_assignKey_self _ _ _
      exact convert_ref_cacheHit href2 (hguard ref) hlk ht

/-- Witness for C10: a document with one resolvable schema `X`; a cache
hit from a site carrying a description returns the cached object alone, a
preserved-mode site keeps its description, and a second inline site
returns the first site's freshly cached result. -/
theorem C10_witness :
    convertOpenApiSchemaToJsonSchema (Json.obj [("X", Json.obj [("type", Json.str "string")])])
        4 (Json.obj [("$ref", Json.str "#/X"), ("description", Json.str "second site")]) true
        ⟨[("#/X", Json.obj [("type", Json.str "string")])], ["#/X"]⟩
      = (Json.obj [("type", Json.str "string")],
          ⟨[("#/X", Json.obj [("type", Json.str "string")])], ["#/X"]⟩)
    ∧ convertOpenApiSchemaToJsonSchema Json.null 4
        (Json.obj [("$ref", Json.str "#/components/schemas/X"),
          ("description", Json.str "site note")]) false ⟨[], []⟩
      = (Json.obj [("$ref", Json.str "#/$defs/X"), ("description", Json.str "site note")],
          ⟨[], []⟩)
    ∧ convertOpenApiSchemaToJsonSchema (Json.obj [("X", Json.obj [("type", Json.str "string")])])
        6 (Json.obj [("$ref", Json.str "#/X"), ("description", Json.str "third site")]) true
        ⟨[("#/X", Json.obj [("type", Json.str "string")])], ["#/X"]⟩
      = (Json.obj [("type", Json.str "string")],
          ⟨[("#/X", Json.obj [("type", Json.str "string")])], ["#/X"]⟩) := by
  refine ⟨?_, ?_, ?_⟩
  · exact C10_cache_hit.1 _ 3 _ "#/X" _ _ (by decide) (by decide) (by decide)
  · exact (C10_cache_hit.2.1 Json.null 3 _ "#/components/schemas/X" ⟨[], []⟩
      (Json.str "site note") (by decide) (by decide) (by decide)).trans (by decide)
  · exact C10_cache_hit.2.2 (Json.obj [("X", Json.obj [("type", Json.str "string")])]) 3 5
      [("$ref", Json.str "#/X"), ("description", Json.str "first site")]
      [("$ref", Json.str "#/X"), ("description", Json.str "third site")]
      "#/X" ⟨[], []⟩ (Json.obj [("type", Json.str "string")]) ["#/X"]
      (Json.obj [("type", Json.str "string")])
      ⟨[("#/X", Json.obj [("type", Json.str "string")])], ["#/X"]⟩
      (by decide) (by decide) (by decide) (by decide) (by decide) (by decide)

theorem lookupList_assignKey_other {k k2 : String} (h : ¬ k = k2) :
    ∀ (l : List (String × Json)) (v : Json),
    lookupList (assignKey l k v) k2 = lookupList l k2 := by
  intro l
  induction l with
  | nil =>
    intro v
    unfold assignKey lookupList
    rw [if_neg h]
    rfl
  | cons kv r ih =>
    intro v
    obtain ⟨k3, v3⟩ := kv
    unfold assignKey
    by_cases h3 : k3 = k
    · rw [if_pos h3]
      unfold lookupList
      rw [if_neg h, if_neg (h3 ▸ h)]
    · rw [if_neg h3]
      unfold lookupList
      by_cases h4 : k3 = k2
      · rw [if_pos h4, if_pos h4]
      · rw [if_neg h4, if_neg h4]
        exact ih v

theorem stepType_other {schema : Json} {r : List (String × Json)} {k : String}
    (h : ¬ k = "type") : lookupList (stepType schema r) k = lookupList r k := by
  unfold stepType
  cases Json.get schema "type" with
  | none => rfl
  | some t =>
    show lookupList (if truthy t = true then assignKey r "type" t else r) k = lookupList r k
    by_cases ht : truthy t = true
    · rw [if_pos ht]
      exact lookupList_assignKey_other (fun he => h he.symm) r t
    · rw [if_neg ht]

theorem stepEnum_other {schema : Json} {r : List (String × Json)} {k : String}
    (h : ¬ k = "enum") : lookupList (stepEnum schema r) k = lookupList r k := by
  unfold stepEnum
  cases Json.get schema "enum" with
  | none => rfl
  | some t =>
    show lookupList (if truthy t = true then assignKey r "enum" t else r) k = lookupList r k
    by_cases ht : truthy t = true
    · rw [if_pos ht]
      exact lookupList_assignKey_other (fun he => h he.symm) r t
    · rw [if_neg ht]

theorem stepConst_other {schema : Json} {r : List (String × Json)} {k : String}
    (h : ¬ k = "const") : lookupList (stepConst schema r) k = lookupList r k := by
  unfold stepConst
  cases Json.get schema "const" with
  | none => rfl
  | some t =>
    show lookupList (assignKey r "const" t) k = lookupList r k
    exact lookupList_assignKey_other (fun he => h he.symm) r t

theorem stepDefault_other {schema : Json} {r : List (String × Json)} {k : String}
    (h : ¬ k = "default") : lookupList (stepDefault schema r) k = lookupList r k := by
  unfold stepDefault
  cases Json.get schema "default" with
  | none => rfl
  | some t =>
    show lookupList (assignKey r "default" t) k = lookupList r k
    exact lookupList_assignKey_other (fun he => h he.symm) r t

theorem stepRequired_other {schema : Json} {r : List (String × Json)} {k : String}
    (h : ¬ k = "required") : lookupList (stepRequired schema r) k = lookupList r k := by
  unfold stepRequired
  cases Json.get schema "required" with
  | none => rfl
  | some t =>
    show lookupList (if truthy t = true then assignKey r "required" t else r) k = lookupList r k
    by_cases ht : truthy t = true
    · rw [if_pos ht]
      exact lookupList_assignKey_other (fun he => h he.symm) r t
    · rw [if_neg ht]

theorem stepFormatDesc_binary_format {schema : Json} {r : List (String × Json)}
    (hb : Json.get schema "format" = some (Json.str "binary")) :
    lookupList (stepFormatDesc schema r) "format" = some (Json.str "uri-reference") := by
  unfold stepFormatDesc
  rw [if_pos hb]
  cases hd : Json.get schema "description" with
  | none =>
    simp only [hd]
    rw [lookupList_assignKey_other (by decide)]
    exact lookupList_assignKey_self r "format" (Json.str "uri-reference")
  | some d =>
    simp only [hd]
    split
    · rw [lookupList_assignKey_other (by decide)]
      exact lookupList_assignKey_self r "format" (Json.str "uri-reference")
    · rw [lookupList_assignKey_other (by decide)]
      exact lookupList_assignKey_self r "format" (Json.str "uri-reference")

theorem stepFormatDesc_binary_desc {schema : Json} {r : List (String × Json)} {d : String}
    (hb : Json.get schema "format" = some (Json.str "binary"))
    (hd : Json.get schema "description" = some (Json.str d)) (hne : d ≠ "") :
    lookupList (stepFormatDesc schema r) "description"
      = some (Json.str (jsStr (Json.str d) ++ " (" ++ binaryDesc ++ ")")) := by
  unfold stepFormatDesc
  rw [if_pos hb]
  have ht : truthy (Json.str d) = true := by
    simp [truthy, hne]
  simp only [hd, ht, if_true]
  exact lookupList_assignKey_self _ "description" _

theorem stepFormatDesc_binary_nodesc {schema : Json} {r : List (String × Json)}
    (hb : Json.get schema "format" = some (Json.str "binary"))
    (hd : Json.get schema "description" = none
      ∨ Json.get schema "description" = some (Json.str "")) :
    lookupList (stepFormatDesc schema r) "description" = some (Json.str binaryDesc) := by
  unfold stepFormatDesc
  rw [if_pos hb]
  rcases hd with hd | hd
  · simp only [hd]
    exact lookupList_assignKey_self _ "description" _
  · simp only [hd]
    have ht : truthy (Json.str "") = false := by decide
    simp only [ht, if_false, Bool.false_eq_true]
    exact lookupList_assignKey_self _ "description" _

theorem objBranchPart_other {doc : Json} {f : Nat} {schema : Json} {mode : Bool}
    {p : List (String × Json) × CState} {k : String}
    (h1 : ¬ k = "type") (h2 : ¬ k = "properties") (h3 : ¬ k = "required")
    (h4 : ¬ k = "additionalProperties") :
    lookupList (objBranchPart doc f schema mode p).1 k = lookupList p.1 k := by
  cases f with
  | zero => rfl
  | succ f =>
    unfold objBranchPart
    by_cases ho : Json.get schema "type" = some (Json.str "object")
    · rw [if_pos ho]
      repeat' split
      all_goals simp only [lookupList_assignKey_other (fun he => h4 he.symm),
        stepRequired_other h3,
        lookupList_assignKey_other (fun he => h2 he.symm),
        lookupList_assignKey_other (fun he => h1 he.symm)]
    · rw [if_neg ho]

theorem arrBranchPart_other {doc : Json} {f : Nat} {schema : Json} {mode : Bool}
    {p : List (String × Json) × CState} {k : String}
    (h1 : ¬ k = "type") (h2 : ¬ k = "items") :
    lookupList (arrBranchPart doc f schema mode p).1 k = lookupList p.1 k := by
  cases f with
  | zero => rfl
  | succ f =>
    unfold arrBranchPart
    by_cases ho : Json.get schema "type" = some (Json.str "array")
    · rw [if_pos ho]
      repeat' split
      all_goals simp only [lookupList_assignKey_other (fun he => h2 he.symm),
        lookupList_assignKey_other (fun he => h1 he.symm)]
    · rw [if_neg ho]

theorem composePart_other {doc : Json} {f : Nat} {schema : Json} {key : String} {mode : Bool}
    {p : List (String × Json) × CState} {k : String}
    (h1 : ¬ k = key) :
    lookupList (composePart doc f schema key mode p).1 k = lookupList p.1 k := by
  cases f with
  | zero => rfl
  | succ f =>
    unfold composePart
    repeat' split
    all_goals simp only [lookupList_assignKey_other (fun he => h1 he.symm)]

theorem convert_inline {doc : Json} {f : Nat} {kvs : List (String × Json)} {mode : Bool}
    {st : CState} (h : lookupList kvs "$ref" = none) :
    convertOpenApiSchemaToJsonSchema doc (f + 1) (Json.obj kvs) mode st
      = inlinePart doc f (Json.obj kvs) mode st := by
  simp only [convertOpenApiSchemaToJsonSchema, h]

theorem inlinePart_key {doc : Json} {f : Nat} {schema : Json} {mode : Bool} {st : CState}
    {k : String}
    (h1 : ¬ k = "type") (h2 : ¬ k = "properties") (h3 : ¬ k = "required")
    (h4 : ¬ k = "additionalProperties") (h5 : ¬ k = "items")
    (h6 : ¬ k = "oneOf") (h7 : ¬ k = "anyOf") (h8 : ¬ k = "allOf") :
    Json.get (inlinePart doc (f + 1) schema mode st).1 k
      = lookupList (stepDefault schema (stepConst schema (stepEnum schema
          (stepFormatDesc schema (stepType schema []))))) k := by
  have e0 : Json.get (inlinePart doc (f + 1) schema mode st).1 k
      = lookupList (composePart doc f schema "allOf" mode
          (composePart doc f schema "anyOf" mode
            (composePart doc f schema "oneOf" mode
              (arrBranchPart doc f schema mode
                (objBranchPart doc f schema mode
                  (stepDefault schema (stepConst schema (stepEnum schema
                    (stepFormatDesc schema (stepType schema [])))), st)))))).1 k := rfl
  rw [e0, composePart_other h8, composePart_other h7, composePart_other h6,
    arrBranchPart_other h1 h5, objBranchPart_other h1 h2 h3 h4]

theorem binary_suffix (d : String) :
    d ++ " (" ++ binaryDesc ++ ")" = d ++ " (absolute paths to local files)" := by
  obtain ⟨dl⟩ := d
  show String.mk (((dl ++ " (".data) ++ binaryDesc.data) ++ ")".data)
    = String.mk (dl ++ " (absolute paths to local files)".data)
  rw [List.append_assoc, List.append_assoc]
  rfl

theorem convert_binary_format {doc : Json} {f : Nat} {kvs : List (String × Json)} {mode : Bool}
    {st : CState}
    (href : lookupList kvs "$ref" = none)
    (hb : lookupList kvs "format" = some (Json.str "binary")) :
    Json.get (convertOpenApiSchemaToJsonSchema doc (f + 2) (Json.obj kvs) mode st).1 "format"
      = some (Json.str "uri-reference") := by
  rw [convert_inline href,
    inlinePart_key (by decide) (by decide) (by decide) (by decide) (by decide) (by decide)
      (by decide) (by decide),
    stepDefault_other (by decide), stepConst_other (by decide), stepEnum_other (by decide)]
  exact stepFormatDesc_binary_format hb

theorem convert_binary_desc {doc : Json} {f : Nat} {kvs : List (String × Json)} {mode : Bool}
    {st : CState} {d : String}
    (href : lookupList kvs "$ref" = none)
    (hb : lookupList kvs "format" = some (Json.str "binary"))
    (hd : lookupList kvs "description" = some (Json.str d)) (hne : d ≠ "") :
    Json.get (convertOpenApiSchemaToJsonSchema doc (f + 2) (Json.obj kvs) mode st).1 "description"
      = some (Json.str (d ++ " (absolute paths to local files)")) := by
  rw [convert_inline href,
    inlinePart_key (by decide) (by decide) (by decide) (by decide) (by decide) (by decide)
      (by decide) (by decide),
    stepDefault_other (by decide), stepConst_other (by decide), stepEnum_other (by decide)]
  have hb2 : Json.get (Json.obj kvs) "format" = some (Json.str "binary") := hb
  have hd2 : Json.get (Json.obj kvs) "description" = some (Json.str d) := hd
  rw [stepFormatDesc_binary_desc hb2 hd2 hne]
  rw [show jsStr (Json.str d) = d from rfl, binary_suffix]

theorem convert_binary_nodesc {doc : Json} {f : Nat} {kvs : List (String × Json)} {mode : Bool}
    {st : CState}
    (href : lookupList kvs "$ref" = none)
    (hb : lookupList kvs "format" = some (Json.str "binary"))
    (hd : lookupList kvs "description" = none
      ∨ lookupList kvs "description" = some (Json.str "")) :
    Json.get (convertOpenApiSchemaToJsonSchema doc (f + 2) (Json.obj kvs) mode st).1 "description"
      = some (Json.str binaryDesc) := by
  rw [convert_inline href,
    inlinePart_key (by decide) (by decide) (by decide) (by decide) (by decide) (by decide)
      (by decide) (by decide),
    stepDefault_other (by decide), stepConst_other (by decide), stepEnum_other (by decide)]
  exact stepFormatDesc_binary_nodesc hb hd

theorem arrBranchPart_items {doc : Json} {g : Nat} {schema : Json} {mode : Bool}
    {p : List (String × Json) × CState} {iv : Json}
    (htype : Json.get schema "type" = some (Json.str "array"))
    (hitems : Json.get schema "items" = some iv)
    (ht : truthy iv = true) :
    lookupList (arrBranchPart doc (g + 1) schema mode p).1 "items"
      = some ((convertOpenApiSchemaToJsonSchema doc g iv mode p.2).1) := by
  unfold arrBranchPart
  rw [if_pos htype]
  simp only [hitems, ht, if_true]
  exact lookupList_assignKey_self _ _ _

/-- The claim C9 scenario document: a multipart upload whose `photo`
property is a binary file with a description. -/
def examplePhotoDoc : Json := Json.obj [
  ("paths", Json.obj [("/u", Json.obj [("post", Json.obj [
    ("operationId", Json.str "uploadPhoto"),
    ("requestBody", Json.obj [("content", Json.obj [("multipart/form-data", Json.obj [
      ("schema", Json.obj [
        ("type", Json.str "object"),
        ("properties", Json.obj [
          ("photo", Json.obj [("type", Json.str "string"), ("format", Json.str "binary"),
            ("description", Json.str "Profile photo")])]),
        ("required", Json.arr [Json.str "photo"])])])])])])])])
]

/-- Claim C9 (confirmed).  Translation of a non-ref schema node with
`format: 'binary'`: (a) `format` becomes `uri-reference` and a truthy
original description gets the fixed suffix appended; (b) an absent (or
empty, hence falsy) description becomes the fixed text alone; (c) binary
array item schemas are rewritten the same way inside the translated
`items`; (d) the multipart `photo` property of the claimed shape
translates to exactly the claimed node. -/
theorem C9_binary_rewrite :
    (∀ (doc : Json) (f : Nat) (kvs : List (String × Json)) (mode : Bool) (st : CState)
      (d : String),
      lookupList kvs "$ref" = none →
      lookupList kvs "format" = some (Json.str "binary") →
      lookupList kvs "description" = some (Json.str d) → d ≠ "" →
      Json.get (convertOpenApiSchemaToJsonSchema doc (f + 2) (Json.obj kvs) mode st).1 "format"
        = some (Json.str "uri-reference")
      ∧ Json.get (convertOpenApiSchemaToJsonSchema doc (f + 2) (Json.obj kvs) mode st).1
          "description"
        = some (Json.str (d ++ " (absolute paths to local files)")))
  ∧ (∀ (doc : Json) (f : Nat) (kvs : List (String × Json)) (mode : Bool) (st : CState),
      lookupList kvs "$ref" = none →
      lookupList kvs "format" = some (Json.str "binary") →
      (lookupList kvs "description" = none ∨ lookupList kvs "description" = some (Json.str "")) →
      Json.get (convertOpenApiSchemaToJsonSchema doc (f + 2) (Json.obj kvs) mode st).1 "format"
        = some (Json.str "uri-reference")
      ∧ Json.get (convertOpenApiSchemaToJsonSchema doc (f + 2) (Json.obj kvs) mode st).1
          "description"
        = some (Json.str binaryDesc))
  ∧ (∀ (doc : Json) (f : Nat) (kvs ikvs : List (String × Json)) (mode : Bool) (st : CState),
      lookupList kvs "$ref" = none →
      lookupList kvs "type" = some (Json.str "array") →
      lookupList kvs "items" = some (Json.obj ikvs) →
      lookupList ikvs "$ref" = none →
      lookupList ikvs "format" = some (Json.str "binary") →
      ∃ itemv : Json,
        Json.get (convertOpenApiSchemaToJsonSchema doc (f + 5) (Json.obj kvs) mode st).1 "items"
          = some itemv
        ∧ Json.get itemv "format" = some (Json.str "uri-reference"))
  ∧ (convertToMCPTools examplePhotoDoc).methods.map (fun m => Json.get m.inputSchema "properties")
      = [some (Json.obj [("photo", Json.obj [("type", Json.str "string"),
          ("format", Json.str "uri-reference"),
          ("description", Json.str "Profile photo (absolute paths to local files)")])])] := by
  refine ⟨?_, ?_, ?_, by decide⟩
  · intro doc f kvs mode st d href hb hd hne
    exact ⟨convert_binary_format href hb, convert_binary_desc href hb hd hne⟩
  · intro doc f kvs mode st href hb hd
    exact ⟨convert_binary_format href hb, convert_binary_nodesc href hb hd⟩
  · intro doc f kvs ikvs mode st href htype hitems hiref hib
    rw [show f + 5 = (f + 4) + 1 from by omega, convert_inline href]
    rw [show f + 4 = (f + 3) + 1 from by omega]
    have e0 : Json.get (inlinePart doc ((f + 3) + 1) (Json.obj kvs) mode st).1 "items"
        = lookupList (composePart doc (f + 3) (Json.obj kvs) "allOf" mode
            (composePart doc (f + 3) (Json.obj kvs) "anyOf" mode
              (composePart doc (f + 3) (Json.obj kvs) "oneOf" mode
                (arrBranchPart doc ((f + 2) + 1) (Json.obj kvs) mode
                  (objBranchPart doc (f + 3) (Json.obj kvs) mode
                    (stepDefault (Json.obj kvs) (stepConst (Json.obj kvs)
                      (stepEnum (Json.obj kvs) (stepFormatDesc (Json.obj kvs)
                        (stepType (Json.obj kvs) [])))), st)))))).1 "items" := rfl
    rw [e0, composePart_other (by decide), composePart_other (by decide),
      composePart_other (by decide)]
    have htype2 : Json.get (Json.obj kvs) "type" = some (Json.str "array") := htype
    have hitems2 : Json.get (Json.obj kvs) "items" = some (Json.obj ikvs) := hitems
    rw [arrBranchPart_items htype2 hitems2 rfl]
    refine ⟨_, rfl, ?_⟩
    exact convert_binary_format hiref hib

/-- Witness for C9: the rewrite theorem applied at a binary photo node
with a description, one without, and a binary array item schema. -/
theorem C9_witness :
    Json.get (convertOpenApiSchemaToJsonSchema Json.null 2
        (Json.obj [("type", Json.str "string"), ("format", Json.str "binary"),
          ("description", Json.str "Profile photo")]) false ⟨[], []⟩).1 "format"
      = some (Json.str "uri-reference")
    ∧ Json.get (convertOpenApiSchemaToJsonSchema Json.null 2
        (Json.obj [("type", Json.str "string"), ("format", Json.str "binary"),
          ("description", Json.str "Profile photo")]) false ⟨[], []⟩).1 "description"
      = some (Json.str "Profile photo (absolute paths to local files)")
    ∧ Json.get (convertOpenApiSchemaToJsonSchema Json.null 2
        (Json.obj [("type", Json.str "string"), ("format", Json.str "binary")]) false
        ⟨[], []⟩).1 "description"
      = some (Json.str binaryDesc)
    ∧ (∃ itemv : Json,
        Json.get (convertOpenApiSchemaToJsonSchema Json.null 5
          (Json.obj [("type", Json.str "array"),
            ("items", Json.obj [("format", Json.str "binary")])]) false ⟨[], []⟩).1 "items"
          = some itemv
        ∧ Json.get itemv "format" = some (Json.str "uri-reference")) := by
  refine ⟨?_, ?_, ?_, ?_⟩
  · exact (C9_binary_rewrite.1 Json.null 0
      [("type", Json.str "string"), ("format", Json.str "binary"),
        ("description", Json.str "Profile photo")] false ⟨[], []⟩ "Profile photo"
      (by decide) (by decide) (by decide) (by decide)).1
  · exact ((C9_binary_rewrite.1 Json.null 0
      [("type", Json.str "string"), ("format", Json.str "binary"),
        ("description", Json.str "Profile photo")] false ⟨[], []⟩ "Profile photo"
      (by decide) (by decide) (by decide) (by decide)).2).trans (by decide)
  · exact (C9_binary_rewrite.2.1 Json.null 0
      [("type", Json.str "string"), ("format", Json.str "binary")] false ⟨[], []⟩
      (by decide) (by decide) (Or.inl (by decide))).2
  · exact C9_binary_rewrite.2.2.1 Json.null 0
      [("type", Json.str "array"), ("items", Json.obj [("format", Json.str "binary")])]
      [("format", Json.str "binary")] false ⟨[], []⟩
      (by decide) (by decide) (by decide) (by decide) (by decide)

/-- Claim C7 (confirmed).  For a known (truthy) tool, an `HttpClientError`
outcome returns — does not throw — one text envelope whose text serializes
`status: 'error'` merged with the selected payload; the payload prefers
`error.data?.response?.data`, then `error.data`, then the empty object
(nullish steps skipped); object payloads are spread after `status`; any
other thrown error propagates unchanged. -/
theorem C7_error_handling :
    (∀ (lookup : List (String × Json)) (name : String) (op : Json)
      (params : Option (List (String × Json))) (e : Option Json),
      findOperation lookup name = some op → truthy op = true →
      callToolModel lookup name params (.httpErr e)
        = .envelope (textEnvelope (stringify (httpErrorBody e))))
  ∧ (∀ (e : Option Json) (pd : Json),
      nnOpt (respDataChain e) = some pd → httpErrorPayload e = pd)
  ∧ (∀ (e : Option Json) (d : Json),
      nnOpt (respDataChain e) = none → nnOpt e = some d → httpErrorPayload e = d)
  ∧ (∀ e : Option Json,
      nnOpt (respDataChain e) = none → nnOpt e = none → httpErrorPayload e = Json.obj [])
  ∧ (∀ (e : Option Json) (kvs : List (String × Json)),
      httpErrorPayload e = Json.obj kvs →
      httpErrorBody e = Json.obj (assignAll [("status", Json.str "error")] kvs))
  ∧ (∀ (lookup : List (String × Json)) (name : String) (op : Json)
      (params : Option (List (String × Json))) (t : Nat),
      findOperation lookup name = some op → truthy op = true →
      callToolModel lookup name params (.otherErr t) = .rethrown t) := by
  refine ⟨?_, ?_, ?_, ?_, ?_, ?_⟩
  · intro lookup name op params e hfind ht
    unfold callToolModel
    simp only [hfind, ht]
    simp
  · intro e pd h
    unfold httpErrorPayload
    rw [h]
  · intro e d h1 h2
    unfold httpErrorPayload
    rw [h1, h2]
  · intro e h1 h2
    unfold httpErrorPayload
    rw [h1, h2]
  · intro e kvs h
    unfold httpErrorBody
    rw [h]
  · intro lookup name op params t hfind ht
    unfold callToolModel
    simp only [hfind, ht]
    simp

/-- Witness for C7: a known tool whose HTTP call fails with a structured
error carrying `response.data`, one with only `error.data`, one with no
data, and a plain thrown error. -/
theorem C7_witness :
    callToolModel [("API-getPage", Json.obj [("method", Json.str "get")])] "API-getPage" none
        (.httpErr (some (Json.obj [("response",
          Json.obj [("data", Json.obj [("message", Json.str "bad request")])])])))
      = .envelope (textEnvelope (stringify (httpErrorBody (some (Json.obj [("response",
          Json.obj [("data", Json.obj [("message", Json.str "bad request")])])])))))
    ∧ httpErrorPayload (some (Json.obj [("response",
          Json.obj [("data", Json.obj [("message", Json.str "bad request")])])]))
      = Json.obj [("message", Json.str "bad request")]
    ∧ httpErrorPayload (some (Json.obj [("code", Json.num 400)]))
      = Json.obj [("code", Json.num 400)]
    ∧ httpErrorPayload none = Json.obj []
    ∧ httpErrorBody (some (Json.obj [("response",
          Json.obj [("data", Json.obj [("message", Json.str "bad request")])])]))
      = Json.obj [("status", Json.str "error"), ("message", Json.str "bad request")]
    ∧ callToolModel [("API-getPage", Json.obj [("method", Json.str "get")])] "API-getPage" none
        (.otherErr 7)
      = .rethrown 7 := by
  refine ⟨?_, ?_, ?_, ?_, ?_, ?_⟩
  · exact C7_error_handling.1 _ "API-getPage" (Json.obj [("method", Json.str "get")]) none _
      (by decide) (by decide)
  · exact C7_error_handling.2.1 _ (Json.obj [("message", Json.str "bad request")]) (by decide)
  · exact C7_error_handling.2.2.1 _ (Json.obj [("code", Json.num 400)]) (by decide) (by decide)
  · exact C7_error_handling.2.2.2.1 none (by decide) (by decide)
  · exact (C7_error_handling.2.2.2.2.1 _ [("message", Json.str "bad request")]
      (by decide)).trans (by decide)
  · exact C7_error_handling.2.2.2.2.2 _ "API-getPage" (Json.obj [("method", Json.str "get")])
      none 7 (by decide) (by decide)

theorem lookupList_assignKey_isSome {l : List (String × Json)} {k k2 : String} {w : Json}
    (h : (lookupList l k).isSome = true) :
    (lookupList (assignKey l k2 w) k).isSome = true := by
  by_cases he : k2 = k
  · subst he
    rw [lookupList_assignKey_self]
    rfl
  · rw [lookupList_assignKey_other he]
    exact h

theorem opsFold_names : ∀ (entries : List (String × Json)) (doc : Json) (f : Nat)
    (path : String) (acc : BuildAcc),
    (∀ m ∈ acc.methods, (lookupList acc.lookup ("API" ++ "-" ++ m.name)).isSome = true) →
    ∀ m ∈ (opsFold doc f path entries acc).methods,
      (lookupList (opsFold doc f path entries acc).lookup ("API" ++ "-" ++ m.name)).isSome
        = true := by
  intro entries
  induction entries with
  | nil =>
    intro doc f path acc hP
    exact hP
  | cons e r ih =>
    intro doc f path acc hP
    obtain ⟨method, operation⟩ := e
    unfold opsFold
    by_cases hop : isOperation method = true
    · rw [if_pos hop]
      cases hm : (convertOperationToMCPMethod doc f operation acc.cache).1 with
      | some m =>
        simp only [hm]
        refine ih doc f path _ ?_
        intro m2 hm2
        simp only [List.mem_append, List.mem_singleton] at hm2
        rcases hm2 with hm2 | hm2
        · exact lookupList_assignKey_isSome (hP m2 hm2)
        · subst hm2
          show (lookupList (assignKey acc.lookup
            ("API" ++ "-" ++ (ensureUniqueName m.name acc.counter).1) _)
            ("API" ++ "-" ++ (ensureUniqueName m.name acc.counter).1)).isSome = true
          rw [lookupList_assignKey_self]
          rfl
      | none =>
        simp only [hm]
        exact ih doc f path _ hP
    · rw [if_neg hop]
      exact ih doc f path acc hP

theorem pathsFold_names : ∀ (entries : List (String × Json)) (doc : Json) (f : Nat)
    (acc : BuildAcc),
    (∀ m ∈ acc.methods, (lookupList acc.lookup ("API" ++ "-" ++ m.name)).isSome = true) →
    ∀ m ∈ (pathsFold doc f entries acc).methods,
      (lookupList (pathsFold doc f entries acc).lookup ("API" ++ "-" ++ m.name)).isSome
        = true := by
  intro entries
  induction entries with
  | nil =>
    intro doc f acc hP
    exact hP
  | cons e r ih =>
    intro doc f acc hP
    obtain ⟨path, pathItem⟩ := e
    unfold pathsFold
    by_cases ht : truthy pathItem = true
    · rw [if_pos ht]
      exact ih doc f _ (opsFold_names (entriesOf pathItem) doc f path acc hP)
    · rw [if_neg ht]
      exact ih doc f acc hP

/-- The claim C1 counterexample document: a single operation whose
61-character `operationId` gives a 65-character prefixed lookup key. -/
def exampleLongNameDoc : Json := Json.obj [
  ("paths", Json.obj [("/a", Json.obj [("get",
    Json.obj [("operationId", Json.str ⟨List.replicate 61 'a'⟩)])])])]

/-- A small document with one `ping` operation. -/
def examplePingDoc : Json := Json.obj [
  ("paths", Json.obj [("/p", Json.obj [("get",
    Json.obj [("operationId", Json.str "ping")])])])]

/-- Claim C1 counterexample (closed): the 61-character identifier passes
`ensureUniqueName` unchanged, so its lookup key `API-<id>` has 65
characters, while the list-tools handler exposes the name truncated to 64;
calling the listed name fails with `Method ... not found`. -/
theorem C1_counterexample :
    listedToolNames (convertToMCPTools exampleLongNameDoc)
      = ["API-" ++ ⟨List.replicate 60 'a'⟩]
    ∧ findOperation (convertToMCPTools exampleLongNameDoc).lookup
        ("API-" ++ ⟨List.replicate 60 'a'⟩) = none
    ∧ callToolModel (convertToMCPTools exampleLongNameDoc).lookup
        ("API-" ++ ⟨List.replicate 60 'a'⟩) none (.ok Json.null)
      = .methodNotFound ("Method " ++ ("API-" ++ ⟨List.replicate 60 'a'⟩) ++ " not found") := by
  exact ⟨by decide, by decide, by decide⟩

/-- Claim C1 (corrected).  Every produced method's prefixed name
`API-<name>` is a key of the lookup record; when that prefixed name has at
most 64 characters the listed tool name equals it (truncation is the
identity), so the listed name resolves.  A prefixed name longer than 64
characters is always changed by truncation, so the listed name differs
from the lookup key (see the counterexample, where the listed name is
absent from the lookup and the call fails with MethodNotFound). -/
theorem C1_lookup_alignment :
    (∀ (doc : Json) (m : MCPMethod), m ∈ (convertToMCPTools doc).methods →
      (lookupList (convertToMCPTools doc).lookup ("API" ++ "-" ++ m.name)).isSome = true)
  ∧ (∀ (doc : Json) (m : MCPMethod), m ∈ (convertToMCPTools doc).methods →
      ("API" ++ "-" ++ m.name).length ≤ 64 →
      truncateToolName ("API" ++ "-" ++ m.name) = "API" ++ "-" ++ m.name
      ∧ (findOperation (convertToMCPTools doc).lookup
          (truncateToolName ("API" ++ "-" ++ m.name))).isSome = true)
  ∧ (∀ s : String, 64 < s.length → truncateToolName s ≠ s) := by
  have base : ∀ doc : Json, ∀ m ∈ (convertToMCPTools doc).methods,
      (lookupList (convertToMCPTools doc).lookup ("API" ++ "-" ++ m.name)).isSome = true := by
    intro doc
    exact pathsFold_names _ doc _ ⟨[], [], [], 0⟩ (by intro m hm; simp at hm)
  refine ⟨base, ?_, ?_⟩
  · intro doc m hm hlen
    have htr : truncateToolName ("API" ++ "-" ++ m.name) = "API" ++ "-" ++ m.name := by
      unfold truncateToolName
      rw [if_pos hlen]
    refine ⟨htr, ?_⟩
    rw [htr]
    exact base doc m hm
  · intro s h hc
    have hl : (⟨s.data.take 64⟩ : String).length = 64 := by
      show (s.data.take 64).length = 64
      rw [List.length_take]
      have he : s.data.length = s.length := rfl
      omega
    unfold truncateToolName at hc
    rw [if_neg (by omega)] at hc
    rw [hc] at hl
    omega

/-- Witness for C1: the `ping` operation's listed name survives truncation
and resolves in the lookup record, while a 65-character name is changed by
truncation. -/
theorem C1_witness :
    (truncateToolName ("API" ++ "-" ++ "ping") = "API" ++ "-" ++ "ping"
      ∧ (findOperation (convertToMCPTools examplePingDoc).lookup
          (truncateToolName ("API" ++ "-" ++ "ping"))).isSome = true)
    ∧ truncateToolName ⟨List.replicate 65 'a'⟩ ≠ ⟨List.replicate 65 'a'⟩ := by
  have hm : (⟨"ping", Json.str "", Json.obj [("$defs", Json.obj []),
      ("type", Json.str "object"), ("properties", Json.obj []),
      ("required", Json.arr [])], none⟩ : MCPMethod)
      ∈ (convertToMCPTools examplePingDoc).methods := by decide
  exact ⟨C1_lookup_alignment.2.1 examplePingDoc _ hm (by decide),
    C1_lookup_alignment.2.2 ⟨List.replicate 65 'a'⟩ (by decide)⟩

/-- The sequence of names `ensureUniqueName` assigns to a list of raw
method names, threading the counter. -/
def nameRun : Nat → List String → List String
  | _, [] => []
  | c, n :: r => (ensureUniqueName n c).1 :: nameRun (ensureUniqueName n c).2 r

/-- The counter left after a run of `ensureUniqueName`. -/
def nameRunEnd : Nat → List String → Nat
  | c, [] => c
  | c, n :: r => nameRunEnd (ensureUniqueName n c).2 r

/-- The raw method name `convertOperationToMCPMethod` would assign: the
operation's `operationId` when it is a truthy string, else `none`. -/
def opRawName (operation : Json) : Option String :=
  match Json.get operation "operationId" with
  | none => none
  | some mid =>
    if truthy mid = false then none else
    match mid with
    | .str s => some s
    | _ => none

/-- The raw names contributed by one path item's entries, in order. -/
def opsRawNames : List (String × Json) → List String
  | [] => []
  | (method, operation) :: r =>
    if isOperation method then
      match opRawName operation with
      | some n => n :: opsRawNames r
      | none => opsRawNames r
    else opsRawNames r

/-- The raw names contributed by the paths entries, in order. -/
def pathsRawNames : List (String × Json) → List String
  | [] => []
  | (_, pathItem) :: r =>
    (if truthy pathItem then opsRawNames (entriesOf pathItem) else []) ++ pathsRawNames r

/-- All raw method names of a document, in build order. -/
def rawNames (doc : Json) : List String :=
  pathsRawNames (entriesOf (jsOr (Json.get doc "paths") (Json.obj [])))

theorem ensureUniqueName_counter_le (n : String) (c : Nat) :
    c ≤ (ensureUniqueName n c).2 := by
  unfold ensureUniqueName
  by_cases h : n.length ≤ 64
  · rw [if_pos h]
  · rw [if_neg h]
    omega

theorem nameRun_length : ∀ (l : List String) (c : Nat), (nameRun c l).length = l.length := by
  intro l
  induction l with
  | nil => intro c; rfl
  | cons n r ih =>
    intro c
    show (nameRun c (n :: r)).length = r.length + 1
    unfold nameRun
    simp only [List.length_cons]
    rw [ih]

theorem convertOperation_name (doc : Json) (f : Nat) (operation : Json)
    (cache : List (String × Json)) :
    ((convertOperationToMCPMethod doc f operation cache).1).map (fun m => m.name)
      = opRawName operation := by
  unfold convertOperationToMCPMethod opRawName
  cases Json.get operation "operationId" with
  | none => rfl
  | some mid =>
    simp only
    by_cases ht : truthy mid = false
    · rw [if_pos ht, if_pos ht]
      rfl
    · rw [if_neg ht, if_neg ht]
      cases mid <;> rfl

theorem nameRun_append : ∀ (l1 l2 : List String) (c : Nat),
    nameRun c (l1 ++ l2) = nameRun c l1 ++ nameRun (nameRunEnd c l1) l2 := by
  intro l1
  induction l1 with
  | nil => intro l2 c; rfl
  | cons n r ih =>
    intro l2 c
    rw [List.cons_append]
    show (ensureUniqueName n c).1 :: nameRun (ensureUniqueName n c).2 (r ++ l2)
      = ((ensureUniqueName n c).1 :: nameRun (ensureUniqueName n c).2 r)
        ++ nameRun (nameRunEnd (ensureUniqueName n c).2 r) l2
    rw [ih, List.cons_append]

theorem opsFold_run : ∀ (entries : List (String × Json)) (doc : Json) (f : Nat)
    (path : String) (acc : BuildAcc),
    (opsFold doc f path entries acc).methods.map (fun m => m.name)
      = acc.methods.map (fun m => m.name) ++ nameRun acc.counter (opsRawNames entries)
    ∧ (opsFold doc f path entries acc).counter
      = nameRunEnd acc.counter (opsRawNames entries) := by
  intro entries
  induction entries with
  | nil =>
    intro doc f path acc
    refine ⟨?_, rfl⟩
    show acc.methods.map (fun m => m.name)
      = acc.methods.map (fun m => m.name) ++ ([] : List String)
    rw [List.append_nil]
  | cons e r ih =>
    intro doc f path acc
    obtain ⟨method, operation⟩ := e
    unfold opsFold opsRawNames
    by_cases hop : isOperation method = true
    · rw [if_pos hop, if_pos hop]
      have hname := convertOperation_name doc f operation acc.cache
      cases hm : (convertOperationToMCPMethod doc f operation acc.cache).1 with
      | some m =>
        rw [hm] at hname
        simp only [Option.map_some'] at hname
        simp only [hm, ← hname]
        obtain ⟨ih1, ih2⟩ := ih doc f path
          ⟨acc.methods ++ [⟨(ensureUniqueName m.name acc.counter).1,
            getDescription doc m.description, m.inputSchema, m.returnSchema⟩],
           assignKey acc.lookup ("API" ++ "-" ++ (ensureUniqueName m.name acc.counter).1)
             (Json.obj (assignAll (assignAll [] (entriesOf operation))
               [("method", Json.str method), ("path", Json.str path)])),
           (convertOperationToMCPMethod doc f operation acc.cache).2,
           (ensureUniqueName m.name acc.counter).2⟩
        refine ⟨?_, ?_⟩
        · rw [ih1]
          show _ = acc.methods.map (fun m => m.name)
            ++ ((ensureUniqueName m.name acc.counter).1
              :: nameRun (ensureUniqueName m.name acc.counter).2 (opsRawNames r))
          simp
        · rw [ih2]
          rfl
      | none =>
        rw [hm] at hname
        simp only [Option.map_none'] at hname
        simp only [hm, ← hname]
        exact ih doc f path ⟨acc.methods, acc.lookup,
          (convertOperationToMCPMethod doc f operation acc.cache).2, acc.counter⟩
    · rw [if_neg hop, if_neg hop]
      exact ih doc f path acc

theorem pathsFold_run : ∀ (entries : List (String × Json)) (doc : Json) (f : Nat)
    (acc : BuildAcc),
    (pathsFold doc f entries acc).methods.map (fun m => m.name)
      = acc.methods.map (fun m => m.name) ++ nameRun acc.counter (pathsRawNames entries) := by
  intro entries
  induction entries with
  | nil =>
    intro doc f acc
    show acc.methods.map (fun m => m.name)
      = acc.methods.map (fun m => m.name) ++ ([] : List String)
    rw [List.append_nil]
  | cons e r ih =>
    intro doc f acc
    obtain ⟨path, pathItem⟩ := e
    unfold pathsFold pathsRawNames
    by_cases ht : truthy pathItem = true
    · rw [if_pos ht, if_pos ht]
      obtain ⟨h1, h2⟩ := opsFold_run (entriesOf pathItem) doc f path acc
      rw [ih doc f _, h1, h2, nameRun_append, List.append_assoc]
    · rw [if_neg ht, if_neg ht]
      rw [ih doc f acc]
      simp

theorem convertToMCPTools_names (doc : Json) :
    (convertToMCPTools doc).methods.map (fun m => m.name) = nameRun 0 (rawNames doc) := by
  unfold convertToMCPTools rawNames
  rw [pathsFold_run]
  rfl

theorem nameRun_get_short : ∀ (l : List String) (c i : Nat) (a : String),
    l.get? i = some a → a.length ≤ 64 → (nameRun c l).get? i = some a := by
  intro l
  induction l with
  | nil =>
    intro c i a hi
    simp at hi
  | cons n r ih =>
    intro c i a hi ha
    cases i with
    | zero =>
      have hn : n = a := by simpa using hi
      subst hn
      have e0 : (nameRun c (n :: r)).get? 0 = some (ensureUniqueName n c).1 := rfl
      rw [e0]
      unfold ensureUniqueName
      rw [if_pos ha]
    | succ i2 =>
      have hir : r.get? i2 = some a := by simpa using hi
      have e1 : (nameRun c (n :: r)).get? (i2 + 1)
          = (nameRun (ensureUniqueName n c).2 r).get? i2 := rfl
      rw [e1]
      exact ih _ i2 a hir ha

theorem nameRun_get_long : ∀ (l : List String) (c j : Nat) (b : String),
    l.get? j = some b → 64 < b.length →
    ∃ cj, c ≤ cj ∧ (nameRun c l).get? j
      = some ((⟨b.data.take 59⟩ : String) ++ "-" ++ pad4 (cj + 1)) := by
  intro l
  induction l with
  | nil =>
    intro c j b hj
    simp at hj
  | cons n r ih =>
    intro c j b hj hb
    cases j with
    | zero =>
      have hn : n = b := by simpa using hj
      subst hn
      refine ⟨c, Nat.le_refl c, ?_⟩
      have e0 : (nameRun c (n :: r)).get? 0 = some (ensureUniqueName n c).1 := rfl
      rw [e0]
      unfold ensureUniqueName
      rw [if_neg (by omega)]
    | succ j2 =>
      have hjr : r.get? j2 = some b := by simpa using hj
      obtain ⟨cj, h1, h2⟩ := ih (ensureUniqueName n c).2 j2 b hjr hb
      refine ⟨cj, le_trans (ensureUniqueName_counter_le n c) h1, ?_⟩
      have e1 : (nameRun c (n :: r)).get? (j2 + 1)
          = (nameRun (ensureUniqueName n c).2 r).get? j2 := rfl
      rw [e1, h2]

theorem longName_ne {a b : String} {x y : Nat} (ha : 64 < a.length) (hb : 64 < b.length)
    (hxy : x ≠ y) :
    (⟨a.data.take 59⟩ : String) ++ "-" ++ pad4 x
      ≠ (⟨b.data.take 59⟩ : String) ++ "-" ++ pad4 y := by
  intro h
  have hd : ((a.data.take 59 ++ "-".data) ++ (pad4 x).data)
      = ((b.data.take 59 ++ "-".data) ++ (pad4 y).data) := congrArg String.data h
  have hlen : (a.data.take 59 ++ "-".data).length = (b.data.take 59 ++ "-".data).length := by
    have h1 : a.data.length = a.length := rfl
    have h2 : b.data.length = b.length := rfl
    simp only [List.length_append, List.length_take]
    omega
  obtain ⟨h1, h2⟩ := List.append_inj hd hlen
  have hp : pad4 x = pad4 y := congrArg String.mk h2
  exact hxy (pad4_inj hp)

theorem nameRun_long_distinct : ∀ (l : List String) (c i j : Nat) (a b : String),
    i < j → l.get? i = some a → l.get? j = some b → 64 < a.length → 64 < b.length →
    (nameRun c l).get? i ≠ (nameRun c l).get? j := by
  intro l
  induction l with
  | nil =>
    intro c i j a b hij hi
    simp at hi
  | cons n r ih =>
    intro c i j a b hij hi hj ha hb
    cases i with
    | zero =>
      have hn : n = a := by simpa using hi
      subst hn
      cases j with
      | zero => omega
      | succ j2 =>
        have hjr : r.get? j2 = some b := by simpa using hj
        obtain ⟨cj, hcj, hget⟩ := nameRun_get_long r (ensureUniqueName n c).2 j2 b hjr hb
        have hen : ensureUniqueName n c
            = ((⟨n.data.take 59⟩ : String) ++ "-" ++ pad4 (c + 1), c + 1) := by
          unfold ensureUniqueName
          rw [if_neg (by omega)]
        have e0 : (nameRun c (n :: r)).get? 0 = some (ensureUniqueName n c).1 := rfl
        have e1 : (nameRun c (n :: r)).get? (j2 + 1)
            = (nameRun (ensureUniqueName n c).2 r).get? j2 := rfl
        rw [e0, e1, hget, hen]
        intro hcontra
        simp only [Option.some.injEq] at hcontra
        have hcc : c + 1 ≠ cj + 1 := by
          rw [hen] at hcj
          simp only at hcj
          omega
        exact longName_ne ha hb hcc hcontra
    | succ i2 =>
      cases j with
      | zero => omega
      | succ j2 =>
        have hir : r.get? i2 = some a := by simpa using hi
        have hjr : r.get? j2 = some b := by simpa using hj
        have e1 : (nameRun c (n :: r)).get? (i2 + 1)
            = (nameRun (ensureUniqueName n c).2 r).get? i2 := rfl
        have e2 : (nameRun c (n :: r)).get? (j2 + 1)
            = (nameRun (ensureUniqueName n c).2 r).get? j2 := rfl
        rw [e1, e2]
        exact ih _ i2 j2 a b (by omega) hir hjr ha hb

/-- The claim C2 counterexample document: two distinct operations (GET and
POST on one path) that carry the same `operationId`. -/
def exampleDupDoc : Json := Json.obj [
  ("paths", Json.obj [("/a", Json.obj [
    ("get", Json.obj [("operationId", Json.str "dup")]),
    ("post", Json.obj [("operationId", Json.str "dup")])])])]

/-- Claim C2 counterexample (closed): two distinct operations with the
same 3-character `operationId` get the identical tool name `dup`, and
their lookup keys collide — the record keeps a single entry, so one
operation shadows the other. -/
theorem C2_counterexample :
    (convertToMCPTools exampleDupDoc).methods.map (fun m => m.name) = ["dup", "dup"]
    ∧ (convertToMCPTools exampleDupDoc).lookup.length = 1
    ∧ (convertToMCPTools exampleDupDoc).methods.length = 2 := by
  exact ⟨by decide, by decide, by decide⟩

/-- Claim C2 (corrected).  (a) The produced method names are exactly the
`ensureUniqueName` run over the document's raw `operationId`s in build
order; (b) two positions holding distinct identifiers of length ≤ 64 get
distinct names (the identifiers themselves); (c) two positions holding
over-long identifiers — distinct or not, in particular identifiers that
agree after truncation — get distinct names, thanks to the strictly
increasing counter suffix.  Two operations sharing one identifier of
length ≤ 64 collide (see the counterexample). -/
theorem C2_name_distinctness :
    (∀ doc : Json,
      (convertToMCPTools doc).methods.map (fun m => m.name) = nameRun 0 (rawNames doc))
  ∧ (∀ (l : List String) (c i j : Nat) (a b : String), i ≠ j →
      l.get? i = some a → l.get? j = some b →
      a.length ≤ 64 → b.length ≤ 64 → a ≠ b →
      (nameRun c l).get? i ≠ (nameRun c l).get? j)
  ∧ (∀ (l : List String) (c i j : Nat) (a b : String), i < j →
      l.get? i = some a → l.get? j = some b →
      64 < a.length → 64 < b.length →
      (nameRun c l).get? i ≠ (nameRun c l).get? j) := by
  refine ⟨convertToMCPTools_names, ?_, nameRun_long_distinct⟩
  intro l c i j a b hij hi hj ha hb hab
  rw [nameRun_get_short l c i a hi ha, nameRun_get_short l c j b hj hb]
  intro hcontra
  simp only [Option.some.injEq] at hcontra
  exact hab hcontra

/-- Witness for C2: the name correspondence on the `dup` document, two
distinct short identifiers keeping distinct names, and two over-long
identifiers that agree after truncation still getting distinct names. -/
theorem C2_witness :
    (convertToMCPTools exampleDupDoc).methods.map (fun m => m.name)
      = nameRun 0 (rawNames exampleDupDoc)
    ∧ (nameRun 0 ["alpha", "beta"]).get? 0 ≠ (nameRun 0 ["alpha", "beta"]).get? 1
    ∧ (nameRun 0 [⟨List.replicate 65 'a'⟩, ⟨List.replicate 65 'a'⟩]).get? 0
        ≠ (nameRun 0 [⟨List.replicate 65 'a'⟩, ⟨List.replicate 65 'a'⟩]).get? 1 := by
  refine ⟨C2_name_distinctness.1 exampleDupDoc, ?_, ?_⟩
  · exact C2_name_distinctness.2.1 ["alpha", "beta"] 0 0 1 "alpha" "beta"
      (by decide) (by decide) (by decide) (by decide) (by decide) (by decide)
  · exact C2_name_distinctness.2.2 [⟨List.replicate 65 'a'⟩, ⟨List.replicate 65 'a'⟩] 0 0 1
      ⟨List.replicate 65 'a'⟩ ⟨List.replicate 65 'a'⟩
      (by decide) (by decide) (by decide) (by decide) (by decide)

theorem internalResolveRef_mem {doc : Json} {ref : String} {resolved : List String}
    (hmem : ref ∈ resolved) :
    internalResolveRef doc ref resolved = (none, resolved) := by
  unfold internalResolveRef
  cases stripPfxStr "#/" ref with
  | none => rfl
  | some rest => simp [hmem]

theorem composePart_none {doc : Json} {f : Nat} {schema : Json} {key : String} {mode : Bool}
    {p : List (String × Json) × CState}
    (h : Json.get schema key = none) :
    composePart doc f schema key mode p = p := by
  cases f with
  | zero => rfl
  | succ f =>
    unfold composePart
    simp only [h]

theorem arrBranchPart_notarr {doc : Json} {f : Nat} {schema : Json} {mode : Bool}
    {p : List (String × Json) × CState}
    (h : ¬ Json.get schema "type" = some (Json.str "array")) :
    arrBranchPart doc f schema mode p = p := by
  cases f with
  | zero => rfl
  | succ f =>
    unfold arrBranchPart
    rw [if_neg h]

theorem objBranchPart_props {doc : Json} {f : Nat} {schema : Json} {mode : Bool}
    {p : List (String × Json) × CState} {pv : Json}
    (hobj : Json.get schema "type" = some (Json.str "object"))
    (hpv : Json.get schema "properties" = some pv)
    (htr : truthy pv = true)
    (hap : Json.get schema "additionalProperties" = none) :
    objBranchPart doc (f + 1) schema mode p
      = (assignKey (stepRequired schema (assignKey (assignKey p.1 "type" (Json.str "object"))
          "properties" (Json.obj (assignAll [] (convertPairs doc f (entriesOf pv) mode p.2).1))))
          "additionalProperties" (Json.bool true),
         (convertPairs doc f (entriesOf pv) mode p.2).2) := by
  unfold objBranchPart
  rw [if_pos hobj]
  simp only [hpv, htr, if_true, hap]

theorem convertPairs_nil (doc : Json) (f : Nat) (mode : Bool) (st : CState) :
    convertPairs doc f [] mode st = ([], st) := by
  cases f <;> rfl

theorem inlinePart_eq (doc : Json) (f : Nat) (schema : Json) (mode : Bool) (st : CState) :
    inlinePart doc (f + 1) schema mode st
      = (Json.obj (composePart doc f schema "allOf" mode (composePart doc f schema "anyOf" mode
          (composePart doc f schema "oneOf" mode (arrBranchPart doc f schema mode
            (objBranchPart doc f schema mode
              (stepDefault schema (stepConst schema (stepEnum schema (stepFormatDesc schema
                (stepType schema [])))), st)))))).1,
         (composePart doc f schema "allOf" mode (composePart doc f schema "anyOf" mode
          (composePart doc f schema "oneOf" mode (arrBranchPart doc f schema mode
            (objBranchPart doc f schema mode
              (stepDefault schema (stepConst schema (stepEnum schema (stepFormatDesc schema
                (stepType schema [])))), st)))))).2) := rfl

/-- The claim C4 document: schema `A` whose property `self` references
`A` itself. -/
def exampleSelfRefDoc : Json := Json.obj [
  ("components", Json.obj [("schemas", Json.obj [
    ("A", Json.obj [
      ("type", Json.str "object"),
      ("properties", Json.obj [
        ("self", Json.obj [("$ref", Json.str "#/components/schemas/A")])])])])])]

/-- What inline translation of `#/components/schemas/A` in
`exampleSelfRefDoc` produces: the inner re-entry is the fallback local
ref node, not the cache entry. -/
def exampleSelfRefConverted : Json := Json.obj [
  ("type", Json.str "object"),
  ("properties", Json.obj [("self",
    Json.obj [("$ref", Json.str "#/$defs/A"), ("description", Json.str "")])]),
  ("additionalProperties", Json.bool true)]

theorem selfref_inner : ∀ g : Nat,
    convertOpenApiSchemaToJsonSchema exampleSelfRefDoc (g + 2)
        (Json.obj [("$ref", Json.str "#/components/schemas/A")]) true
        ⟨[], ["#/components/schemas/A"]⟩
      = (Json.obj [("$ref", Json.str "#/$defs/A"), ("description", Json.str "")],
          ⟨[], ["#/components/schemas/A"]⟩) := by
  intro g
  rw [show g + 2 = (g + 1) + 1 from by omega]
  have href : lookupList [("$ref", Json.str "#/components/schemas/A")] "$ref"
      = some (Json.str "#/components/schemas/A") := by decide
  have hc : lookupList (⟨[], ["#/components/schemas/A"]⟩ : CState).cache
      "#/components/schemas/A" = none := by decide
  rw [convert_ref_toResolve href (by simp) hc]
  have hres : internalResolveRef exampleSelfRefDoc "#/components/schemas/A"
      (⟨[], ["#/components/schemas/A"]⟩ : CState).resolved
      = (none, ["#/components/schemas/A"]) := internalResolveRef_mem (by decide)
  rw [resolveAndCache_fail hres]
  decide

theorem selfref_pairs : ∀ g : Nat,
    convertPairs exampleSelfRefDoc (g + 3)
        [("self", Json.obj [("$ref", Json.str "#/components/schemas/A")])] true
        ⟨[], ["#/components/schemas/A"]⟩
      = ([("self", Json.obj [("$ref", Json.str "#/$defs/A"), ("description", Json.str "")])],
          ⟨[], ["#/components/schemas/A"]⟩) := by
  intro g
  have e1 : convertPairs exampleSelfRefDoc ((g + 2) + 1)
      [("self", Json.obj [("$ref", Json.str "#/components/schemas/A")])] true
      ⟨[], ["#/components/schemas/A"]⟩
      = (("self", (convertOpenApiSchemaToJsonSchema exampleSelfRefDoc (g + 2)
            (Json.obj [("$ref", Json.str "#/components/schemas/A")]) true
            ⟨[], ["#/components/schemas/A"]⟩).1)
          :: (convertPairs exampleSelfRefDoc (g + 2) [] true
            (convertOpenApiSchemaToJsonSchema exampleSelfRefDoc (g + 2)
              (Json.obj [("$ref", Json.str "#/components/schemas/A")]) true
              ⟨[], ["#/components/schemas/A"]⟩).2).1,
         (convertPairs exampleSelfRefDoc (g + 2) [] true
            (convertOpenApiSchemaToJsonSchema exampleSelfRefDoc (g + 2)
              (Json.obj [("$ref", Json.str "#/components/schemas/A")]) true
              ⟨[], ["#/components/schemas/A"]⟩).2).2) := rfl
  rw [show g + 3 = (g + 2) + 1 from by omega, e1, selfref_inner g, convertPairs_nil]

theorem selfref_body : ∀ g : Nat,
    convertOpenApiSchemaToJsonSchema exampleSelfRefDoc (g + 6)
        (Json.obj [("type", Json.str "object"), ("properties", Json.obj [("self",
          Json.obj [("$ref", Json.str "#/components/schemas/A")])])]) true
        ⟨[], ["#/components/schemas/A"]⟩
      = (exampleSelfRefConverted, ⟨[], ["#/components/schemas/A"]⟩) := by
  intro g
  rw [show g + 6 = (g + 5) + 1 from by omega]
  rw [convert_inline (by decide)]
  rw [show g + 5 = (g + 4) + 1 from by omega]
  rw [inlinePart_eq]
  rw [show g + 4 = (g + 3) + 1 from by omega]
  have hpv : Json.get (Json.obj [("type", Json.str "object"), ("properties", Json.obj [("self",
      Json.obj [("$ref", Json.str "#/components/schemas/A")])])]) "properties"
      = some (Json.obj [("self", Json.obj [("$ref", Json.str "#/components/schemas/A")])]) := by
    decide
  rw [objBranchPart_props (by decide) hpv (by decide) (by decide)]
  have e2 : entriesOf (Json.obj [("self",
      Json.obj [("$ref", Json.str "#/components/schemas/A")])])
      = [("self", Json.obj [("$ref", Json.str "#/components/schemas/A")])] := rfl
  rw [e2, selfref_pairs g]
  rw [arrBranchPart_notarr (by decide), composePart_none (by decide),
    composePart_none (by decide), composePart_none (by decide)]
  decide

theorem selfref_top : ∀ g : Nat,
    convertOpenApiSchemaToJsonSchema exampleSelfRefDoc (g + 9)
        (Json.obj [("$ref", Json.str "#/components/schemas/A")]) true ⟨[], []⟩
      = (exampleSelfRefConverted,
          ⟨[("#/components/schemas/A", exampleSelfRefConverted)],
           ["#/components/schemas/A"]⟩) := by
  intro g
  rw [show g + 9 = (g + 8) + 1 from by omega]
  have href : lookupList [("$ref", Json.str "#/components/schemas/A")] "$ref"
      = some (Json.str "#/components/schemas/A") := by decide
  have hc : lookupList (⟨[], []⟩ : CState).cache "#/components/schemas/A" = none := by decide
  rw [convert_ref_toResolve href (by simp) hc]
  rw [show g + 8 = (g + 7) + 1 from by omega]
  have hres : internalResolveRef exampleSelfRefDoc "#/components/schemas/A"
      (⟨[], []⟩ : CState).resolved
      = (some (Json.obj [("type", Json.str "object"), ("properties", Json.obj [("self",
          Json.obj [("$ref", Json.str "#/components/schemas/A")])])]),
         ["#/components/schemas/A"]) := by decide
  rw [resolveAndCache_success hres]
  rw [show g + 7 = (g + 1) + 6 from by omega]
  rw [selfref_body (g + 1)]
  decide

/-- Claim C4 counterexample (closed): inline translation of the
self-referential `#/components/schemas/A` yields an object whose inner
`self` node is the unresolved-ref fallback `$ref: '#/$defs/A'` with an
empty description — not the cache entry for the pointer, which is written
only after the recursion and holds the completed translation. -/
theorem C4_counterexample :
    convertOpenApiSchemaToJsonSchema exampleSelfRefDoc 9
        (Json.obj [("$ref", Json.str "#/components/schemas/A")]) true ⟨[], []⟩
      = (exampleSelfRefConverted,
          ⟨[("#/components/schemas/A", exampleSelfRefConverted)],
           ["#/components/schemas/A"]⟩)
    ∧ Json.get exampleSelfRefConverted "properties"
        = some (Json.obj [("self", Json.obj [("$ref", Json.str "#/$defs/A"),
            ("description", Json.str "")])])
    ∧ Json.obj [("$ref", Json.str "#/$defs/A"), ("description", Json.str "")]
        ≠ exampleSelfRefConverted := by
  exact ⟨by decide, by decide, by decide⟩

/-- Claim C4 (corrected).  (a) On the successful resolution path the cache
entry for a ref is written only after the recursive translation of the
resolved node returns — the recursion runs on a state whose cache still
lacks the ref; (b) re-entering a pointer already in the `resolvedRefs`
set (with the cache still empty for it) does not loop and does not hit
the cache: it returns the fallback local `$ref` node and leaves the state
unchanged; (c) hence translation of the self-referential schema `A`
terminates: beyond fuel 9 the result never changes. -/
theorem C4_cache_after_recursion :
    (∀ (doc : Json) (f : Nat) (kvs : List (String × Json)) (ref : String) (st : CState)
      (mode : Bool) (s : Json) (res1 : List String),
      lookupList kvs "$ref" = some (Json.str ref) →
      (decide (mode = false) && strStarts "#/components/schemas/" ref) = false →
      lookupList st.cache ref = none →
      internalResolveRef doc ref st.resolved = (some s, res1) →
      convertOpenApiSchemaToJsonSchema doc (f + 2) (Json.obj kvs) mode st
        = ((convertOpenApiSchemaToJsonSchema doc f s mode ⟨st.cache, res1⟩).1,
            ⟨assignKey (convertOpenApiSchemaToJsonSchema doc f s mode ⟨st.cache, res1⟩).2.cache
              ref (convertOpenApiSchemaToJsonSchema doc f s mode ⟨st.cache, res1⟩).1,
             (convertOpenApiSchemaToJsonSchema doc f s mode ⟨st.cache, res1⟩).2.resolved⟩))
  ∧ (∀ (doc : Json) (f : Nat) (kvs : List (String × Json)) (ref : String) (st : CState)
      (mode : Bool),
      lookupList kvs "$ref" = some (Json.str ref) →
      (decide (mode = false) && strStarts "#/components/schemas/" ref) = false →
      lookupList st.cache ref = none →
      ref ∈ st.resolved →
      convertOpenApiSchemaToJsonSchema doc (f + 2) (Json.obj kvs) mode st
        = (Json.obj [("$ref", Json.str (rewriteRef ref)), ("description", descFallback kvs)],
            ⟨st.cache, st.resolved⟩))
  ∧ (∀ g : Nat,
      convertOpenApiSchemaToJsonSchema exampleSelfRefDoc (g + 9)
          (Json.obj [("$ref", Json.str "#/components/schemas/A")]) true ⟨[], []⟩
        = convertOpenApiSchemaToJsonSchema exampleSelfRefDoc 9
            (Json.obj [("$ref", Json.str "#/components/schemas/A")]) true ⟨[], []⟩) := by
  refine ⟨?_, ?_, ?_⟩
  · intro doc f kvs ref st mode s res1 href hguard hc hres
    rw [show f + 2 = (f + 1) + 1 from by omega, convert_ref_toResolve href hguard hc,
      resolveAndCache_success hres]
  · intro doc f kvs ref st mode href hguard hc hmem
    rw [show f + 2 = (f + 1) + 1 from by omega, convert_ref_toResolve href hguard hc,
      resolveAndCache_fail (internalResolveRef_mem hmem)]
  · intro g
    exact (selfref_top g).trans (selfref_top 0).symm

/-- Witness for C4: the corrected theorem applied at the self-referential
document — the outer success path with the cache assigned after the inner
conversion, the guarded re-entry, and stability at fuel 14 versus 9. -/
theorem C4_witness :
    convertOpenApiSchemaToJsonSchema exampleSelfRefDoc 9
        (Json.obj [("$ref", Json.str "#/components/schemas/A")]) true ⟨[], []⟩
      = ((convertOpenApiSchemaToJsonSchema exampleSelfRefDoc 7
            (Json.obj [("type", Json.str "object"), ("properties", Json.obj [("self",
              Json.obj [("$ref", Json.str "#/components/schemas/A")])])]) true
            ⟨[], ["#/components/schemas/A"]⟩).1,
          ⟨assignKey (convertOpenApiSchemaToJsonSchema exampleSelfRefDoc 7
              (Json.obj [("type", Json.str "object"), ("properties", Json.obj [("self",
                Json.obj [("$ref", Json.str "#/components/schemas/A")])])]) true
              ⟨[], ["#/components/schemas/A"]⟩).2.cache
            "#/components/schemas/A"
            (convertOpenApiSchemaToJsonSchema exampleSelfRefDoc 7
              (Json.obj [("type", Json.str "object"), ("properties", Json.obj [("self",
                Json.obj [("$ref", Json.str "#/components/schemas/A")])])]) true
              ⟨[], ["#/components/schemas/A"]⟩).1,
           (convertOpenApiSchemaToJsonSchema exampleSelfRefDoc 7
              (Json.obj [("type", Json.str "object"), ("properties", Json.obj [("self",
                Json.obj [("$ref", Json.str "#/components/schemas/A")])])]) true
              ⟨[], ["#/components/schemas/A"]⟩).2.resolved⟩)
    ∧ convertOpenApiSchemaToJsonSchema exampleSelfRefDoc 2
        (Json.obj [("$ref", Json.str "#/components/schemas/A")]) true
        ⟨[], ["#/components/schemas/A"]⟩
      = (Json.obj [("$ref", Json.str (rewriteRef "#/components/schemas/A")),
          ("description", descFallback [("$ref", Json.str "#/components/schemas/A")])],
          ⟨[], ["#/components/schemas/A"]⟩)
    ∧ convertOpenApiSchemaToJsonSchema exampleSelfRefDoc 14
        (Json.obj [("$ref", Json.str "#/components/schemas/A")]) true ⟨[], []⟩
      = convertOpenApiSchemaToJsonSchema exampleSelfRefDoc 9
          (Json.obj [("$ref", Json.str "#/components/schemas/A")]) true ⟨[], []⟩ := by
  refine ⟨?_, ?_, ?_⟩
  · have hres : internalResolveRef exampleSelfRefDoc "#/components/schemas/A"
        (⟨[], []⟩ : CState).resolved
        = (some (Json.obj [("type", Json.str "object"), ("properties", Json.obj [("self",
            Json.obj [("$ref", Json.str "#/components/schemas/A")])])]),
           ["#/components/schemas/A"]) := by decide
    exact C4_cache_after_recursion.1 exampleSelfRefDoc 7
      [("$ref", Json.str "#/components/schemas/A")] "#/components/schemas/A" ⟨[], []⟩ true
      (Json.obj [("type", Json.str "object"), ("properties", Json.obj [("self",
        Json.obj [("$ref", Json.str "#/components/schemas/A")])])])
      ["#/components/schemas/A"] (by decide) (by simp) (by decide) hres
  · exact C4_cache_after_recursion.2.1 exampleSelfRefDoc 0
      [("$ref", Json.str "#/components/schemas/A")] "#/components/schemas/A"
      ⟨[], ["#/components/schemas/A"]⟩ true (by decide) (by simp) (by decide) (by decide)
  · exact C4_cache_after_recursion.2.2 5

/-! ### Self-containment of tool schemas (claim C5)

`refsIn` collects every string sitting under a `$ref` key anywhere in a
value; `wfJ` is the well-formedness of an input document relative to the
component schema keys: every `$ref` anywhere holds a string with the
`#/components/schemas/` prefix whose suffix is a known component. -/

/-- The ref strings a single `$ref` value contributes. -/
def strVals : Json → List String
  | .str s => [s]
  | _ => []

mutual

/-- All `$ref` strings occurring anywhere in a value. -/
def refsIn : Json → List String
  | .obj kvs => refsInF kvs
  | .arr xs => refsInL xs
  | _ => []

/-- `refsIn` over array elements. -/
def refsInL : List Json → List String
  | [] => []
  | x :: r => refsIn x ++ refsInL r

/-- `refsIn` over object members (a member keyed `$ref` contributes its
string value). -/
def refsInF : List (String × Json) → List String
  | [] => []
  | (k, v) :: r => (if k = "$ref" then strVals v else []) ++ refsIn v ++ refsInF r

end

/-- A well-formed `$ref` value: a string with the components prefix whose
suffix is a known component key. -/
def wfRef (ks : List String) : Json → Bool
  | .str s =>
    match stripPfxStr "#/components/schemas/" s with
    | some sfx => decide (sfx ∈ ks)
    | none => false
  | _ => false

mutual

/-- Document well-formedness relative to the component keys `ks`. -/
def wfJ (ks : List String) : Json → Bool
  | .obj kvs => wfF ks kvs
  | .arr xs => wfL ks xs
  | _ => true

/-- `wfJ` over array elements. -/
def wfL (ks : List String) : List Json → Bool
  | [] => true
  | x :: r => wfJ ks x && wfL ks r

/-- `wfJ` over object members. -/
def wfF (ks : List String) : List (String × Json) → Bool
  | [] => true
  | (k, v) :: r => (if k = "$ref" then wfRef ks v else true) && wfJ ks v && wfF ks r

end

/-- The component schema keys of a document. -/
def schemaKeys (doc : Json) : List String :=
  (entriesOf (jsOr (Json.get (jsOr (Json.get doc "components") (Json.obj [])) "schemas")
    (Json.obj []))).map (fun kv => kv.1)

/-- A well-formed OpenAPI document: every `$ref` anywhere in it points at
an existing component schema. -/
def wfDoc (doc : Json) : Bool := wfJ (schemaKeys doc) doc

/-- All local `#/$defs/` refs of a value name keys from `ks`. -/
def RefsOk (ks : List String) (v : Json) : Prop :=
  ∀ rr ∈ refsIn v, ∀ sfx, stripPfxStr "#/$defs/" rr = some sfx → sfx ∈ ks

/-- `RefsOk` for a member list. -/
def RefsOkF (ks : List String) (l : List (String × Json)) : Prop :=
  ∀ rr ∈ refsInF l, ∀ sfx, stripPfxStr "#/$defs/" rr = some sfx → sfx ∈ ks

theorem stripPfx_sound : ∀ (p l r : List Char), stripPfx p l = some r → l = p ++ r := by
  intro p
  induction p with
  | nil =>
    intro l r h
    simp [stripPfx] at h
    rw [h]
    rfl
  | cons c p2 ih =>
    intro l r h
    cases l with
    | nil => simp [stripPfx] at h
    | cons d l2 =>
      unfold stripPfx at h
      by_cases hd : d = c
      · rw [if_pos hd] at h
        subst hd
        rw [List.cons_append]
        rw [ih l2 r h]
      · rw [if_neg hd] at h
        simp at h

theorem stripPfx_here : ∀ (p r : List Char), stripPfx p (p ++ r) = some r := by
  intro p
  induction p with
  | nil => intro r; rfl
  | cons c p2 ih =>
    intro r
    show stripPfx (c :: p2) (c :: (p2 ++ r)) = some r
    unfold stripPfx
    rw [if_pos rfl]
    exact ih r

theorem stripPfxStr_here (p s : String) : stripPfxStr p (p ++ s) = some s := by
  unfold stripPfxStr
  have h : (p ++ s).data = p.data ++ s.data := rfl
  rw [h, stripPfx_here]

theorem comp_not_defs {s : String} {x : String}
    (h : stripPfxStr "#/components/schemas/" s = some x) :
    stripPfxStr "#/$defs/" s = none := by
  unfold stripPfxStr at h ⊢
  cases hs : stripPfx "#/components/schemas/".data s.data with
  | none => rw [hs] at h; simp at h
  | some r =>
    have := stripPfx_sound _ _ _ hs
    rw [this]
    rfl

theorem lookupList_mem : ∀ (l : List (String × Json)) (k : String) (v : Json),
    lookupList l k = some v → (k, v) ∈ l := by
  intro l
  induction l with
  | nil => intro k v h; simp [lookupList] at h
  | cons kv r ih =>
    intro k v h
    obtain ⟨k2, v2⟩ := kv
    unfold lookupList at h
    by_cases he : k2 = k
    · rw [if_pos he] at h
      simp only [Option.some.injEq] at h
      subst he
      subst h
      exact List.mem_cons_self _ _
    · rw [if_neg he] at h
      exact List.mem_cons_of_mem _ (ih k v h)

theorem wfF_values : ∀ {ks : List String} {kvs : List (String × Json)},
    wfF ks kvs = true → ∀ kv ∈ kvs, wfJ ks kv.2 = true := by
  intro ks kvs
  induction kvs with
  | nil => intro _ kv h; simp at h
  | cons kv2 r ih =>
    intro hw kv hm
    obtain ⟨k2, v2⟩ := kv2
    unfold wfF at hw
    simp only [Bool.and_eq_true] at hw
    rcases List.mem_cons.mp hm with hm | hm
    · subst hm
      exact hw.1.2
    · exact ih hw.2 kv hm

theorem wfF_ref : ∀ {ks : List String} {kvs : List (String × Json)} {v : Json},
    wfF ks kvs = true → lookupList kvs "$ref" = some v → wfRef ks v = true := by
  intro ks kvs
  induction kvs with
  | nil => intro v _ h; simp [lookupList] at h
  | cons kv2 r ih =>
    intro v hw hl
    obtain ⟨k2, v2⟩ := kv2
    unfold wfF at hw
    simp only [Bool.and_eq_true] at hw
    unfold lookupList at hl
    by_cases he : k2 = "$ref"
    · rw [if_pos he] at hl
      simp only [Option.some.injEq] at hl
      subst hl
      have := hw.1.1
      rw [if_pos he] at this
      exact this
    · rw [if_neg he] at hl
      exact ih hw.2 hl

theorem wfF_lookup {ks : List String} {kvs : List (String × Json)} {k : String} {v : Json}
    (hw : wfF ks kvs = true) (hl : lookupList kvs k = some v) : wfJ ks v = true :=
  wfF_values hw (k, v) (lookupList_mem kvs k v hl)

theorem wfJ_get {ks : List String} {j : Json} {k : String} {v : Json}
    (hw : wfJ ks j = true) (hl : Json.get j k = some v) : wfJ ks v = true := by
  cases j with
  | obj kvs => exact wfF_lookup hw hl
  | null => simp [Json.get] at hl
  | bool b => simp [Json.get] at hl
  | num n => simp [Json.get] at hl
  | str s => simp [Json.get] at hl
  | arr xs => simp [Json.get] at hl

theorem wfL_mem : ∀ {ks : List String} {xs : List Json},
    wfL ks xs = true → ∀ x ∈ xs, wfJ ks x = true := by
  intro ks xs
  induction xs with
  | nil => intro _ x h; simp at h
  | cons y r ih =>
    intro hw x hm
    unfold wfL at hw
    simp only [Bool.and_eq_true] at hw
    rcases List.mem_cons.mp hm with hm | hm
    · subst hm; exact hw.1
    · exact ih hw.2 x hm

theorem idxEntries_values : ∀ (xs : List Json) (i : Nat) (kv : String × Json),
    kv ∈ idxEntries i xs → kv.2 ∈ xs := by
  intro xs
  induction xs with
  | nil => intro i kv h; simp [idxEntries] at h
  | cons x r ih =>
    intro i kv h
    unfold idxEntries at h
    rcases List.mem_cons.mp h with h | h
    · subst h; exact List.mem_cons_self _ _
    · exact List.mem_cons_of_mem _ (ih (i + 1) kv h)

theorem entriesOf_wf {ks : List String} {v : Json}
    (hw : wfJ ks v = true) : ∀ kv ∈ entriesOf v, wfJ ks kv.2 = true := by
  cases v with
  | obj kvs => exact wfF_values hw
  | arr xs =>
    intro kv hm
    exact wfL_mem hw kv.2 (idxEntries_values xs 0 kv hm)
  | str s =>
    intro kv hm
    have := idxEntries_values _ 0 kv hm
    simp only [List.mem_map] at this
    obtain ⟨ch, _, hch⟩ := this
    rw [← hch]
    rfl
  | null => intro kv hm; simp [entriesOf] at hm
  | bool b => intro kv hm; simp [entriesOf] at hm
  | num n => intro kv hm; simp [entriesOf] at hm

mutual

theorem wfOut : ∀ (ks : List String) (v : Json), wfJ ks v = true → RefsOk ks v
  | ks, .obj kvs, hw => fun rr hm sfx hs => wfOutF ks kvs hw rr hm sfx hs
  | ks, .arr xs, hw => fun rr hm sfx hs => wfOutL ks xs hw rr hm sfx hs
  | _, .null, _ => fun rr hm => by simp [refsIn] at hm
  | _, .bool _, _ => fun rr hm => by simp [refsIn] at hm
  | _, .num _, _ => fun rr hm => by simp [refsIn] at hm
  | _, .str _, _ => fun rr hm => by simp [refsIn] at hm

theorem wfOutL : ∀ (ks : List String) (xs : List Json), wfL ks xs = true →
    ∀ rr ∈ refsInL xs, ∀ sfx, stripPfxStr "#/$defs/" rr = some sfx → sfx ∈ ks
  | ks, [], _ => fun rr hm => by simp [refsInL] at hm
  | ks, x :: r, hw => by
    intro rr hm sfx hs
    unfold wfL at hw
    simp only [Bool.and_eq_true] at hw
    unfold refsInL at hm
    rcases List.mem_append.mp hm with hm | hm
    · exact wfOut ks x hw.1 rr hm sfx hs
    · exact wfOutL ks r hw.2 rr hm sfx hs

theorem wfOutF : ∀ (ks : List String) (kvs : List (String × Json)), wfF ks kvs = true →
    ∀ rr ∈ refsInF kvs, ∀ sfx, stripPfxStr "#/$defs/" rr = some sfx → sfx ∈ ks
  | ks, [], _ => fun rr hm => by simp [refsInF] at hm
  | ks, (k, v) :: r, hw => by
    intro rr hm sfx hs
    unfold wfF at hw
    simp only [Bool.and_eq_true] at hw
    unfold refsInF at hm
    rcases List.mem_append.mp hm with hm | hm
    · rcases List.mem_append.mp hm with hm | hm
      · by_cases he : k = "$ref"
        · rw [if_pos he] at hm
          have hwr := hw.1.1
          rw [if_pos he] at hwr
          cases v with
          | str s =>
            simp only [strVals, List.mem_singleton] at hm
            subst hm
            cases hc : stripPfxStr "#/components/schemas/" rr with
            | none =>
              simp only [wfRef, hc] at hwr
              exact absurd hwr (by simp)
            | some x =>
              rw [comp_not_defs hc] at hs
              simp at hs
          | null => simp [strVals] at hm
          | bool b => simp [strVals] at hm
          | num n => simp [strVals] at hm
          | arr xs => simp [strVals] at hm
          | obj kvs2 => simp [strVals] at hm
        · rw [if_neg he] at hm
          simp at hm
      · exact wfOut ks v hw.1.2 rr hm sfx hs
    · exact wfOutF ks r hw.2 rr hm sfx hs

end

theorem assignKey_cons_eq (k : String) (v2 v : Json) (r : List (String × Json)) :
    assignKey ((k, v2) :: r) k v = (k, v) :: r := by
  show (if k = k then (k, v) :: r else (k, v2) :: assignKey r k v) = (k, v) :: r
  rw [if_pos rfl]

theorem assignKey_cons_ne {k2 k : String} (he : ¬ k2 = k) (v2 v : Json)
    (r : List (String × Json)) :
    assignKey ((k2, v2) :: r) k v = (k2, v2) :: assignKey r k v := by
  show (if k2 = k then (k, v) :: r else (k2, v2) :: assignKey r k v)
    = (k2, v2) :: assignKey r k v
  rw [if_neg he]

theorem refsInF_assignKey : ∀ (l : List (String × Json)) (k : String) (v : Json) (rr : String),
    rr ∈ refsInF (assignKey l k v) →
    rr ∈ refsInF l ∨ rr ∈ (if k = "$ref" then strVals v else []) ++ refsIn v := by
  intro l k v
  induction l with
  | nil =>
    intro rr hm
    simp only [assignKey, refsInF, List.append_nil] at hm
    exact Or.inr hm
  | cons kv r ih =>
    intro rr hm
    obtain ⟨k2, v2⟩ := kv
    by_cases he : k2 = k
    · subst he
      rw [assignKey_cons_eq] at hm
      simp only [refsInF, List.mem_append] at hm ⊢
      tauto
    · rw [assignKey_cons_ne he] at hm
      simp only [refsInF, List.mem_append] at hm ⊢
      by_cases h3 : rr ∈ refsInF (assignKey r k v)
      · rcases ih rr h3 with h | h
        · tauto
        · simp only [List.mem_append] at h
          tauto
      · tauto

theorem refsInF_assignAll : ∀ (l base : List (String × Json)) (rr : String),
    rr ∈ refsInF (assignAll base l) →
    rr ∈ refsInF base
      ∨ ∃ kv ∈ l, rr ∈ (if kv.1 = "$ref" then strVals kv.2 else []) ++ refsIn kv.2 := by
  intro l
  induction l with
  | nil =>
    intro base rr hm
    exact Or.inl hm
  | cons kv r ih =>
    intro base rr hm
    obtain ⟨k2, v2⟩ := kv
    unfold assignAll at hm
    rcases ih _ rr hm with h | h
    · rcases refsInF_assignKey base k2 v2 rr h with h2 | h2
      · exact Or.inl h2
      · exact Or.inr ⟨(k2, v2), List.mem_cons_self _ _, h2⟩
    · obtain ⟨kv2, hmem, hr⟩ := h
      exact Or.inr ⟨kv2, List.mem_cons_of_mem _ hmem, hr⟩

theorem refsIn_mem {kvs : List (String × Json)} {kv : String × Json}
    (hmem : kv ∈ kvs) : ∀ rr ∈ refsIn kv.2, rr ∈ refsInF kvs := by
  intro rr hr
  induction kvs with
  | nil => simp at hmem
  | cons kv2 r ih =>
    obtain ⟨k2, v2⟩ := kv2
    unfold refsInF
    rcases List.mem_cons.mp hmem with hm | hm
    · subst hm
      simp [hr]
    · simp [ih hm]

theorem refsIn_lookup {kvs : List (String × Json)} {k : String} {v : Json}
    (hl : lookupList kvs k = some v) : ∀ rr ∈ refsIn v, rr ∈ refsInF kvs :=
  refsIn_mem (lookupList_mem kvs k v hl)

theorem refsIn_getRefStr {kvs : List (String × Json)} {s : String}
    (hl : lookupList kvs "$ref" = some (Json.str s)) : s ∈ refsInF kvs := by
  have hmem := lookupList_mem kvs "$ref" (Json.str s) hl
  clear hl
  induction kvs with
  | nil => simp at hmem
  | cons kv r ih =>
    obtain ⟨k2, v2⟩ := kv
    unfold refsInF
    rcases List.mem_cons.mp hmem with hm | hm
    · simp only [Prod.mk.injEq] at hm
      obtain ⟨h1, h2⟩ := hm
      subst h1
      subst h2
      simp [strVals]
    · simp [ih hm]

theorem RefsOk_of_refsIn_nil {ks : List String} {v : Json} (h : refsIn v = []) :
    RefsOk ks v := by
  intro rr hm
  rw [h] at hm
  simp at hm

theorem RefsOkF_nil (ks : List String) : RefsOkF ks [] := by
  intro rr hm
  simp [refsInF] at hm

theorem refsInL_mem : ∀ (xs : List Json) (rr : String),
    rr ∈ refsInL xs → ∃ x ∈ xs, rr ∈ refsIn x := by
  intro xs
  induction xs with
  | nil => intro rr hm; simp [refsInL] at hm
  | cons x r ih =>
    intro rr hm
    unfold refsInL at hm
    rcases List.mem_append.mp hm with hm | hm
    · exact ⟨x, List.mem_cons_self _ _, hm⟩
    · obtain ⟨y, h1, h2⟩ := ih rr hm
      exact ⟨y, List.mem_cons_of_mem _ h1, h2⟩

theorem stepOk_assign {ks : List String} {l : List (String × Json)} {k : String} {v : Json}
    (hl : RefsOkF ks l) (hk : ¬ k = "$ref") (hv : RefsOk ks v) :
    RefsOkF ks (assignKey l k v) := by
  intro rr hm sfx hs
  rcases refsInF_assignKey l k v rr hm with h | h
  · exact hl rr h sfx hs
  · rw [if_neg hk] at h
    simp only [List.nil_append] at h
    exact hv rr h sfx hs

theorem stepType_ok {ks : List String} {schema : Json} {r : List (String × Json)}
    (hw : wfJ ks schema = true) (hr : RefsOkF ks r) : RefsOkF ks (stepType schema r) := by
  unfold stepType
  cases hg : Json.get schema "type" with
  | none => exact hr
  | some t =>
    show RefsOkF ks (if truthy t = true then assignKey r "type" t else r)
    by_cases ht : truthy t = true
    · rw [if_pos ht]
      exact stepOk_assign hr (by decide) (wfOut ks t (wfJ_get hw hg))
    · rw [if_neg ht]
      exact hr

theorem stepEnum_ok {ks : List String} {schema : Json} {r : List (String × Json)}
    (hw : wfJ ks schema = true) (hr : RefsOkF ks r) : RefsOkF ks (stepEnum schema r) := by
  unfold stepEnum
  cases hg : Json.get schema "enum" with
  | none => exact hr
  | some t =>
    show RefsOkF ks (if truthy t = true then assignKey r "enum" t else r)
    by_cases ht : truthy t = true
    · rw [if_pos ht]
      exact stepOk_assign hr (by decide) (wfOut ks t (wfJ_get hw hg))
    · rw [if_neg ht]
      exact hr

theorem stepConst_ok {ks : List String} {schema : Json} {r : List (String × Json)}
    (hw : wfJ ks schema = true) (hr : RefsOkF ks r) : RefsOkF ks (stepConst schema r) := by
  unfold stepConst
  cases hg : Json.get schema "const" with
  | none => exact hr
  | some t =>
    show RefsOkF ks (assignKey r "const" t)
    exact stepOk_assign hr (by decide) (wfOut ks t (wfJ_get hw hg))

theorem stepDefault_ok {ks : List String} {schema : Json} {r : List (String × Json)}
    (hw : wfJ ks schema = true) (hr : RefsOkF ks r) : RefsOkF ks (stepDefault schema r) := by
  unfold stepDefault
  cases hg : Json.get schema "default" with
  | none => exact hr
  | some t =>
    show RefsOkF ks (assignKey r "default" t)
    exact stepOk_assign hr (by decide) (wfOut ks t (wfJ_get hw hg))

theorem stepRequired_ok {ks : List String} {schema : Json} {r : List (String × Json)}
    (hw : wfJ ks schema = true) (hr : RefsOkF ks r) : RefsOkF ks (stepRequired schema r) := by
  unfold stepRequired
  cases hg : Json.get schema "required" with
  | none => exact hr
  | some t =>
    show RefsOkF ks (if truthy t = true then assignKey r "required" t else r)
    by_cases ht : truthy t = true
    · rw [if_pos ht]
      exact stepOk_assign hr (by decide) (wfOut ks t (wfJ_get hw hg))
    · rw [if_neg ht]
      exact hr

theorem stepFormatDesc_ok {ks : List String} {schema : Json} {r : List (String × Json)}
    (hw : wfJ ks schema = true) (hr : RefsOkF ks r) : RefsOkF ks (stepFormatDesc schema r) := by
  unfold stepFormatDesc
  by_cases hb : Json.get schema "format" = some (Json.str "binary")
  · rw [if_pos hb]
    have h1 : RefsOkF ks (assignKey r "format" (Json.str "uri-reference")) :=
      stepOk_assign hr (by decide) (RefsOk_of_refsIn_nil rfl)
    cases hd : Json.get schema "description" with
    | none =>
      simp only [hd]
      exact stepOk_assign h1 (by decide) (RefsOk_of_refsIn_nil rfl)
    | some d =>
      simp only [hd]
      split
      · exact stepOk_assign h1 (by decide) (RefsOk_of_refsIn_nil rfl)
      · exact stepOk_assign h1 (by decide) (RefsOk_of_refsIn_nil rfl)
  · rw [if_neg hb]
    have h1 : RefsOkF ks (match Json.get schema "format" with
        | some fv => if truthy fv then assignKey r "format" fv else r
        | none => r) := by
      cases hg : Json.get schema "format" with
      | none => exact hr
      | some fv =>
        show RefsOkF ks (if truthy fv = true then assignKey r "format" fv else r)
        by_cases ht : truthy fv = true
        · rw [if_pos ht]
          exact stepOk_assign hr (by decide) (wfOut ks fv (wfJ_get hw hg))
        · rw [if_neg ht]
          exact hr
    cases hg : Json.get schema "description" with
    | none =>
      simp only [hg]
      exact h1
    | some d =>
      simp only [hg]
      split
      · exact stepOk_assign h1 (by decide) (wfOut ks d (wfJ_get hw hg))
      · exact h1

theorem preservedOk (ks : List String) : ∀ f : Nat,
    (∀ (doc schema : Json) (st : CState), wfJ ks schema = true →
      (convertOpenApiSchemaToJsonSchema doc f schema false st).2 = st
      ∧ RefsOk ks (convertOpenApiSchemaToJsonSchema doc f schema false st).1
      ∧ strVals (convertOpenApiSchemaToJsonSchema doc f schema false st).1 = [])
  ∧ (∀ (doc schema : Json) (st : CState), wfJ ks schema = true →
      (inlinePart doc f schema false st).2 = st
      ∧ RefsOk ks (inlinePart doc f schema false st).1
      ∧ strVals (inlinePart doc f schema false st).1 = [])
  ∧ (∀ (doc schema : Json) (p : List (String × Json) × CState), wfJ ks schema = true →
      RefsOkF ks p.1 →
      (objBranchPart doc f schema false p).2 = p.2
      ∧ RefsOkF ks (objBranchPart doc f schema false p).1)
  ∧ (∀ (doc schema : Json) (p : List (String × Json) × CState), wfJ ks schema = true →
      RefsOkF ks p.1 →
      (arrBranchPart doc f schema false p).2 = p.2
      ∧ RefsOkF ks (arrBranchPart doc f schema false p).1)
  ∧ (∀ (doc schema : Json) (key : String) (p : List (String × Json) × CState),
      wfJ ks schema = true → RefsOkF ks p.1 →
      (composePart doc f schema key false p).2 = p.2
      ∧ RefsOkF ks (composePart doc f schema key false p).1)
  ∧ (∀ (doc : Json) (entries : List (String × Json)) (st : CState),
      (∀ kv ∈ entries, wfJ ks kv.2 = true) →
      (convertPairs doc f entries false st).2 = st
      ∧ ∀ kv ∈ (convertPairs doc f entries false st).1,
          RefsOk ks kv.2 ∧ strVals kv.2 = [])
  ∧ (∀ (doc : Json) (xs : List Json) (st : CState),
      (∀ x ∈ xs, wfJ ks x = true) →
      (convertListJ doc f xs false st).2 = st
      ∧ ∀ x ∈ (convertListJ doc f xs false st).1, RefsOk ks x) := by
  intro f
  induction f with
  | zero =>
    refine ⟨?_, ?_, ?_, ?_, ?_, ?_, ?_⟩
    · intro doc schema st _
      exact ⟨rfl, RefsOk_of_refsIn_nil rfl, rfl⟩
    · intro doc schema st _
      exact ⟨rfl, RefsOk_of_refsIn_nil rfl, rfl⟩
    · intro doc schema p _ hp
      exact ⟨rfl, hp⟩
    · intro doc schema p _ hp
      exact ⟨rfl, hp⟩
    · intro doc schema key p _ hp
      exact ⟨rfl, hp⟩
    · intro doc entries st _
      exact ⟨rfl, by intro kv hm; simp [convertPairs] at hm⟩
    · intro doc xs st _
      exact ⟨rfl, by intro x hm; simp [convertListJ] at hm⟩
  | succ f ih =>
    obtain ⟨ihC, ihI, ihO, ihA, ihK, ihP, ihL⟩ := ih
    refine ⟨?_, ?_, ?_, ?_, ?_, ?_, ?_⟩
    · -- convertOpenApiSchemaToJsonSchema (f + 1)
      intro doc schema st hw
      cases schema with
      | obj kvs =>
        cases href : lookupList kvs "$ref" with
        | some v =>
          have hwr := wfF_ref hw href
          cases v with
          | str ref =>
            simp only [wfRef] at hwr
            cases hc : stripPfxStr "#/components/schemas/" ref with
            | none =>
              rw [hc] at hwr
              simp at hwr
            | some sfx =>
              rw [hc] at hwr
              have hks : sfx ∈ ks := of_decide_eq_true hwr
              have hstarts : strStarts "#/components/schemas/" ref = true := by
                unfold strStarts
                unfold stripPfxStr at hc
                cases hx : stripPfx "#/components/schemas/".data ref.data with
                | none => rw [hx] at hc; simp at hc
                | some r2 => rfl
              have hrw : rewriteRef ref = "#/$defs/" ++ sfx := by
                unfold rewriteRef
                rw [hc]
              rw [convert_ref_preserved href hstarts]
              refine ⟨rfl, ?_, rfl⟩
              intro rr hm sfx2 hs2
              have hm2 : rr ∈ (if "$ref" = "$ref" then strVals (Json.str (rewriteRef ref))
                  else []) ++ refsIn (Json.str (rewriteRef ref))
                  ++ refsInF (descKeep kvs) := hm
              rw [if_pos rfl] at hm2
              simp only [strVals, refsIn, List.nil_append, List.cons_append,
                List.mem_cons, List.mem_append] at hm2
              rcases hm2 with hm2 | hm2
              · subst hm2
                rw [hrw, stripPfxStr_here] at hs2
                simp only [Option.some.injEq] at hs2
                rw [← hs2]
                exact hks
              · unfold descKeep at hm2
                cases hdk : lookupList kvs "description" with
                | none =>
                  rw [hdk] at hm2
                  simp [refsInF] at hm2
                | some d =>
                  rw [hdk] at hm2
                  have hm3 : rr ∈ (if "description" = "$ref" then strVals d else [])
                      ++ refsIn d ++ refsInF [] := hm2
                  rw [if_neg (by decide)] at hm3
                  simp only [List.nil_append, refsInF, List.append_nil] at hm3
                  exact wfOut ks d (wfF_lookup hw hdk) rr hm3 sfx2 hs2
          | null => simp [wfRef] at hwr
          | bool b => simp [wfRef] at hwr
          | num n => simp [wfRef] at hwr
          | arr xs => simp [wfRef] at hwr
          | obj kvs2 => simp [wfRef] at hwr
        | none =>
          rw [convert_inline href]
          exact ihI doc (Json.obj kvs) st hw
      | arr xs =>
        have e : convertOpenApiSchemaToJsonSchema doc (f + 1) (Json.arr xs) false st
            = inlinePart doc f (Json.arr xs) false st := rfl
        rw [e]
        exact ihI doc (Json.arr xs) st hw
      | null => exact ⟨rfl, RefsOk_of_refsIn_nil rfl, rfl⟩
      | bool b => exact ⟨rfl, RefsOk_of_refsIn_nil rfl, rfl⟩
      | num n => exact ⟨rfl, RefsOk_of_refsIn_nil rfl, rfl⟩
      | str s => exact ⟨rfl, RefsOk_of_refsIn_nil rfl, rfl⟩
    · -- inlinePart (f + 1)
      intro doc schema st hw
      rw [inlinePart_eq]
      have h5 : RefsOkF ks (stepDefault schema (stepConst schema (stepEnum schema
          (stepFormatDesc schema (stepType schema []))))) :=
        stepDefault_ok hw (stepConst_ok hw (stepEnum_ok hw
          (stepFormatDesc_ok hw (stepType_ok hw (RefsOkF_nil ks)))))
      obtain ⟨hO2, hOk⟩ := ihO doc schema
        (stepDefault schema (stepConst schema (stepEnum schema
          (stepFormatDesc schema (stepType schema [])))), st) hw h5
      obtain ⟨hA2, hAk⟩ := ihA doc schema _ hw hOk
      obtain ⟨h12, h1k⟩ := ihK doc schema "oneOf" _ hw hAk
      obtain ⟨h22, h2k⟩ := ihK doc schema "anyOf" _ hw h1k
      obtain ⟨h32, h3k⟩ := ihK doc schema "allOf" _ hw h2k
      refine ⟨?_, ?_, rfl⟩
      · exact h32.trans (h22.trans (h12.trans (hA2.trans hO2)))
      · intro rr hm sfx hs
        exact h3k rr hm sfx hs
    · -- objBranchPart (f + 1)
      intro doc schema p hw hp
      unfold objBranchPart
      by_cases ho : Json.get schema "type" = some (Json.str "object")
      · rw [if_pos ho]
        have hrA : RefsOkF ks (assignKey p.1 "type" (Json.str "object")) :=
          stepOk_assign hp (by decide) (RefsOk_of_refsIn_nil rfl)
        have hBmain : ∀ (pB : List (String × Json) × CState),
            pB.2 = p.2 → RefsOkF ks pB.1 →
            (match Json.get schema "additionalProperties" with
              | none => (assignKey (stepRequired schema pB.1) "additionalProperties"
                  (Json.bool true), pB.2)
              | some (.bool true) => (assignKey (stepRequired schema pB.1)
                  "additionalProperties" (Json.bool true), pB.2)
              | some (.obj akvs) =>
                let pc := convertOpenApiSchemaToJsonSchema doc f (.obj akvs) false pB.2
                (assignKey (stepRequired schema pB.1) "additionalProperties" pc.1, pc.2)
              | some (.arr axs) =>
                let pc := convertOpenApiSchemaToJsonSchema doc f (.arr axs) false pB.2
                (assignKey (stepRequired schema pB.1) "additionalProperties" pc.1, pc.2)
              | some _ => (assignKey (stepRequired schema pB.1) "additionalProperties"
                  (Json.bool false), pB.2)).2 = p.2
            ∧ RefsOkF ks (match Json.get schema "additionalProperties" with
              | none => (assignKey (stepRequired schema pB.1) "additionalProperties"
                  (Json.bool true), pB.2)
              | some (.bool true) => (assignKey (stepRequired schema pB.1)
                  "additionalProperties" (Json.bool true), pB.2)
              | some (.obj akvs) =>
                let pc := convertOpenApiSchemaToJsonSchema doc f (.obj akvs) false pB.2
                (assignKey (stepRequired schema pB.1) "additionalProperties" pc.1, pc.2)
              | some (.arr axs) =>
                let pc := convertOpenApiSchemaToJsonSchema doc f (.arr axs) false pB.2
                (assignKey (stepRequired schema pB.1) "additionalProperties" pc.1, pc.2)
              | some _ => (assignKey (stepRequired schema pB.1) "additionalProperties"
                  (Json.bool false), pB.2)).1 := by
          intro pB hB2 hBk
          have hrC : RefsOkF ks (stepRequired schema pB.1) := stepRequired_ok hw hBk
          cases hap : Json.get schema "additionalProperties" with
          | none =>
            exact ⟨hB2, stepOk_assign hrC (by decide) (RefsOk_of_refsIn_nil rfl)⟩
          | some av =>
            cases av with
            | bool b =>
              cases b with
              | true => exact ⟨hB2, stepOk_assign hrC (by decide) (RefsOk_of_refsIn_nil rfl)⟩
              | false => exact ⟨hB2, stepOk_assign hrC (by decide) (RefsOk_of_refsIn_nil rfl)⟩
            | obj akvs =>
              obtain ⟨hc2, hck, _⟩ := ihC doc (Json.obj akvs) pB.2 (wfJ_get hw hap)
              exact ⟨hc2.trans hB2, stepOk_assign hrC (by decide) hck⟩
            | arr axs =>
              obtain ⟨hc2, hck, _⟩ := ihC doc (Json.arr axs) pB.2 (wfJ_get hw hap)
              exact ⟨hc2.trans hB2, stepOk_assign hrC (by decide) hck⟩
            | null => exact ⟨hB2, stepOk_assign hrC (by decide) (RefsOk_of_refsIn_nil rfl)⟩
            | num n => exact ⟨hB2, stepOk_assign hrC (by decide) (RefsOk_of_refsIn_nil rfl)⟩
            | str s => exact ⟨hB2, stepOk_assign hrC (by decide) (RefsOk_of_refsIn_nil rfl)⟩
        cases hpv : Json.get schema "properties" with
        | none => exact hBmain (assignKey p.1 "type" (Json.str "object"), p.2) rfl hrA
        | some pv =>
          by_cases htr : truthy pv = true
          · simp only [htr, if_true]
            obtain ⟨hq2, hqk⟩ := ihP doc (entriesOf pv) p.2 (entriesOf_wf (wfJ_get hw hpv))
            refine hBmain (assignKey (assignKey p.1 "type" (Json.str "object"))
                "properties" (Json.obj (assignAll []
                  (convertPairs doc f (entriesOf pv) false p.2).1)),
              (convertPairs doc f (entriesOf pv) false p.2).2) hq2 ?_
            refine stepOk_assign hrA (by decide) ?_
            intro rr hm sfx hs
            rcases refsInF_assignAll _ [] rr hm with h | h
            · simp [refsInF] at h
            · obtain ⟨kv, hkv, hr⟩ := h
              obtain ⟨hok, hsv⟩ := hqk kv hkv
              rcases List.mem_append.mp hr with hr | hr
              · by_cases hkr : kv.1 = "$ref"
                · rw [if_pos hkr, hsv] at hr
                  simp at hr
                · rw [if_neg hkr] at hr
                  simp at hr
              · exact hok rr hr sfx hs
          · simp only [htr, if_false, Bool.false_eq_true]
            exact hBmain (assignKey p.1 "type" (Json.str "object"), p.2) rfl hrA
      · rw [if_neg ho]
        exact ⟨rfl, hp⟩
    · -- arrBranchPart (f + 1)
      intro doc schema p hw hp
      unfold arrBranchPart
      by_cases ho : Json.get schema "type" = some (Json.str "array")
      · rw [if_pos ho]
        cases hiv : Json.get schema "items" with
        | none => exact ⟨rfl, hp⟩
        | some iv =>
          by_cases htr : truthy iv = true
          · simp only [htr, if_true]
            obtain ⟨hc2, hck, _⟩ := ihC doc iv p.2 (wfJ_get hw hiv)
            refine ⟨hc2, ?_⟩
            exact stepOk_assign (stepOk_assign hp (by decide) (RefsOk_of_refsIn_nil rfl))
              (by decide) hck
          · simp only [htr, if_false, Bool.false_eq_true]
            exact ⟨by trivial, hp⟩
      · rw [if_neg ho]
        exact ⟨rfl, hp⟩
    · -- composePart (f + 1)
      intro doc schema key p hw hp
      unfold composePart
      cases hg : Json.get schema key with
      | none => exact ⟨rfl, hp⟩
      | some v =>
        cases v with
        | arr xs =>
          obtain ⟨hl2, hlk⟩ := ihL doc xs p.2 (wfL_mem (wfJ_get hw hg))
          refine ⟨hl2, ?_⟩
          intro rr hm sfx hs
          rcases refsInF_assignKey p.1 key (Json.arr
            (convertListJ doc f xs false p.2).1) rr hm with h | h
          · exact hp rr h sfx hs
          · have h2 : rr ∈ refsIn (Json.arr (convertListJ doc f xs false p.2).1) := by
              by_cases hkr : key = "$ref"
              · rw [if_pos hkr] at h
                simpa [strVals] using h
              · rw [if_neg hkr] at h
                simpa using h
            obtain ⟨x, hx1, hx2⟩ := refsInL_mem _ rr h2
            exact hlk x hx1 rr hx2 sfx hs
        | null => exact ⟨rfl, hp⟩
        | bool b => exact ⟨rfl, hp⟩
        | num n => exact ⟨rfl, hp⟩
        | str s => exact ⟨rfl, hp⟩
        | obj kvs2 => exact ⟨rfl, hp⟩
    · -- convertPairs (f + 1)
      intro doc entries st hws
      cases entries with
      | nil => exact ⟨rfl, by intro kv hm; simp [convertPairs] at hm⟩
      | cons kv r =>
        obtain ⟨k, v⟩ := kv
        have e : convertPairs doc (f + 1) ((k, v) :: r) false st
            = ((k, (convertOpenApiSchemaToJsonSchema doc f v false st).1)
                :: (convertPairs doc f r false
                  (convertOpenApiSchemaToJsonSchema doc f v false st).2).1,
               (convertPairs doc f r false
                  (convertOpenApiSchemaToJsonSchema doc f v false st).2).2) := rfl
        rw [e]
        obtain ⟨hc2, hck, hcs⟩ := ihC doc v st (hws (k, v) (List.mem_cons_self _ _))
        obtain ⟨hp2, hpk⟩ := ihP doc r (convertOpenApiSchemaToJsonSchema doc f v false st).2
          (fun kv2 hm => hws kv2 (List.mem_cons_of_mem _ hm))
        refine ⟨hp2.trans hc2, ?_⟩
        intro kv2 hm
        rcases List.mem_cons.mp hm with hm | hm
        · subst hm
          exact ⟨hck, hcs⟩
        · exact hpk kv2 hm
    · -- convertListJ (f + 1)
      intro doc xs st hws
      cases xs with
      | nil => exact ⟨rfl, by intro x hm; simp [convertListJ] at hm⟩
      | cons x r =>
        have e : convertListJ doc (f + 1) (x :: r) false st
            = ((convertOpenApiSchemaToJsonSchema doc f x false st).1
                :: (convertListJ doc f r false
                  (convertOpenApiSchemaToJsonSchema doc f x false st).2).1,
               (convertListJ doc f r false
                  (convertOpenApiSchemaToJsonSchema doc f x false st).2).2) := rfl
        rw [e]
        obtain ⟨hc2, hck, _⟩ := ihC doc x st (hws x (List.mem_cons_self _ _))
        obtain ⟨hl2, hlk⟩ := ihL doc r (convertOpenApiSchemaToJsonSchema doc f x false st).2
          (fun y hm => hws y (List.mem_cons_of_mem _ hm))
        refine ⟨hl2.trans hc2, ?_⟩
        intro y hm
        rcases List.mem_cons.mp hm with hm | hm
        · subst hm
          exact hck
        · exact hlk y hm

theorem jsOr_wf {ks : List String} {o : Option Json} {d : Json}
    (ho : ∀ v, o = some v → wfJ ks v = true) (hd : wfJ ks d = true) :
    wfJ ks (jsOr o d) = true := by
  cases o with
  | none => exact hd
  | some v =>
    show wfJ ks (if truthy v then v else d) = true
    by_cases ht : truthy v = true
    · rw [if_pos ht]
      exact ho v rfl
    · rw [if_neg ht]
      exact hd

theorem getField_wf {ks : List String} {j : Json} {k : String} {v : Json}
    (hw : wfJ ks j = true) (hg : getField j k = some v) : wfJ ks v = true := by
  cases j with
  | obj kvs => exact wfF_lookup hw hg
  | arr xs =>
    simp only [getField] at hg
    by_cases hl : k = "length"
    · rw [if_pos hl] at hg
      simp only [Option.some.injEq] at hg
      rw [← hg]
      rfl
    · rw [if_neg hl] at hg
      cases hc : canonNat k with
      | none => rw [hc] at hg; simp at hg
      | some i =>
        simp only [hc] at hg
        exact wfL_mem hw v (List.get?_mem hg)
  | str s =>
    simp only [getField] at hg
    by_cases hl : k = "length"
    · rw [if_pos hl] at hg
      simp only [Option.some.injEq] at hg
      rw [← hg]
      rfl
    · rw [if_neg hl] at hg
      cases hc : canonNat k with
      | none => rw [hc] at hg; simp at hg
      | some i =>
        simp only [hc] at hg
        cases hch : s.data.get? i with
        | none => rw [hch] at hg; simp at hg
        | some ch =>
          simp only [hch, Option.some.injEq] at hg
          rw [← hg]
          rfl
  | null => simp [getField] at hg
  | bool b => simp [getField] at hg
  | num n => simp [getField] at hg

theorem refWalk_wf {ks : List String} : ∀ (parts : List String) (j v : Json),
    wfJ ks j = true → refWalk j parts = some v → wfJ ks v = true := by
  intro parts
  induction parts with
  | nil =>
    intro j v hw h
    simp only [refWalk, Option.some.injEq] at h
    rw [← h]
    exact hw
  | cons p r ih =>
    intro j v hw h
    unfold refWalk at h
    cases hg : getField j p with
    | none => rw [hg] at h; simp at h
    | some w =>
      simp only [hg] at h
      by_cases ht : truthy w = true
      · rw [if_pos ht] at h
        exact ih w v (getField_wf hw hg) h
      · rw [if_neg ht] at h
        simp at h

theorem internalResolveRef_wf {ks : List String} {doc : Json} {ref : String}
    {res : List String} {v : Json} (hdoc : wfJ ks doc = true)
    (h : (internalResolveRef doc ref res).1 = some v) : wfJ ks v = true := by
  unfold internalResolveRef at h
  cases hs : stripPfxStr "#/" ref with
  | none => simp only [hs] at h; simp at h
  | some rest =>
    simp only [hs] at h
    by_cases hm : ref ∈ res
    · rw [if_pos hm] at h
      simp at h
    · rw [if_neg hm] at h
      cases hwk : refWalk doc (splitSlash rest) with
      | none => simp only [hwk] at h; simp at h
      | some w =>
        simp only [hwk, Option.some.injEq] at h
        rw [← h]
        exact refWalk_wf _ doc w hdoc hwk

theorem resolveParameter_wf {ks : List String} {doc param v : Json}
    (hdoc : wfJ ks doc = true) (hp : wfJ ks param = true)
    (h : resolveParameter doc param = some v) : wfJ ks v = true := by
  unfold resolveParameter at h
  cases hg : Json.get param "$ref" with
  | none =>
    simp only [hg, Option.some.injEq] at h
    rw [← h]
    exact hp
  | some rv =>
    simp only [hg] at h
    cases rv with
    | str ref =>
      cases hri : (internalResolveRef doc ref []).1 with
      | none => simp only [hri] at h; simp at h
      | some r =>
        simp only [hri] at h
        by_cases ht : truthyO (Json.get r "name") = true
        · rw [if_pos ht] at h
          simp only [Option.some.injEq] at h
          rw [← h]
          exact internalResolveRef_wf hdoc hri
        · rw [if_neg ht] at h
          simp at h
    | null => simp at h
    | bool b => simp at h
    | num n => simp at h
    | arr xs => simp at h
    | obj kvs => simp at h

theorem resolveRequestBody_wf {ks : List String} {doc body v : Json}
    (hdoc : wfJ ks doc = true) (hb : wfJ ks body = true)
    (h : resolveRequestBody doc body = some v) : wfJ ks v = true := by
  unfold resolveRequestBody at h
  cases hg : Json.get body "$ref" with
  | none =>
    simp only [hg, Option.some.injEq] at h
    rw [← h]
    exact hb
  | some rv =>
    simp only [hg] at h
    cases rv with
    | str ref => exact internalResolveRef_wf hdoc h
    | null => simp at h
    | bool b => simp at h
    | num n => simp at h
    | arr xs => simp at h
    | obj kvs => simp at h

theorem resolveResponse_wf {ks : List String} {doc response v : Json}
    (hdoc : wfJ ks doc = true) (hr : wfJ ks response = true)
    (h : resolveResponse doc response = some v) : wfJ ks v = true := by
  unfold resolveResponse at h
  cases hg : Json.get response "$ref" with
  | none =>
    simp only [hg, Option.some.injEq] at h
    rw [← h]
    exact hr
  | some rv =>
    simp only [hg] at h
    cases rv with
    | str ref => exact internalResolveRef_wf hdoc h
    | null => simp at h
    | bool b => simp at h
    | num n => simp at h
    | arr xs => simp at h
    | obj kvs => simp at h

theorem wfRef_str_starts {ks : List String} {ref : String}
    (hwr : wfRef ks (Json.str ref) = true) :
    strStarts "#/components/schemas/" ref = true
      ∧ ∃ sfx, stripPfxStr "#/components/schemas/" ref = some sfx ∧ sfx ∈ ks := by
  simp only [wfRef] at hwr
  cases hc : stripPfxStr "#/components/schemas/" ref with
  | none => rw [hc] at hwr; simp at hwr
  | some sfx =>
    rw [hc] at hwr
    refine ⟨?_, sfx, rfl, of_decide_eq_true hwr⟩
    unfold strStarts
    unfold stripPfxStr at hc
    cases hx : stripPfx "#/components/schemas/".data ref.data with
    | none => rw [hx] at hc; simp at hc
    | some r2 => rfl

theorem convertOut_shape {ks : List String} (doc : Json) : ∀ (f : Nat) (schema : Json)
    (st : CState), wfJ ks schema = true →
    (∃ kvs2, (convertOpenApiSchemaToJsonSchema doc f schema false st).1 = Json.obj kvs2)
      ∨ (convertOpenApiSchemaToJsonSchema doc f schema false st).1 = Json.null := by
  intro f schema st hw
  cases f with
  | zero => exact Or.inr rfl
  | succ f =>
    cases schema with
    | obj kvs =>
      cases href : lookupList kvs "$ref" with
      | none =>
        rw [convert_inline href]
        cases f with
        | zero => exact Or.inr rfl
        | succ f2 => exact Or.inl ⟨_, rfl⟩
      | some rv =>
        have hwr := wfF_ref hw href
        cases rv with
        | str ref =>
          obtain ⟨hstarts, _⟩ := wfRef_str_starts hwr
          rw [convert_ref_preserved href hstarts]
          exact Or.inl ⟨_, rfl⟩
        | null => simp [wfRef] at hwr
        | bool b => simp [wfRef] at hwr
        | num n => simp [wfRef] at hwr
        | arr xs => simp [wfRef] at hwr
        | obj kvs2 => simp [wfRef] at hwr
    | arr xs =>
      have e : convertOpenApiSchemaToJsonSchema doc (f + 1) (Json.arr xs) false st
          = inlinePart doc f (Json.arr xs) false st := rfl
      rw [e]
      cases f with
      | zero => exact Or.inr rfl
      | succ f2 => exact Or.inl ⟨_, rfl⟩
    | null => exact Or.inr rfl
    | bool b => exact Or.inr rfl
    | num n => exact Or.inr rfl
    | str s => exact Or.inr rfl

theorem assignKey_mem : ∀ (l : List (String × Json)) (k : String) (v : Json)
    (kv : String × Json), kv ∈ assignKey l k v → kv ∈ l ∨ kv = (k, v) := by
  intro l k v
  induction l with
  | nil =>
    intro kv h
    simp only [assignKey, List.mem_singleton] at h
    exact Or.inr h
  | cons kv2 r ih =>
    intro kv h
    obtain ⟨k2, v2⟩ := kv2
    by_cases he : k2 = k
    · subst he
      rw [assignKey_cons_eq] at h
      rcases List.mem_cons.mp h with h | h
      · exact Or.inr h
      · exact Or.inl (List.mem_cons_of_mem _ h)
    · rw [assignKey_cons_ne he] at h
      rcases List.mem_cons.mp h with h | h
      · exact Or.inl (by rw [h]; exact List.mem_cons_self _ _)
      · rcases ih kv h with h2 | h2
        · exact Or.inl (List.mem_cons_of_mem _ h2)
        · exact Or.inr h2

theorem refsInF_mem_inv : ∀ (l : List (String × Json)) (rr : String),
    rr ∈ refsInF l →
    ∃ kv ∈ l, rr ∈ (if kv.1 = "$ref" then strVals kv.2 else []) ++ refsIn kv.2 := by
  intro l
  induction l with
  | nil => intro rr h; simp [refsInF] at h
  | cons kv r ih =>
    intro rr h
    obtain ⟨k2, v2⟩ := kv
    unfold refsInF at h
    rcases List.mem_append.mp h with h | h
    · exact ⟨(k2, v2), List.mem_cons_self _ _, h⟩
    · obtain ⟨kv2, h1, h2⟩ := ih rr h
      exact ⟨kv2, List.mem_cons_of_mem _ h1, h2⟩

theorem entryRefs_mem : ∀ {kvs : List (String × Json)} {kv : String × Json},
    kv ∈ kvs → ∀ rr ∈ (if kv.1 = "$ref" then strVals kv.2 else []) ++ refsIn kv.2,
    rr ∈ refsInF kvs := by
  intro kvs
  induction kvs with
  | nil => intro kv h; simp at h
  | cons kv2 r ih =>
    intro kv hmem rr hr
    obtain ⟨k2, v2⟩ := kv2
    unfold refsInF
    rcases List.mem_cons.mp hmem with hm | hm
    · subst hm
      simp only [List.mem_append] at hr ⊢
      tauto
    · simp only [List.mem_append]
      right
      exact ih hm rr hr

theorem refsInL_of_mem : ∀ {xs : List Json} {x : Json}, x ∈ xs →
    ∀ rr ∈ refsIn x, rr ∈ refsInL xs := by
  intro xs
  induction xs with
  | nil => intro x h; simp at h
  | cons y r ih =>
    intro x hmem rr hr
    unfold refsInL
    rcases List.mem_cons.mp hmem with hm | hm
    · subst hm
      exact List.mem_append.mpr (Or.inl hr)
    · exact List.mem_append.mpr (Or.inr (ih hm rr hr))

theorem digitCh_digit : ∀ n : Nat, n < 10 → isDigitCh (digitCh n) = true := by
  intro n h
  interval_cases n <;> decide

theorem natDigitsAux_allDigits : ∀ (f n : Nat) (c : Char),
    c ∈ natDigitsAux f n → isDigitCh c = true := by
  intro f
  induction f with
  | zero => intro n c h; simp [natDigitsAux] at h
  | succ f ih =>
    intro n c h
    unfold natDigitsAux at h
    by_cases hn : n < 10
    · rw [if_pos hn] at h
      simp only [List.mem_singleton] at h
      subst h
      exact digitCh_digit n hn
    · rw [if_neg hn] at h
      rcases List.mem_append.mp h with h | h
      · exact ih (n / 10) c h
      · simp only [List.mem_singleton] at h
        subst h
        exact digitCh_digit (n % 10) (Nat.mod_lt _ (by decide))

theorem natDigits_ne_ref : ∀ n : Nat, ¬ (String.mk (natDigits n) = "$ref") := by
  intro n h
  have h2 : natDigits n = ['$', 'r', 'e', 'f'] := congrArg String.data h
  have h3 : '$' ∈ natDigits n := by
    rw [h2]
    exact List.mem_cons_self _ _
  have h4 := natDigitsAux_allDigits (n + 1) n '$' h3
  exact absurd h4 (by decide)

theorem idxEntries_key : ∀ (xs : List Json) (i : Nat) (kv : String × Json),
    kv ∈ idxEntries i xs → ∃ n, kv.1 = String.mk (natDigits n) := by
  intro xs
  induction xs with
  | nil => intro i kv h; simp [idxEntries] at h
  | cons x r ih =>
    intro i kv h
    unfold idxEntries at h
    rcases List.mem_cons.mp h with h | h
    · exact ⟨i, by rw [h]⟩
    · exact ih (i + 1) kv h

theorem entryOk_of_refsOk {ks : List String} {pv : Json} (h : RefsOk ks pv) :
    ∀ kv ∈ entriesOf pv, RefsOk ks kv.2
      ∧ (kv.1 = "$ref" → ∀ s ∈ strVals kv.2,
          ∀ sfx, stripPfxStr "#/$defs/" s = some sfx → sfx ∈ ks) := by
  intro kv hm
  cases pv with
  | obj kvs =>
    refine ⟨?_, ?_⟩
    · intro rr hr sfx hs
      exact h rr (refsIn_mem hm rr hr) sfx hs
    · intro hk s hsv sfx hs
      refine h s (entryRefs_mem hm s ?_) sfx hs
      rw [hk]
      simp [hsv]
  | arr xs =>
    refine ⟨?_, ?_⟩
    · intro rr hr sfx hs
      exact h rr (refsInL_of_mem (idxEntries_values xs 0 kv hm) rr hr) sfx hs
    · intro hk
      obtain ⟨n, hkey⟩ := idxEntries_key xs 0 kv hm
      rw [hkey] at hk
      exact absurd hk (natDigits_ne_ref n)
  | str s =>
    refine ⟨?_, ?_⟩
    · intro rr hr
      have h2 := idxEntries_values _ 0 kv hm
      simp only [List.mem_map] at h2
      obtain ⟨ch, _, hch⟩ := h2
      rw [← hch] at hr
      simp [refsIn] at hr
    · intro hk
      obtain ⟨n, hkey⟩ := idxEntries_key _ 0 kv hm
      rw [hkey] at hk
      exact absurd hk (natDigits_ne_ref n)
  | null => simp [entriesOf] at hm
  | bool b => simp [entriesOf] at hm
  | num n => simp [entriesOf] at hm


theorem wsf_cases (v : Json) :
    withStringFallback v
        = Json.obj [("anyOf", Json.arr [v, Json.obj [("type", Json.str "string")]])]
      ∨ (∃ kvs items, v = Json.obj kvs ∧ lookupList kvs "items" = some items ∧
          withStringFallback v = Json.obj (assignKey kvs "items" (Json.obj [("anyOf", Json.arr
            [items, Json.obj [("type", Json.str "string")],
             Json.obj [("type", Json.str "object"),
               ("additionalProperties", Json.bool true)]])])))
      ∨ withStringFallback v = v := by
  cases v with
  | null => exact Or.inr (Or.inr rfl)
  | bool b => exact Or.inr (Or.inr rfl)
  | num n => exact Or.inr (Or.inr rfl)
  | str s => exact Or.inr (Or.inr rfl)
  | arr xs => exact Or.inr (Or.inr rfl)
  | obj kvs =>
    by_cases hc : Json.get (Json.obj kvs) "type" = some (Json.str "object")
        ∨ (Json.get (Json.obj kvs) "$ref").isSome = true
        ∨ (Json.get (Json.obj kvs) "anyOf").isSome = true
        ∨ (Json.get (Json.obj kvs) "oneOf").isSome = true
        ∨ (Json.get (Json.obj kvs) "allOf").isSome = true
    · exact Or.inl (wsf_complex hc)
    · push_neg at hc
      obtain ⟨h1, h2, h3, h4, h5⟩ := hc
      have h2' : Json.get (Json.obj kvs) "$ref" = none := by
        cases hx : Json.get (Json.obj kvs) "$ref" with
        | none => rfl
        | some w => rw [hx] at h2; simp at h2
      have h3' : Json.get (Json.obj kvs) "anyOf" = none := by
        cases hx : Json.get (Json.obj kvs) "anyOf" with
        | none => rfl
        | some w => rw [hx] at h3; simp at h3
      have h4' : Json.get (Json.obj kvs) "oneOf" = none := by
        cases hx : Json.get (Json.obj kvs) "oneOf" with
        | none => rfl
        | some w => rw [hx] at h4; simp at h4
      have h5' : Json.get (Json.obj kvs) "allOf" = none := by
        cases hx : Json.get (Json.obj kvs) "allOf" with
        | none => rfl
        | some w => rw [hx] at h5; simp at h5
      by_cases hta : Json.get (Json.obj kvs) "type" = some (Json.str "array")
      · cases hitems : Json.get (Json.obj kvs) "items" with
        | none =>
          refine Or.inr (Or.inr (wsf_other h1 ?_ ?_ ?_ ?_ ?_))
          · rw [h2']; rfl
          · rw [h3']; rfl
          · rw [h4']; rfl
          · rw [h5']; rfl
          · intro _; rw [hitems]; rfl
        | some items =>
          by_cases htr : truthy items = true
          · refine Or.inr (Or.inl ⟨kvs, items, rfl, hitems, ?_⟩)
            exact wsf_array h2' h3' h4' h5' hta hitems htr
          · refine Or.inr (Or.inr (wsf_other h1 ?_ ?_ ?_ ?_ ?_))
            · rw [h2']; rfl
            · rw [h3']; rfl
            · rw [h4']; rfl
            · rw [h5']; rfl
            · intro _
              rw [hitems]
              show truthy items = false
              exact Bool.not_eq_true _ ▸ (by simpa using htr)
      · refine Or.inr (Or.inr (wsf_other h1 ?_ ?_ ?_ ?_ ?_))
        · rw [h2']; rfl
        · rw [h3']; rfl
        · rw [h4']; rfl
        · rw [h5']; rfl
        · intro h; exact absurd h hta

theorem wsf_refs_sub (v : Json) (rr : String)
    (h : rr ∈ refsIn (withStringFallback v)) : rr ∈ refsIn v := by
  rcases wsf_cases v with hc | ⟨kvs, items, hv, hitems, hc⟩ | hc
  · rw [hc] at h
    simpa [refsIn, refsInF, refsInL, strVals] using h
  · rw [hc] at h
    subst hv
    rcases refsInF_assignKey kvs "items" _ rr h with h2 | h2
    · exact h2
    · rw [if_neg (by decide)] at h2
      simp only [List.nil_append, refsIn, refsInF, refsInL, strVals] at h2
      simp only [List.append_nil, List.nil_append] at h2
      have h3 : rr ∈ refsIn items := by
        simpa using h2
      exact refsIn_lookup hitems rr h3
  · rw [hc] at h
    exact h

theorem wsf_strVals_sub (v : Json) (s : String)
    (h : s ∈ strVals (withStringFallback v)) : s ∈ strVals v := by
  rcases wsf_cases v with hc | ⟨kvs, items, hv, hitems, hc⟩ | hc
  · rw [hc] at h
    simp [strVals] at h
  · rw [hc] at h
    simp [strVals] at h
  · rw [hc] at h
    exact h

theorem wsf_strVals_nil {v : Json} (h : strVals v = []) :
    strVals (withStringFallback v) = [] := by
  refine List.eq_nil_iff_forall_not_mem.mpr (fun s hs => ?_)
  have h2 := wsf_strVals_sub v s hs
  rw [h] at h2
  simp at h2

theorem setDescription_refs_sub (v d : Json) (rr : String)
    (h : rr ∈ refsIn (setDescription v d)) : rr ∈ refsIn v ∨ rr ∈ refsIn d := by
  cases v with
  | obj kvs =>
    rcases refsInF_assignKey kvs "description" d rr h with h2 | h2
    · exact Or.inl h2
    · rw [if_neg (by decide)] at h2
      simp only [List.nil_append] at h2
      exact Or.inr h2
  | null => exact Or.inl h
  | bool b => exact Or.inl h
  | num n => exact Or.inl h
  | str s => exact Or.inl h
  | arr xs => exact Or.inl h

theorem setDescription_strVals (v d : Json) : strVals (setDescription v d) = strVals v := by
  cases v with
  | obj kvs => rfl
  | null => rfl
  | bool b => rfl
  | num n => rfl
  | str s => rfl
  | arr xs => rfl

theorem get_refsOk {ks : List String} {j v : Json} {k : String}
    (h : RefsOk ks j) (hg : Json.get j k = some v) : RefsOk ks v := by
  cases j with
  | obj kvs =>
    intro rr hr sfx hs
    exact h rr (refsIn_lookup hg rr hr) sfx hs
  | null => simp [Json.get] at hg
  | bool b => simp [Json.get] at hg
  | num n => simp [Json.get] at hg
  | str s => simp [Json.get] at hg
  | arr xs => simp [Json.get] at hg

theorem elems_refsOk {ks : List String} {rv : Json} (h : RefsOk ks rv) :
    ∀ x ∈ elemsOf rv, RefsOk ks x := by
  intro x hm rr hr sfx hs
  cases rv with
  | arr xs => exact h rr (refsInL_of_mem hm rr hr) sfx hs
  | null => simp [elemsOf] at hm
  | bool b => simp [elemsOf] at hm
  | num n => simp [elemsOf] at hm
  | str s => simp [elemsOf] at hm
  | obj kvs => simp [elemsOf] at hm

theorem propsAssignAll_ok {ks : List String} : ∀ (entries props : List (String × Json)),
    RefsOkF ks props →
    (∀ kv ∈ entries, RefsOk ks kv.2 ∧ (kv.1 = "$ref" → ∀ s ∈ strVals kv.2,
      ∀ sfx, stripPfxStr "#/$defs/" s = some sfx → sfx ∈ ks)) →
    RefsOkF ks (propsAssignAll props entries) := by
  intro entries
  induction entries with
  | nil => intro props hp _; exact hp
  | cons kv r ih =>
    intro props hp he
    obtain ⟨k, v⟩ := kv
    unfold propsAssignAll
    refine ih _ ?_ (fun kv2 hm => he kv2 (List.mem_cons_of_mem _ hm))
    intro rr hm sfx hs
    rcases refsInF_assignKey props k (withStringFallback v) rr hm with h | h
    · exact hp rr h sfx hs
    · obtain ⟨hv, hsv⟩ := he (k, v) (List.mem_cons_self _ _)
      rcases List.mem_append.mp h with h | h
      · by_cases hk : k = "$ref"
        · rw [if_pos hk] at h
          exact hsv hk rr (wsf_strVals_sub v rr h) sfx hs
        · rw [if_neg hk] at h
          simp at h
      · exact hv rr (wsf_refs_sub v rr h) sfx hs

theorem mergeObjectSchema_ok {ks : List String} {props : List (String × Json)}
    {req : List Json} {conv : Json} {pr : List (String × Json) × List Json}
    (hp : RefsOkF ks props) (hq : ∀ x ∈ req, RefsOk ks x) (hc : RefsOk ks conv)
    (hm : mergeObjectSchema props req conv = some pr) :
    RefsOkF ks pr.1 ∧ ∀ x ∈ pr.2, RefsOk ks x := by
  unfold mergeObjectSchema at hm
  by_cases ht : Json.get conv "type" = some (Json.str "object")
  · rw [if_pos ht] at hm
    cases hpv : Json.get conv "properties" with
    | none =>
      simp only [hpv] at hm
      exact absurd hm (by simp)
    | some pv =>
      simp only [hpv] at hm
      by_cases htr : truthy pv = true
      · rw [if_pos htr] at hm
        simp only [Option.some.injEq] at hm
        have hps : RefsOkF ks (propsAssignAll props (entriesOf pv)) := by
          refine propsAssignAll_ok _ props hp ?_
          intro kv hkv
          exact entryOk_of_refsOk (get_refsOk hc hpv) kv hkv
        have hm1 : pr.1 = propsAssignAll props (entriesOf pv) := by rw [← hm]
        refine ⟨hm1 ▸ hps, ?_⟩
        have hm2 : pr.2 = (match Json.get conv "required" with
            | some rv => if truthy rv then req ++ elemsOf rv else req
            | none => req) := by
          rw [← hm]
        rw [hm2]
        cases hrv : Json.get conv "required" with
        | none => exact hq
        | some rv =>
          intro x hx
          replace hx : x ∈ (if truthy rv then req ++ elemsOf rv else req) := hx
          by_cases htv : truthy rv = true
          · rw [if_pos htv] at hx
            rcases List.mem_append.mp hx with hx | hx
            · exact hq x hx
            · exact elems_refsOk (get_refsOk hc hrv) x hx
          · rw [if_neg htv] at hx
            exact hq x hx
      · rw [if_neg htr] at hm
        simp at hm
  · rw [if_neg ht] at hm
    simp at hm


theorem componentsFold_cover {doc : Json} {f : Nat} :
    ∀ (entries : List (String × Json)) (acc : List (String × Json) × List (String × Json))
      (k : String), (k ∈ entries.map Prod.fst ∨ (lookupList acc.1 k).isSome = true) →
    (lookupList (componentsFold doc f entries acc).1 k).isSome = true := by
  intro entries
  induction entries with
  | nil =>
    intro acc k h
    rcases h with h | h
    · simp at h
    · exact h
  | cons kv r ih =>
    intro acc k h
    obtain ⟨k2, v2⟩ := kv
    unfold componentsFold
    refine ih _ k ?_
    rcases h with h | h
    · simp only [List.map_cons, List.mem_cons] at h
      rcases h with h | h
      · subst h
        refine Or.inr ?_
        rw [lookupList_assignKey_self]
        rfl
      · exact Or.inl h
    · exact Or.inr (lookupList_assignKey_isSome h)

theorem componentsFold_vals {ks : List String} {doc : Json} {f : Nat} :
    ∀ (entries : List (String × Json)) (acc : List (String × Json) × List (String × Json)),
      (∀ kv ∈ entries, wfJ ks kv.2 = true) →
      (∀ kv ∈ acc.1, RefsOk ks kv.2 ∧ strVals kv.2 = []) →
      ∀ kv ∈ (componentsFold doc f entries acc).1, RefsOk ks kv.2 ∧ strVals kv.2 = [] := by
  intro entries
  induction entries with
  | nil => intro acc _ hacc; exact hacc
  | cons kv0 r ih =>
    intro acc hw hacc
    obtain ⟨k2, v2⟩ := kv0
    unfold componentsFold
    refine ih _ (fun kv hm => hw kv (List.mem_cons_of_mem _ hm)) ?_
    intro kv hm
    rcases assignKey_mem acc.1 k2 _ kv hm with h | h
    · exact hacc kv h
    · obtain ⟨-, hok, hsv⟩ := (preservedOk ks f).1 doc v2 ⟨acc.2, []⟩
        (hw (k2, v2) (List.mem_cons_self _ _))
      rw [h]
      exact ⟨hok, hsv⟩

theorem schemasVal_wf {ks : List String} {doc : Json} (hdoc : wfJ ks doc = true) :
    wfJ ks (jsOr (Json.get (jsOr (Json.get doc "components") (Json.obj [])) "schemas")
      (Json.obj [])) = true := by
  refine jsOr_wf (fun v hv => ?_) rfl
  refine wfJ_get ?_ hv
  exact jsOr_wf (fun w hw => wfJ_get hdoc hw) rfl

theorem convertComponents_cover {doc : Json} {f : Nat} {cache : List (String × Json)}
    {k : String} (hk : k ∈ schemaKeys doc) :
    (lookupList (convertComponentsToJsonSchema doc f cache).1 k).isSome = true := by
  unfold convertComponentsToJsonSchema
  refine componentsFold_cover _ _ k (Or.inl ?_)
  exact hk

theorem convertComponents_vals {ks : List String} {doc : Json} {f : Nat}
    {cache : List (String × Json)} (hdoc : wfJ ks doc = true) :
    ∀ kv ∈ (convertComponentsToJsonSchema doc f cache).1,
      RefsOk ks kv.2 ∧ strVals kv.2 = [] := by
  intro kv hm
  unfold convertComponentsToJsonSchema at hm
  refine componentsFold_vals _ _ (entriesOf_wf (schemasVal_wf hdoc)) ?_ kv hm
  intro kv2 h
  simp at h


theorem paramsFold_cons_none {doc : Json} {f : Nat} {p : Json} {r : List Json}
    {acc : List (String × Json) × List Json × List (String × Json)}
    (hrp : resolveParameter doc p = none) :
    paramsFold doc f (p :: r) acc = paramsFold doc f r acc := by
  simp only [paramsFold, hrp]

theorem paramsFold_cons_noschema {doc : Json} {f : Nat} {p : Json} {r : List Json}
    {acc : List (String × Json) × List Json × List (String × Json)} {paramObj : Json}
    (hrp : resolveParameter doc p = some paramObj)
    (hsch : Json.get paramObj "schema" = none) :
    paramsFold doc f (p :: r) acc = paramsFold doc f r acc := by
  simp only [paramsFold, hrp, hsch]

theorem paramsFold_cons_falsy {doc : Json} {f : Nat} {p : Json} {r : List Json}
    {acc : List (String × Json) × List Json × List (String × Json)} {paramObj psch : Json}
    (hrp : resolveParameter doc p = some paramObj)
    (hsch : Json.get paramObj "schema" = some psch)
    (htf : truthy psch = false) :
    paramsFold doc f (p :: r) acc = paramsFold doc f r acc := by
  simp only [paramsFold, hrp, hsch, htf, if_true]

theorem paramsFold_cons_step {doc : Json} {f : Nat} {p : Json} {r : List Json}
    {acc : List (String × Json) × List Json × List (String × Json)} {paramObj psch : Json}
    (hrp : resolveParameter doc p = some paramObj)
    (hsch : Json.get paramObj "schema" = some psch)
    (htr : truthy psch = true) :
    paramsFold doc f (p :: r) acc = paramsFold doc f r
      (assignKey acc.1
        (match Json.get paramObj "name" with
          | some nv => jsStr nv
          | none => "undefined")
        (withStringFallback
          (match Json.get paramObj "description" with
            | some d => if truthy d then
                setDescription (convertOpenApiSchemaToJsonSchema doc f psch false
                  ⟨acc.2.2, []⟩).1 d
              else (convertOpenApiSchemaToJsonSchema doc f psch false ⟨acc.2.2, []⟩).1
            | none => (convertOpenApiSchemaToJsonSchema doc f psch false ⟨acc.2.2, []⟩).1)),
       (if truthyO (Json.get paramObj "required") then
          acc.2.1 ++ [jsOr (Json.get paramObj "name") Json.null]
        else acc.2.1),
       (convertOpenApiSchemaToJsonSchema doc f psch false ⟨acc.2.2, []⟩).2.cache) := by
  simp only [paramsFold, hrp, hsch, htr]
  rw [if_neg (by decide)]


theorem paramsFold_ok {ks : List String} {doc : Json} {f : Nat}
    (hdoc : wfJ ks doc = true) :
    ∀ (params : List Json) (acc : List (String × Json) × List Json × List (String × Json)),
      (∀ p ∈ params, wfJ ks p = true) →
      RefsOkF ks acc.1 → (∀ x ∈ acc.2.1, RefsOk ks x) →
      RefsOkF ks (paramsFold doc f params acc).1
        ∧ ∀ x ∈ (paramsFold doc f params acc).2.1, RefsOk ks x := by
  intro params
  induction params with
  | nil => intro acc _ h1 h2; exact ⟨h1, h2⟩
  | cons p r ih =>
    intro acc hw h1 h2
    have hwr : ∀ q ∈ r, wfJ ks q = true := fun q hm => hw q (List.mem_cons_of_mem _ hm)
    cases hrp : resolveParameter doc p with
    | none =>
      rw [paramsFold_cons_none hrp]
      exact ih acc hwr h1 h2
    | some paramObj =>
      have hpo : wfJ ks paramObj = true :=
        resolveParameter_wf hdoc (hw p (List.mem_cons_self _ _)) hrp
      cases hsch : Json.get paramObj "schema" with
      | none =>
        rw [paramsFold_cons_noschema hrp hsch]
        exact ih acc hwr h1 h2
      | some psch =>
        by_cases htr : truthy psch = true
        · rw [paramsFold_cons_step hrp hsch htr]
          have hcv := (preservedOk ks f).1 doc psch ⟨acc.2.2, []⟩ (wfJ_get hpo hsch)
          have hshape := convertOut_shape doc f psch ⟨acc.2.2, []⟩
            (wfJ_get hpo hsch)
          have hsv0 : strVals (convertOpenApiSchemaToJsonSchema doc f psch false
              ⟨acc.2.2, []⟩).1 = [] := by
            rcases hshape with ⟨kvs2, hk2⟩ | hk2
            · rw [hk2]; rfl
            · rw [hk2]; rfl
          have hsj : RefsOk ks (match Json.get paramObj "description" with
              | some d => if truthy d then
                  setDescription (convertOpenApiSchemaToJsonSchema doc f psch false
                    ⟨acc.2.2, []⟩).1 d
                else (convertOpenApiSchemaToJsonSchema doc f psch false ⟨acc.2.2, []⟩).1
              | none => (convertOpenApiSchemaToJsonSchema doc f psch false
                  ⟨acc.2.2, []⟩).1) := by
            cases hdesc : Json.get paramObj "description" with
            | none => exact hcv.2.1
            | some d =>
              show RefsOk ks (if truthy d then
                  setDescription (convertOpenApiSchemaToJsonSchema doc f psch false
                    ⟨acc.2.2, []⟩).1 d
                else (convertOpenApiSchemaToJsonSchema doc f psch false ⟨acc.2.2, []⟩).1)
              by_cases htd : truthy d = true
              · rw [if_pos htd]
                intro rr2 hm2 sfx2 hs2
                rcases setDescription_refs_sub _ d rr2 hm2 with h3 | h3
                · exact hcv.2.1 rr2 h3 sfx2 hs2
                · exact wfOut ks d (wfJ_get hpo hdesc) rr2 h3 sfx2 hs2
              · rw [if_neg htd]
                exact hcv.2.1
          have hsv : strVals (match Json.get paramObj "description" with
              | some d => if truthy d then
                  setDescription (convertOpenApiSchemaToJsonSchema doc f psch false
                    ⟨acc.2.2, []⟩).1 d
                else (convertOpenApiSchemaToJsonSchema doc f psch false ⟨acc.2.2, []⟩).1
              | none => (convertOpenApiSchemaToJsonSchema doc f psch false
                  ⟨acc.2.2, []⟩).1) = [] := by
            cases hdesc : Json.get paramObj "description" with
            | none => exact hsv0
            | some d =>
              show strVals (if truthy d then
                  setDescription (convertOpenApiSchemaToJsonSchema doc f psch false
                    ⟨acc.2.2, []⟩).1 d
                else (convertOpenApiSchemaToJsonSchema doc f psch false ⟨acc.2.2, []⟩).1) = []
              by_cases htd : truthy d = true
              · rw [if_pos htd, setDescription_strVals]
                exact hsv0
              · rw [if_neg htd]
                exact hsv0
          refine ih _ hwr ?_ ?_
          · intro rr hm sfx hs
            rcases refsInF_assignKey acc.1 _ _ rr hm with h | h
            · exact h1 rr h sfx hs
            · rcases List.mem_append.mp h with h | h
              · split at h
                · have h4 := wsf_strVals_sub _ rr h
                  rw [hsv] at h4
                  simp at h4
                · simp at h
              · exact hsj rr (wsf_refs_sub _ rr h) sfx hs
          · intro x hx
            by_cases hreq : truthyO (Json.get paramObj "required") = true
            · rw [if_pos hreq] at hx
              rcases List.mem_append.mp hx with hx | hx
              · exact h2 x hx
              · simp only [List.mem_singleton] at hx
                subst hx
                exact wfOut ks _ (jsOr_wf (fun v hv => wfJ_get hpo hv) rfl)
            · rw [if_neg hreq] at hx
              exact h2 x hx
        · have htf : truthy psch = false := by simpa using htr
          rw [paramsFold_cons_falsy hrp hsch htf]
          exact ih acc hwr h1 h2


theorem bodyFoldJson_eq_noaj {doc : Json} {f : Nat} {cv : Json}
    {acc : List (String × Json) × List Json × List (String × Json)}
    (haj : Json.get cv "application/json" = none) :
    bodyFoldJson doc f cv acc = acc := by
  simp only [bodyFoldJson, haj]

theorem bodyFoldJson_eq_nosch {doc : Json} {f : Nat} {cv aj : Json}
    {acc : List (String × Json) × List Json × List (String × Json)}
    (haj : Json.get cv "application/json" = some aj)
    (hbs : Json.get aj "schema" = none) :
    bodyFoldJson doc f cv acc = acc := by
  simp only [bodyFoldJson, haj, hbs]

theorem bodyFoldJson_eq_falsy {doc : Json} {f : Nat} {cv aj bsch : Json}
    {acc : List (String × Json) × List Json × List (String × Json)}
    (haj : Json.get cv "application/json" = some aj)
    (hbs : Json.get aj "schema" = some bsch)
    (htf : truthy bsch = false) :
    bodyFoldJson doc f cv acc = acc := by
  simp only [bodyFoldJson, haj, hbs, htf]
  try rfl

theorem bodyFoldJson_eq_step {doc : Json} {f : Nat} {cv aj bsch : Json}
    {acc : List (String × Json) × List Json × List (String × Json)}
    (haj : Json.get cv "application/json" = some aj)
    (hbs : Json.get aj "schema" = some bsch)
    (htr : truthy bsch = true) :
    bodyFoldJson doc f cv acc =
      (match mergeObjectSchema acc.1 acc.2.1
          (convertOpenApiSchemaToJsonSchema doc f bsch false ⟨acc.2.2, []⟩).1 with
       | some pr => (pr.1, pr.2,
           (convertOpenApiSchemaToJsonSchema doc f bsch false ⟨acc.2.2, []⟩).2.cache)
       | none =>
         (assignKey acc.1 "body" (withStringFallback
             (convertOpenApiSchemaToJsonSchema doc f bsch false ⟨acc.2.2, []⟩).1),
          acc.2.1 ++ [Json.str "body"],
          (convertOpenApiSchemaToJsonSchema doc f bsch false ⟨acc.2.2, []⟩).2.cache)) := by
  simp only [bodyFoldJson, haj, hbs, htr, if_true]
  try rfl

theorem bodyFoldJson_ok {ks : List String} {doc : Json} {f : Nat} {cv : Json}
    {acc : List (String × Json) × List Json × List (String × Json)}
    (hdoc : wfJ ks doc = true) (hcv : wfJ ks cv = true)
    (h1 : RefsOkF ks acc.1) (h2 : ∀ x ∈ acc.2.1, RefsOk ks x) :
    RefsOkF ks (bodyFoldJson doc f cv acc).1
      ∧ ∀ x ∈ (bodyFoldJson doc f cv acc).2.1, RefsOk ks x := by
  cases haj : Json.get cv "application/json" with
  | none =>
    rw [bodyFoldJson_eq_noaj haj]
    exact ⟨h1, h2⟩
  | some aj =>
    cases hbs : Json.get aj "schema" with
    | none =>
      rw [bodyFoldJson_eq_nosch haj hbs]
      exact ⟨h1, h2⟩
    | some bsch =>
      have hbw : wfJ ks bsch = true := wfJ_get (wfJ_get hcv haj) hbs
      by_cases htr : truthy bsch = true
      · rw [bodyFoldJson_eq_step haj hbs htr]
        have hcnv := (preservedOk ks f).1 doc bsch ⟨acc.2.2, []⟩ hbw
        cases hmg : mergeObjectSchema acc.1 acc.2.1
            (convertOpenApiSchemaToJsonSchema doc f bsch false ⟨acc.2.2, []⟩).1 with
        | some pr =>
          obtain ⟨hm1, hm2⟩ := mergeObjectSchema_ok h1 h2 hcnv.2.1 hmg
          exact ⟨hm1, hm2⟩
        | none =>
          refine ⟨?_, ?_⟩
          · intro rr hm sfx hs
            rcases refsInF_assignKey acc.1 "body" _ rr hm with h | h
            · exact h1 rr h sfx hs
            · rw [if_neg (by decide)] at h
              simp only [List.nil_append] at h
              exact hcnv.2.1 rr (wsf_refs_sub _ rr h) sfx hs
          · intro x hx
            rcases List.mem_append.mp hx with hx | hx
            · exact h2 x hx
            · simp only [List.mem_singleton] at hx
              subst hx
              intro rr hr
              simp [refsIn] at hr
      · have htf : truthy bsch = false := by simpa using htr
        rw [bodyFoldJson_eq_falsy haj hbs htf]
        exact ⟨h1, h2⟩

theorem bodyFold_eq_norb {doc : Json} {f : Nat} {operation : Json}
    {acc : List (String × Json) × List Json × List (String × Json)}
    (h : Json.get operation "requestBody" = none) :
    bodyFold doc f operation acc = acc := by
  simp only [bodyFold, h]

theorem bodyFold_eq_falsyrb {doc : Json} {f : Nat} {operation rb : Json}
    {acc : List (String × Json) × List Json × List (String × Json)}
    (h : Json.get operation "requestBody" = some rb) (ht : truthy rb = false) :
    bodyFold doc f operation acc = acc := by
  simp only [bodyFold, h, ht, if_true]
  try rfl

theorem bodyFold_eq_nores {doc : Json} {f : Nat} {operation rb : Json}
    {acc : List (String × Json) × List Json × List (String × Json)}
    (h : Json.get operation "requestBody" = some rb) (ht : truthy rb = true)
    (hres : resolveRequestBody doc rb = none) :
    bodyFold doc f operation acc = acc := by
  simp only [bodyFold, h, ht, hres]
  try rfl

theorem bodyFold_eq_nocontent {doc : Json} {f : Nat} {operation rb bodyObj : Json}
    {acc : List (String × Json) × List Json × List (String × Json)}
    (h : Json.get operation "requestBody" = some rb) (ht : truthy rb = true)
    (hres : resolveRequestBody doc rb = some bodyObj)
    (hc : Json.get bodyObj "content" = none) :
    bodyFold doc f operation acc = acc := by
  simp only [bodyFold, h, ht, hres, hc]
  try rfl

theorem bodyFold_eq_falsycv {doc : Json} {f : Nat} {operation rb bodyObj cv : Json}
    {acc : List (String × Json) × List Json × List (String × Json)}
    (h : Json.get operation "requestBody" = some rb) (ht : truthy rb = true)
    (hres : resolveRequestBody doc rb = some bodyObj)
    (hc : Json.get bodyObj "content" = some cv) (htc : truthy cv = false) :
    bodyFold doc f operation acc = acc := by
  simp only [bodyFold, h, ht, hres, hc, htc, if_true]
  try rfl

theorem bodyFold_eq_nompkey {doc : Json} {f : Nat} {operation rb bodyObj cv : Json}
    {acc : List (String × Json) × List Json × List (String × Json)}
    (h : Json.get operation "requestBody" = some rb) (ht : truthy rb = true)
    (hres : resolveRequestBody doc rb = some bodyObj)
    (hc : Json.get bodyObj "content" = some cv) (htc : truthy cv = true)
    (hmp : Json.get cv "multipart/form-data" = none) :
    bodyFold doc f operation acc = bodyFoldJson doc f cv acc := by
  simp only [bodyFold, h, ht, hres, hc, htc, hmp]
  try rfl

theorem bodyFold_eq_nompsch {doc : Json} {f : Nat} {operation rb bodyObj cv m : Json}
    {acc : List (String × Json) × List Json × List (String × Json)}
    (h : Json.get operation "requestBody" = some rb) (ht : truthy rb = true)
    (hres : resolveRequestBody doc rb = some bodyObj)
    (hc : Json.get bodyObj "content" = some cv) (htc : truthy cv = true)
    (hmp : Json.get cv "multipart/form-data" = some m)
    (hms : Json.get m "schema" = none) :
    bodyFold doc f operation acc = bodyFoldJson doc f cv acc := by
  simp only [bodyFold, h, ht, hres, hc, htc, hmp, hms]
  try rfl

theorem bodyFold_eq_mpfalsy {doc : Json} {f : Nat} {operation rb bodyObj cv m msch : Json}
    {acc : List (String × Json) × List Json × List (String × Json)}
    (h : Json.get operation "requestBody" = some rb) (ht : truthy rb = true)
    (hres : resolveRequestBody doc rb = some bodyObj)
    (hc : Json.get bodyObj "content" = some cv) (htc : truthy cv = true)
    (hmp : Json.get cv "multipart/form-data" = some m)
    (hms : Json.get m "schema" = some msch)
    (htm : truthy msch = false) :
    bodyFold doc f operation acc = bodyFoldJson doc f cv acc := by
  simp only [bodyFold, h, ht, hres, hc, htc, hmp, hms, htm]
  try rfl

theorem bodyFold_eq_mp {doc : Json} {f : Nat} {operation rb bodyObj cv m msch : Json}
    {acc : List (String × Json) × List Json × List (String × Json)}
    (h : Json.get operation "requestBody" = some rb) (ht : truthy rb = true)
    (hres : resolveRequestBody doc rb = some bodyObj)
    (hc : Json.get bodyObj "content" = some cv) (htc : truthy cv = true)
    (hmp : Json.get cv "multipart/form-data" = some m)
    (hms : Json.get m "schema" = some msch)
    (htm : truthy msch = true) :
    bodyFold doc f operation acc =
      (match mergeObjectSchema acc.1 acc.2.1
          (convertOpenApiSchemaToJsonSchema doc f msch false ⟨acc.2.2, []⟩).1 with
       | some pr => (pr.1, pr.2,
           (convertOpenApiSchemaToJsonSchema doc f msch false ⟨acc.2.2, []⟩).2.cache)
       | none => (acc.1, acc.2.1,
           (convertOpenApiSchemaToJsonSchema doc f msch false ⟨acc.2.2, []⟩).2.cache)) := by
  simp only [bodyFold, h, ht, hres, hc, htc, hmp, hms, htm, if_true]
  try rfl

theorem bodyFold_ok {ks : List String} {doc : Json} (f : Nat) {operation : Json}
    {acc : List (String × Json) × List Json × List (String × Json)}
    (hdoc : wfJ ks doc = true) (hop : wfJ ks operation = true)
    (h1 : RefsOkF ks acc.1) (h2 : ∀ x ∈ acc.2.1, RefsOk ks x) :
    RefsOkF ks (bodyFold doc f operation acc).1
      ∧ ∀ x ∈ (bodyFold doc f operation acc).2.1, RefsOk ks x := by
  cases hrb : Json.get operation "requestBody" with
  | none =>
    rw [bodyFold_eq_norb hrb]
    exact ⟨h1, h2⟩
  | some rb =>
    by_cases ht : truthy rb = true
    · cases hres : resolveRequestBody doc rb with
      | none =>
        rw [bodyFold_eq_nores hrb ht hres]
        exact ⟨h1, h2⟩
      | some bodyObj =>
        have hbo : wfJ ks bodyObj = true :=
          resolveRequestBody_wf hdoc (wfJ_get hop hrb) hres
        cases hcn : Json.get bodyObj "content" with
        | none =>
          rw [bodyFold_eq_nocontent hrb ht hres hcn]
          exact ⟨h1, h2⟩
        | some cv =>
          have hcv : wfJ ks cv = true := wfJ_get hbo hcn
          by_cases htc : truthy cv = true
          · cases hmp : Json.get cv "multipart/form-data" with
            | none =>
              rw [bodyFold_eq_nompkey hrb ht hres hcn htc hmp]
              exact bodyFoldJson_ok hdoc hcv h1 h2
            | some m =>
              cases hms : Json.get m "schema" with
              | none =>
                rw [bodyFold_eq_nompsch hrb ht hres hcn htc hmp hms]
                exact bodyFoldJson_ok hdoc hcv h1 h2
              | some msch =>
                have hmw : wfJ ks msch = true := wfJ_get (wfJ_get hcv hmp) hms
                by_cases htm : truthy msch = true
                · rw [bodyFold_eq_mp hrb ht hres hcn htc hmp hms htm]
                  have hcnv := (preservedOk ks f).1 doc msch ⟨acc.2.2, []⟩ hmw
                  cases hmg : mergeObjectSchema acc.1 acc.2.1
                      (convertOpenApiSchemaToJsonSchema doc f msch false
                        ⟨acc.2.2, []⟩).1 with
                  | some pr =>
                    obtain ⟨hm1, hm2⟩ := mergeObjectSchema_ok h1 h2 hcnv.2.1 hmg
                    exact ⟨hm1, hm2⟩
                  | none => exact ⟨h1, h2⟩
                · have htmf : truthy msch = false := by simpa using htm
                  rw [bodyFold_eq_mpfalsy hrb ht hres hcn htc hmp hms htmf]
                  exact bodyFoldJson_ok hdoc hcv h1 h2
          · have htcf : truthy cv = false := by simpa using htc
            rw [bodyFold_eq_falsycv hrb ht hres hcn htcf]
            exact ⟨h1, h2⟩
    · have htf : truthy rb = false := by simpa using ht
      rw [bodyFold_eq_falsyrb hrb htf]
      exact ⟨h1, h2⟩


theorem elemsOf_wf {ks : List String} {pv : Json} (hw : wfJ ks pv = true) :
    ∀ p ∈ elemsOf pv, wfJ ks p = true := by
  intro p hm
  cases pv with
  | arr xs => exact wfL_mem hw p hm
  | null => simp [elemsOf] at hm
  | bool b => simp [elemsOf] at hm
  | num n => simp [elemsOf] at hm
  | str s => simp [elemsOf] at hm
  | obj kvs => simp [elemsOf] at hm

theorem jsOrO_some {a b : Option Json} {v : Json} (h : jsOrO a b = some v) :
    a = some v ∨ b = some v := by
  cases a with
  | none => exact Or.inr h
  | some w =>
    by_cases ht : truthy w = true
    · simp only [jsOrO, ht, if_true] at h
      exact Or.inl h
    · simp only [jsOrO, ht] at h
      rw [if_neg (by decide)] at h
      exact Or.inr h

mutual

theorem wfNoDefs : ∀ (ks : List String) (v : Json), wfJ ks v = true →
    ∀ rr ∈ refsIn v, stripPfxStr "#/$defs/" rr = none
  | ks, .obj kvs, hw => fun rr hm => wfNoDefsF ks kvs hw rr hm
  | ks, .arr xs, hw => fun rr hm => wfNoDefsL ks xs hw rr hm
  | _, .null, _ => fun rr hm => by simp [refsIn] at hm
  | _, .bool _, _ => fun rr hm => by simp [refsIn] at hm
  | _, .num _, _ => fun rr hm => by simp [refsIn] at hm
  | _, .str _, _ => fun rr hm => by simp [refsIn] at hm

theorem wfNoDefsL : ∀ (ks : List String) (xs : List Json), wfL ks xs = true →
    ∀ rr ∈ refsInL xs, stripPfxStr "#/$defs/" rr = none
  | ks, [], _ => fun rr hm => by simp [refsInL] at hm
  | ks, x :: r, hw => by
    intro rr hm
    unfold wfL at hw
    simp only [Bool.and_eq_true] at hw
    unfold refsInL at hm
    rcases List.mem_append.mp hm with hm | hm
    · exact wfNoDefs ks x hw.1 rr hm
    · exact wfNoDefsL ks r hw.2 rr hm

theorem wfNoDefsF : ∀ (ks : List String) (kvs : List (String × Json)), wfF ks kvs = true →
    ∀ rr ∈ refsInF kvs, stripPfxStr "#/$defs/" rr = none
  | ks, [], _ => fun rr hm => by simp [refsInF] at hm
  | ks, (k, v) :: r, hw => by
    intro rr hm
    unfold wfF at hw
    simp only [Bool.and_eq_true] at hw
    unfold refsInF at hm
    rcases List.mem_append.mp hm with hm | hm
    · rcases List.mem_append.mp hm with hm | hm
      · by_cases he : k = "$ref"
        · rw [if_pos he] at hm
          have hwr := hw.1.1
          rw [if_pos he] at hwr
          cases v with
          | str s =>
            simp only [strVals, List.mem_singleton] at hm
            subst hm
            cases hc : stripPfxStr "#/components/schemas/" rr with
            | none =>
              simp only [wfRef, hc] at hwr
              exact absurd hwr (by simp)
            | some x => exact comp_not_defs hc
          | null => simp [strVals] at hm
          | bool b => simp [strVals] at hm
          | num n => simp [strVals] at hm
          | arr xs => simp [strVals] at hm
          | obj kvs2 => simp [strVals] at hm
        · rw [if_neg he] at hm
          simp at hm
      · exact wfNoDefs ks v hw.1.2 rr hm
    · exact wfNoDefsF ks r hw.2 rr hm

end

def selfContained (j : Json) : Bool :=
  (refsIn j).all (fun rr =>
    match stripPfxStr "#/$defs/" rr with
    | none => true
    | some sfx =>
      match Json.get j "$defs" with
      | some (.obj dm) => (lookupList dm sfx).isSome
      | _ => false)

theorem selfContained_of {j : Json}
    (h : ∀ rr ∈ refsIn j, ∀ sfx, stripPfxStr "#/$defs/" rr = some sfx →
      ∃ dm, Json.get j "$defs" = some (Json.obj dm) ∧ (lookupList dm sfx).isSome = true) :
    selfContained j = true := by
  unfold selfContained
  rw [List.all_eq_true]
  intro rr hm
  cases hsp : stripPfxStr "#/$defs/" rr with
  | none => rfl
  | some sfx =>
    obtain ⟨dm, hdm, hsome⟩ := h rr hm sfx hsp
    simp only [hdm]
    exact hsome

theorem extractResponseFallback_sc {ks : List String} {respObj cv rs : Json}
    {cache : List (String × Json)}
    (hro : wfJ ks respObj = true)
    (h : (extractResponseFallback respObj cv cache).1 = some rs) :
    selfContained rs = true := by
  have hdw : ∀ rr ∈ refsIn (jsOr (Json.get respObj "description") (Json.str "")),
      stripPfxStr "#/$defs/" rr = none := by
    intro rr hm
    refine wfNoDefs ks _ ?_ rr hm
    exact jsOr_wf (fun v hv => wfJ_get hro hv) rfl
  unfold extractResponseFallback at h
  split at h
  · simp only [Option.some.injEq] at h
    refine selfContained_of ?_
    rw [← h]
    intro rr hm sfx hs
    simp only [refsIn, refsInF, strVals, List.append_nil, List.nil_append] at hm
    have hm2 : rr ∈ refsIn (jsOr (Json.get respObj "description") (Json.str "")) := by
      simpa using hm
    rw [hdw rr hm2] at hs
    simp at hs
  · simp only [Option.some.injEq] at h
    refine selfContained_of ?_
    rw [← h]
    intro rr hm sfx hs
    simp only [refsIn, refsInF, strVals, List.append_nil, List.nil_append] at hm
    have hm2 : rr ∈ refsIn (jsOr (Json.get respObj "description") (Json.str "")) := by
      simpa using hm
    rw [hdw rr hm2] at hs
    simp at hs


theorem ert_eq_none {doc : Json} {f : Nat} {r : Json} {cache : List (String × Json)}
    (hchain : jsOrO (Json.get r "200") (jsOrO (Json.get r "201")
      (jsOrO (Json.get r "202") (Json.get r "204"))) = none) :
    extractResponseType doc f (some r) cache = (none, cache) := by
  simp only [extractResponseType, hchain]

theorem ert_eq_falsy {doc : Json} {f : Nat} {r sv : Json} {cache : List (String × Json)}
    (hchain : jsOrO (Json.get r "200") (jsOrO (Json.get r "201")
      (jsOrO (Json.get r "202") (Json.get r "204"))) = some sv)
    (htf : truthy sv = false) :
    extractResponseType doc f (some r) cache = (none, cache) := by
  simp only [extractResponseType, hchain, htf]
  simp

theorem ert_eq_nores {doc : Json} {f : Nat} {r sv : Json} {cache : List (String × Json)}
    (hchain : jsOrO (Json.get r "200") (jsOrO (Json.get r "201")
      (jsOrO (Json.get r "202") (Json.get r "204"))) = some sv)
    (ht : truthy sv = true)
    (hres : resolveResponse doc sv = none) :
    extractResponseType doc f (some r) cache = (none, cache) := by
  simp only [extractResponseType, hchain, ht, hres]
  simp

theorem ert_eq_nocontent {doc : Json} {f : Nat} {r sv respObj : Json}
    {cache : List (String × Json)}
    (hchain : jsOrO (Json.get r "200") (jsOrO (Json.get r "201")
      (jsOrO (Json.get r "202") (Json.get r "204"))) = some sv)
    (ht : truthy sv = true)
    (hres : resolveResponse doc sv = some respObj)
    (hcont : Json.get respObj "content" = none) :
    extractResponseType doc f (some r) cache = (none, cache) := by
  simp only [extractResponseType, hchain, ht, hres, hcont]
  simp

theorem ert_eq_falsycv {doc : Json} {f : Nat} {r sv respObj cv : Json}
    {cache : List (String × Json)}
    (hchain : jsOrO (Json.get r "200") (jsOrO (Json.get r "201")
      (jsOrO (Json.get r "202") (Json.get r "204"))) = some sv)
    (ht : truthy sv = true)
    (hres : resolveResponse doc sv = some respObj)
    (hcont : Json.get respObj "content" = some cv)
    (htc : truthy cv = false) :
    extractResponseType doc f (some r) cache = (none, cache) := by
  simp only [extractResponseType, hchain, ht, hres, hcont, htc]
  simp

theorem ert_eq_noaj {doc : Json} {f : Nat} {r sv respObj cv : Json}
    {cache : List (String × Json)}
    (hchain : jsOrO (Json.get r "200") (jsOrO (Json.get r "201")
      (jsOrO (Json.get r "202") (Json.get r "204"))) = some sv)
    (ht : truthy sv = true)
    (hres : resolveResponse doc sv = some respObj)
    (hcont : Json.get respObj "content" = some cv)
    (htc : truthy cv = true)
    (hgaj : Json.get cv "application/json" = none) :
    extractResponseType doc f (some r) cache = extractResponseFallback respObj cv cache := by
  simp only [extractResponseType, hchain, ht, hres, hcont, htc, hgaj]
  simp

theorem ert_eq_nosch {doc : Json} {f : Nat} {r sv respObj cv aj : Json}
    {cache : List (String × Json)}
    (hchain : jsOrO (Json.get r "200") (jsOrO (Json.get r "201")
      (jsOrO (Json.get r "202") (Json.get r "204"))) = some sv)
    (ht : truthy sv = true)
    (hres : resolveResponse doc sv = some respObj)
    (hcont : Json.get respObj "content" = some cv)
    (htc : truthy cv = true)
    (hgaj : Json.get cv "application/json" = some aj)
    (hgs : Json.get aj "schema" = none) :
    extractResponseType doc f (some r) cache = extractResponseFallback respObj cv cache := by
  simp only [extractResponseType, hchain, ht, hres, hcont, htc, hgaj, hgs]
  simp

theorem ert_eq_falsysch {doc : Json} {f : Nat} {r sv respObj cv aj sch : Json}
    {cache : List (String × Json)}
    (hchain : jsOrO (Json.get r "200") (jsOrO (Json.get r "201")
      (jsOrO (Json.get r "202") (Json.get r "204"))) = some sv)
    (ht : truthy sv = true)
    (hres : resolveResponse doc sv = some respObj)
    (hcont : Json.get respObj "content" = some cv)
    (htc : truthy cv = true)
    (hgaj : Json.get cv "application/json" = some aj)
    (hgs : Json.get aj "schema" = some sch)
    (hts : truthy sch = false) :
    extractResponseType doc f (some r) cache = extractResponseFallback respObj cv cache := by
  simp only [extractResponseType, hchain, ht, hres, hcont, htc, hgaj, hgs, hts]
  simp

theorem ert_eq_main_null {doc : Json} {f : Nat} {r sv respObj cv aj sch : Json}
    {cache : List (String × Json)}
    (hchain : jsOrO (Json.get r "200") (jsOrO (Json.get r "201")
      (jsOrO (Json.get r "202") (Json.get r "204"))) = some sv)
    (ht : truthy sv = true)
    (hres : resolveResponse doc sv = some respObj)
    (hcont : Json.get respObj "content" = some cv)
    (htc : truthy cv = true)
    (hgaj : Json.get cv "application/json" = some aj)
    (hgs : Json.get aj "schema" = some sch)
    (hts : truthy sch = true)
    (hp1 : (convertOpenApiSchemaToJsonSchema doc f sch false ⟨cache, []⟩).1 = Json.null) :
    extractResponseType doc f (some r) cache = (some Json.null,
      (convertComponentsToJsonSchema doc f
        (convertOpenApiSchemaToJsonSchema doc f sch false ⟨cache, []⟩).2.cache).2) := by
  simp only [extractResponseType, hchain, ht, hres, hcont, htc, hgaj, hgs, hts, hp1]
  simp

theorem ert_eq_main_nodesc {doc : Json} {f : Nat} {r sv respObj cv aj sch : Json}
    {kvs : List (String × Json)} {cache : List (String × Json)}
    (hchain : jsOrO (Json.get r "200") (jsOrO (Json.get r "201")
      (jsOrO (Json.get r "202") (Json.get r "204"))) = some sv)
    (ht : truthy sv = true)
    (hres : resolveResponse doc sv = some respObj)
    (hcont : Json.get respObj "content" = some cv)
    (htc : truthy cv = true)
    (hgaj : Json.get cv "application/json" = some aj)
    (hgs : Json.get aj "schema" = some sch)
    (hts : truthy sch = true)
    (hp1 : (convertOpenApiSchemaToJsonSchema doc f sch false ⟨cache, []⟩).1 = Json.obj kvs)
    (hgd : Json.get respObj "description" = none) :
    extractResponseType doc f (some r) cache
      = (some (Json.obj (assignKey kvs "$defs" (Json.obj (convertComponentsToJsonSchema doc f
          (convertOpenApiSchemaToJsonSchema doc f sch false ⟨cache, []⟩).2.cache).1))),
         (convertComponentsToJsonSchema doc f
          (convertOpenApiSchemaToJsonSchema doc f sch false ⟨cache, []⟩).2.cache).2) := by
  simp only [extractResponseType, hchain, ht, hres, hcont, htc, hgaj, hgs, hts, hp1, hgd]
  simp

theorem ert_eq_main_desc_set {doc : Json} {f : Nat} {r sv respObj cv aj sch dv : Json}
    {kvs : List (String × Json)} {cache : List (String × Json)}
    (hchain : jsOrO (Json.get r "200") (jsOrO (Json.get r "201")
      (jsOrO (Json.get r "202") (Json.get r "204"))) = some sv)
    (ht : truthy sv = true)
    (hres : resolveResponse doc sv = some respObj)
    (hcont : Json.get respObj "content" = some cv)
    (htc : truthy cv = true)
    (hgaj : Json.get cv "application/json" = some aj)
    (hgs : Json.get aj "schema" = some sch)
    (hts : truthy sch = true)
    (hp1 : (convertOpenApiSchemaToJsonSchema doc f sch false ⟨cache, []⟩).1 = Json.obj kvs)
    (hgd : Json.get respObj "description" = some dv)
    (hcond : (truthy dv && !truthyO (lookupList (assignKey kvs "$defs"
        (Json.obj (convertComponentsToJsonSchema doc f
          (convertOpenApiSchemaToJsonSchema doc f sch false ⟨cache, []⟩).2.cache).1))
        "description")) = true) :
    extractResponseType doc f (some r) cache
      = (some (Json.obj (assignKey (assignKey kvs "$defs"
          (Json.obj (convertComponentsToJsonSchema doc f
            (convertOpenApiSchemaToJsonSchema doc f sch false ⟨cache, []⟩).2.cache).1))
          "description" dv)),
         (convertComponentsToJsonSchema doc f
          (convertOpenApiSchemaToJsonSchema doc f sch false ⟨cache, []⟩).2.cache).2) := by
  simp only [extractResponseType, hchain, ht, hres, hcont, htc, hgaj, hgs, hts, hp1, hgd,
    hcond]
  simp

theorem ert_eq_main_desc_keep {doc : Json} {f : Nat} {r sv respObj cv aj sch dv : Json}
    {kvs : List (String × Json)} {cache : List (String × Json)}
    (hchain : jsOrO (Json.get r "200") (jsOrO (Json.get r "201")
      (jsOrO (Json.get r "202") (Json.get r "204"))) = some sv)
    (ht : truthy sv = true)
    (hres : resolveResponse doc sv = some respObj)
    (hcont : Json.get respObj "content" = some cv)
    (htc : truthy cv = true)
    (hgaj : Json.get cv "application/json" = some aj)
    (hgs : Json.get aj "schema" = some sch)
    (hts : truthy sch = true)
    (hp1 : (convertOpenApiSchemaToJsonSchema doc f sch false ⟨cache, []⟩).1 = Json.obj kvs)
    (hgd : Json.get respObj "description" = some dv)
    (hcond : (truthy dv && !truthyO (lookupList (assignKey kvs "$defs"
        (Json.obj (convertComponentsToJsonSchema doc f
          (convertOpenApiSchemaToJsonSchema doc f sch false ⟨cache, []⟩).2.cache).1))
        "description")) = false) :
    extractResponseType doc f (some r) cache
      = (some (Json.obj (assignKey kvs "$defs"
          (Json.obj (convertComponentsToJsonSchema doc f
            (convertOpenApiSchemaToJsonSchema doc f sch false ⟨cache, []⟩).2.cache).1))),
         (convertComponentsToJsonSchema doc f
          (convertOpenApiSchemaToJsonSchema doc f sch false ⟨cache, []⟩).2.cache).2) := by
  simp only [extractResponseType, hchain, ht, hres, hcont, htc, hgaj, hgs, hts, hp1, hgd,
    hcond]
  simp

theorem extractResponseType_sc {doc : Json} {f : Nat} {responses : Option Json}
    {cache : List (String × Json)} {rs : Json}
    (hdoc : wfJ (schemaKeys doc) doc = true)
    (hresp : ∀ r, responses = some r → wfJ (schemaKeys doc) r = true)
    (hret : (extractResponseType doc f responses cache).1 = some rs) :
    selfContained rs = true := by
  cases responses with
  | none =>
    have e : extractResponseType doc f none cache = (none, cache) := rfl
    rw [e] at hret
    simp at hret
  | some r =>
    have hr := hresp r rfl
    cases hchain : jsOrO (Json.get r "200") (jsOrO (Json.get r "201")
        (jsOrO (Json.get r "202") (Json.get r "204"))) with
    | none =>
      rw [ert_eq_none hchain] at hret
      simp at hret
    | some sv =>
      have hsvw : wfJ (schemaKeys doc) sv = true := by
        rcases jsOrO_some hchain with h | h
        · exact wfJ_get hr h
        · rcases jsOrO_some h with h | h
          · exact wfJ_get hr h
          · rcases jsOrO_some h with h | h
            · exact wfJ_get hr h
            · exact wfJ_get hr h
      by_cases ht : truthy sv = true
      · cases hres : resolveResponse doc sv with
        | none =>
          rw [ert_eq_nores hchain ht hres] at hret
          simp at hret
        | some respObj =>
          have hro : wfJ (schemaKeys doc) respObj = true :=
            resolveResponse_wf hdoc hsvw hres
          cases hcont : Json.get respObj "content" with
          | none =>
            rw [ert_eq_nocontent hchain ht hres hcont] at hret
            simp at hret
          | some cv =>
            have hcvw := wfJ_get hro hcont
            by_cases htc : truthy cv = true
            · cases hgaj : Json.get cv "application/json" with
              | none =>
                rw [ert_eq_noaj hchain ht hres hcont htc hgaj] at hret
                exact extractResponseFallback_sc hro hret
              | some aj =>
                cases hgs : Json.get aj "schema" with
                | none =>
                  rw [ert_eq_nosch hchain ht hres hcont htc hgaj hgs] at hret
                  exact extractResponseFallback_sc hro hret
                | some sch =>
                  have hschw : wfJ (schemaKeys doc) sch = true :=
                    wfJ_get (wfJ_get hcvw hgaj) hgs
                  by_cases hts : truthy sch = true
                  · rcases convertOut_shape doc f sch
                        ⟨cache, []⟩ hschw with ⟨kvs, hp1⟩ | hp1
                    · have hcv := (preservedOk (schemaKeys doc) f).1 doc sch
                        ⟨cache, []⟩ hschw
                      have hok : RefsOk (schemaKeys doc) (Json.obj kvs) := hp1 ▸ hcv.2.1
                      have hA : ∀ rr ∈ refsInF (assignKey kvs "$defs"
                          (Json.obj (convertComponentsToJsonSchema doc f
                            (convertOpenApiSchemaToJsonSchema doc f sch false
                              ⟨cache, []⟩).2.cache).1)),
                          ∀ sfx, stripPfxStr "#/$defs/" rr = some sfx →
                            sfx ∈ schemaKeys doc := by
                        intro rr hm sfx hs
                        rcases refsInF_assignKey kvs "$defs" _ rr hm with h | h
                        · exact hok rr h sfx hs
                        · rw [if_neg (by decide)] at h
                          simp only [List.nil_append] at h
                          obtain ⟨kv, hkv, hr2⟩ := refsInF_mem_inv _ rr h
                          obtain ⟨hkOk, hkSv⟩ := convertComponents_vals hdoc kv hkv
                          rcases List.mem_append.mp hr2 with h3 | h3
                          · split at h3
                            · rw [hkSv] at h3
                              simp at h3
                            · simp at h3
                          · exact hkOk rr h3 sfx hs
                      have hdefsA : lookupList (assignKey kvs "$defs"
                          (Json.obj (convertComponentsToJsonSchema doc f
                            (convertOpenApiSchemaToJsonSchema doc f sch false
                              ⟨cache, []⟩).2.cache).1)) "$defs"
                          = some (Json.obj (convertComponentsToJsonSchema doc f
                            (convertOpenApiSchemaToJsonSchema doc f sch false
                              ⟨cache, []⟩).2.cache).1) :=
                        lookupList_assignKey_self _ _ _
                      cases hgd : Json.get respObj "description" with
                      | none =>
                        rw [ert_eq_main_nodesc hchain ht hres hcont htc hgaj hgs hts
                          hp1 hgd] at hret
                        simp only [Option.some.injEq] at hret
                        rw [← hret]
                        refine selfContained_of ?_
                        intro rr hm sfx hs
                        exact ⟨_, hdefsA, convertComponents_cover (hA rr hm sfx hs)⟩
                      | some dv =>
                        have hdvOk : ∀ rr ∈ refsIn dv,
                            stripPfxStr "#/$defs/" rr = none :=
                          wfNoDefs _ dv (wfJ_get hro hgd)
                        by_cases hcond : (truthy dv && !truthyO (lookupList
                            (assignKey kvs "$defs" (Json.obj
                              (convertComponentsToJsonSchema doc f
                                (convertOpenApiSchemaToJsonSchema doc f sch false
                                  ⟨cache, []⟩).2.cache).1)) "description")) = true
                        · rw [ert_eq_main_desc_set hchain ht hres hcont htc hgaj hgs hts
                            hp1 hgd hcond] at hret
                          simp only [Option.some.injEq] at hret
                          rw [← hret]
                          refine selfContained_of ?_
                          intro rr hm sfx hs
                          rcases refsInF_assignKey _ "description" dv rr hm with h | h
                          · have hdefsB : lookupList (assignKey (assignKey kvs "$defs"
                                (Json.obj (convertComponentsToJsonSchema doc f
                                  (convertOpenApiSchemaToJsonSchema doc f sch false
                                    ⟨cache, []⟩).2.cache).1)) "description" dv) "$defs"
                                = some (Json.obj (convertComponentsToJsonSchema doc f
                                  (convertOpenApiSchemaToJsonSchema doc f sch false
                                    ⟨cache, []⟩).2.cache).1) := by
                              rw [lookupList_assignKey_other (by decide)]
                              exact hdefsA
                            exact ⟨_, hdefsB, convertComponents_cover (hA rr h sfx hs)⟩
                          · rw [if_neg (by decide)] at h
                            simp only [List.nil_append] at h
                            rw [hdvOk rr h] at hs
                            simp at hs
                        · have hcondf : (truthy dv && !truthyO (lookupList
                              (assignKey kvs "$defs" (Json.obj
                                (convertComponentsToJsonSchema doc f
                                  (convertOpenApiSchemaToJsonSchema doc f sch false
                                    ⟨cache, []⟩).2.cache).1)) "description")) = false := by
                            simpa using hcond
                          rw [ert_eq_main_desc_keep hchain ht hres hcont htc hgaj hgs hts
                            hp1 hgd hcondf] at hret
                          simp only [Option.some.injEq] at hret
                          rw [← hret]
                          refine selfContained_of ?_
                          intro rr hm sfx hs
                          exact ⟨_, hdefsA, convertComponents_cover (hA rr hm sfx hs)⟩
                    · rw [ert_eq_main_null hchain ht hres hcont htc hgaj hgs hts hp1] at hret
                      simp only [Option.some.injEq] at hret
                      rw [← hret]
                      rfl
                  · have htsf : truthy sch = false := by simpa using hts
                    rw [ert_eq_falsysch hchain ht hres hcont htc hgaj hgs htsf] at hret
                    exact extractResponseFallback_sc hro hret
            · have htcf : truthy cv = false := by simpa using htc
              rw [ert_eq_falsycv hchain ht hres hcont htcf] at hret
              simp at hret
      · have htf : truthy sv = false := by simpa using ht
        rw [ert_eq_falsy hchain htf] at hret
        simp at hret


theorem refsIn_inputSchema (q props : List (String × Json)) (req : List Json)
    (rr : String) :
    rr ∈ refsIn (Json.obj [("$defs", Json.obj q), ("type", Json.str "object"),
      ("properties", Json.obj props), ("required", Json.arr req)]) →
    rr ∈ refsInF q ∨ rr ∈ refsInF props ∨ rr ∈ refsInL req := by
  intro h
  simp [refsIn, refsInF, refsInL, strVals] at h
  tauto

theorem convertOperationToMCPMethod_sc {doc : Json} {f : Nat} {operation : Json}
    {cache : List (String × Json)} {m : MCPMethod} {c2 : List (String × Json)}
    (hdoc : wfJ (schemaKeys doc) doc = true)
    (hop : wfJ (schemaKeys doc) operation = true)
    (h : convertOperationToMCPMethod doc f operation cache = (some m, c2)) :
    selfContained m.inputSchema = true
      ∧ ∀ rs, m.returnSchema = some rs → selfContained rs = true := by
  cases hid : Json.get operation "operationId" with
  | none =>
    simp only [convertOperationToMCPMethod, hid] at h
    simp at h
  | some mid =>
    by_cases htv : truthy mid = true
    · cases mid with
      | str methodName =>
        simp only [convertOperationToMCPMethod, hid, htv] at h
        rw [if_neg (by decide)] at h
        simp only [Prod.mk.injEq, Option.some.injEq] at h
        obtain ⟨hm, -⟩ := h
        rw [← hm]
        have hparams : RefsOkF (schemaKeys doc) (match Json.get operation "parameters" with
            | some pv =>
              if truthy pv then
                paramsFold doc f (elemsOf pv)
                  ([], [], (convertComponentsToJsonSchema doc f cache).2)
              else ([], [], (convertComponentsToJsonSchema doc f cache).2)
            | none => ([], [], (convertComponentsToJsonSchema doc f cache).2)).1
            ∧ ∀ x ∈ (match Json.get operation "parameters" with
            | some pv =>
              if truthy pv then
                paramsFold doc f (elemsOf pv)
                  ([], [], (convertComponentsToJsonSchema doc f cache).2)
              else ([], [], (convertComponentsToJsonSchema doc f cache).2)
            | none => ([], [], (convertComponentsToJsonSchema doc f cache).2)).2.1,
              RefsOk (schemaKeys doc) x := by
          cases hpv : Json.get operation "parameters" with
          | none =>
            refine ⟨RefsOkF_nil _, ?_⟩
            intro x hx
            simp at hx
          | some pv =>
            show RefsOkF (schemaKeys doc) (if truthy pv = true then
                paramsFold doc f (elemsOf pv)
                  ([], [], (convertComponentsToJsonSchema doc f cache).2)
              else ([], [], (convertComponentsToJsonSchema doc f cache).2)).1
              ∧ ∀ x ∈ (if truthy pv = true then
                paramsFold doc f (elemsOf pv)
                  ([], [], (convertComponentsToJsonSchema doc f cache).2)
              else ([], [], (convertComponentsToJsonSchema doc f cache).2)).2.1,
                RefsOk (schemaKeys doc) x
            by_cases htp : truthy pv = true
            · rw [if_pos htp]
              refine paramsFold_ok hdoc (elemsOf pv) _
                (elemsOf_wf (wfJ_get hop hpv)) (RefsOkF_nil _) ?_
              intro x hx
              simp at hx
            · rw [if_neg htp]
              refine ⟨RefsOkF_nil _, ?_⟩
              intro x hx
              simp at hx
        have hbody := bodyFold_ok f hdoc hop hparams.1 hparams.2
        constructor
        · show selfContained (Json.obj
            [("$defs", Json.obj (convertComponentsToJsonSchema doc f cache).1),
             ("type", Json.str "object"),
             ("properties", Json.obj (bodyFold doc f operation
               (match Json.get operation "parameters" with
                | some pv =>
                  if truthy pv then
                    paramsFold doc f (elemsOf pv)
                      ([], [], (convertComponentsToJsonSchema doc f cache).2)
                  else ([], [], (convertComponentsToJsonSchema doc f cache).2)
                | none => ([], [], (convertComponentsToJsonSchema doc f cache).2))).1),
             ("required", Json.arr (bodyFold doc f operation
               (match Json.get operation "parameters" with
                | some pv =>
                  if truthy pv then
                    paramsFold doc f (elemsOf pv)
                      ([], [], (convertComponentsToJsonSchema doc f cache).2)
                  else ([], [], (convertComponentsToJsonSchema doc f cache).2)
                | none => ([], [], (convertComponentsToJsonSchema doc f cache).2))).2.1)])
            = true
          refine selfContained_of ?_
          intro rr hm2 sfx hs
          have hsfx : sfx ∈ schemaKeys doc := by
            rcases refsIn_inputSchema _ _ _ rr hm2 with h3 | h3 | h3
            · obtain ⟨kv, hkv, hr2⟩ := refsInF_mem_inv _ rr h3
              obtain ⟨hkOk, hkSv⟩ := convertComponents_vals hdoc kv hkv
              rcases List.mem_append.mp hr2 with h4 | h4
              · split at h4
                · rw [hkSv] at h4
                  simp at h4
                · simp at h4
              · exact hkOk rr h4 sfx hs
            · exact hbody.1 rr h3 sfx hs
            · obtain ⟨x, hx1, hx2⟩ := refsInL_mem _ rr h3
              exact hbody.2 x hx1 rr hx2 sfx hs
          refine ⟨(convertComponentsToJsonSchema doc f cache).1, ?_,
            convertComponents_cover hsfx⟩
          simp [Json.get, lookupList]
        · intro rs hrs
          exact extractResponseType_sc hdoc (fun r hr => wfJ_get hop hr) hrs
      | null => exact absurd htv (by decide)
      | bool b =>
        simp only [convertOperationToMCPMethod, hid, htv] at h
        rw [if_neg (by decide)] at h
        simp at h
      | num n =>
        simp only [convertOperationToMCPMethod, hid, htv] at h
        rw [if_neg (by decide)] at h
        simp at h
      | arr xs =>
        simp only [convertOperationToMCPMethod, hid, htv] at h
        rw [if_neg (by decide)] at h
        simp at h
      | obj kvs =>
        simp only [convertOperationToMCPMethod, hid, htv] at h
        rw [if_neg (by decide)] at h
        simp at h
    · have htf : truthy mid = false := by simpa using htv
      simp only [convertOperationToMCPMethod, hid, htf] at h
      simp at h


theorem opsFold_eq_notop {doc : Json} {f : Nat} {path method : String} {operation : Json}
    {r : List (String × Json)} {acc : BuildAcc}
    (hio : isOperation method = false) :
    opsFold doc f path ((method, operation) :: r) acc = opsFold doc f path r acc := by
  simp only [opsFold, hio, Bool.false_eq_true, if_false]

theorem opsFold_eq_none {doc : Json} {f : Nat} {path method : String} {operation : Json}
    {r : List (String × Json)} {acc : BuildAcc}
    (hio : isOperation method = true)
    (hp : (convertOperationToMCPMethod doc f operation acc.cache).1 = none) :
    opsFold doc f path ((method, operation) :: r) acc
      = opsFold doc f path r ⟨acc.methods, acc.lookup,
          (convertOperationToMCPMethod doc f operation acc.cache).2, acc.counter⟩ := by
  simp only [opsFold, hio, hp, if_true]

theorem opsFold_eq_some {doc : Json} {f : Nat} {path method : String} {operation : Json}
    {r : List (String × Json)} {acc : BuildAcc} {m0 : MCPMethod}
    (hio : isOperation method = true)
    (hp : (convertOperationToMCPMethod doc f operation acc.cache).1 = some m0) :
    opsFold doc f path ((method, operation) :: r) acc
      = opsFold doc f path r
          ⟨acc.methods ++ [⟨(ensureUniqueName m0.name acc.counter).1,
              getDescription doc m0.description, m0.inputSchema, m0.returnSchema⟩],
           assignKey acc.lookup ("API" ++ "-" ++ (ensureUniqueName m0.name acc.counter).1)
             (Json.obj (assignAll (assignAll [] (entriesOf operation))
               [("method", Json.str method), ("path", Json.str path)])),
           (convertOperationToMCPMethod doc f operation acc.cache).2,
           (ensureUniqueName m0.name acc.counter).2⟩ := by
  simp only [opsFold, hio, hp, if_true]

theorem opsFold_sc {doc : Json} {f : Nat} {path : String}
    (hdoc : wfJ (schemaKeys doc) doc = true) :
    ∀ (entries : List (String × Json)) (acc : BuildAcc),
      (∀ kv ∈ entries, wfJ (schemaKeys doc) kv.2 = true) →
      (∀ m ∈ acc.methods, selfContained m.inputSchema = true ∧
        ∀ rs, m.returnSchema = some rs → selfContained rs = true) →
      ∀ m ∈ (opsFold doc f path entries acc).methods,
        selfContained m.inputSchema = true ∧
          ∀ rs, m.returnSchema = some rs → selfContained rs = true := by
  intro entries
  induction entries with
  | nil => intro acc _ hacc; exact hacc
  | cons kv r ih =>
    intro acc hw hacc
    obtain ⟨method, operation⟩ := kv
    by_cases hio : isOperation method = true
    · cases hp : (convertOperationToMCPMethod doc f operation acc.cache).1 with
      | none =>
        rw [opsFold_eq_none hio hp]
        exact ih _ (fun kv2 hm => hw kv2 (List.mem_cons_of_mem _ hm)) hacc
      | some m0 =>
        rw [opsFold_eq_some hio hp]
        refine ih _ (fun kv2 hm => hw kv2 (List.mem_cons_of_mem _ hm)) ?_
        intro m hm
        rcases List.mem_append.mp hm with hm | hm
        · exact hacc m hm
        · simp only [List.mem_singleton] at hm
          subst hm
          have hpair : convertOperationToMCPMethod doc f operation acc.cache
              = (some m0, (convertOperationToMCPMethod doc f operation acc.cache).2) := by
            rw [← hp]
          have hsc := convertOperationToMCPMethod_sc hdoc
            (hw (method, operation) (List.mem_cons_self _ _)) hpair
          exact ⟨hsc.1, hsc.2⟩
    · have hiof : isOperation method = false := by simpa using hio
      rw [opsFold_eq_notop hiof]
      exact ih _ (fun kv2 hm => hw kv2 (List.mem_cons_of_mem _ hm)) hacc

theorem pathsFold_eq_truthy {doc : Json} {f : Nat} {path : String} {pathItem : Json}
    {r : List (String × Json)} {acc : BuildAcc} (ht : truthy pathItem = true) :
    pathsFold doc f ((path, pathItem) :: r) acc
      = pathsFold doc f r (opsFold doc f path (entriesOf pathItem) acc) := by
  simp only [pathsFold, ht, if_true]

theorem pathsFold_eq_falsy {doc : Json} {f : Nat} {path : String} {pathItem : Json}
    {r : List (String × Json)} {acc : BuildAcc} (ht : truthy pathItem = false) :
    pathsFold doc f ((path, pathItem) :: r) acc = pathsFold doc f r acc := by
  simp only [pathsFold, ht, Bool.false_eq_true, if_false]

theorem pathsFold_sc {doc : Json} {f : Nat}
    (hdoc : wfJ (schemaKeys doc) doc = true) :
    ∀ (entries : List (String × Json)) (acc : BuildAcc),
      (∀ kv ∈ entries, wfJ (schemaKeys doc) kv.2 = true) →
      (∀ m ∈ acc.methods, selfContained m.inputSchema = true ∧
        ∀ rs, m.returnSchema = some rs → selfContained rs = true) →
      ∀ m ∈ (pathsFold doc f entries acc).methods,
        selfContained m.inputSchema = true ∧
          ∀ rs, m.returnSchema = some rs → selfContained rs = true := by
  intro entries
  induction entries with
  | nil => intro acc _ hacc; exact hacc
  | cons kv r ih =>
    intro acc hw hacc
    obtain ⟨path, pathItem⟩ := kv
    by_cases ht : truthy pathItem = true
    · rw [pathsFold_eq_truthy ht]
      refine ih _ (fun kv2 hm => hw kv2 (List.mem_cons_of_mem _ hm)) ?_
      refine opsFold_sc hdoc _ acc ?_ hacc
      exact entriesOf_wf (hw (path, pathItem) (List.mem_cons_self _ _))
    · have htf : truthy pathItem = false := by simpa using ht
      rw [pathsFold_eq_falsy htf]
      exact ih _ (fun kv2 hm => hw kv2 (List.mem_cons_of_mem _ hm)) hacc

def exampleGhostDoc : Json := Json.obj
  [("openapi", Json.str "3.1.0"),
   ("paths", Json.obj
     [("/g", Json.obj
       [("get", Json.obj
         [("operationId", Json.str "getG"),
          ("parameters", Json.arr
            [Json.obj
              [("name", Json.str "p"),
               ("required", Json.bool true),
               ("schema", Json.obj
                 [("$ref", Json.str "#/components/schemas/Ghost")])]])])])])]

def examplePetDoc : Json := Json.obj
  [("components", Json.obj
     [("schemas", Json.obj
       [("Pet", Json.obj
         [("type", Json.str "object"),
          ("properties", Json.obj
            [("name", Json.obj [("type", Json.str "string")])])])])]),
   ("paths", Json.obj
     [("/pets", Json.obj
       [("get", Json.obj
         [("operationId", Json.str "listPets"),
          ("parameters", Json.arr
            [Json.obj
              [("name", Json.str "filter"),
               ("schema", Json.obj
                 [("$ref", Json.str "#/components/schemas/Pet")])]])])])])]

/-- C5: the spec asserts the self-containment invariant for every input
document, but a dangling `$ref` (one that names no existing component
schema) is rewritten to a local `#/$defs/...` ref whose key the `$defs`
map never receives: the Ghost document's only tool method carries the ref
`#/$defs/Ghost` inside its input schema while its `$defs` map is empty. -/
theorem C5_counterexample :
    (convertToMCPTools exampleGhostDoc).methods.map
        (fun m => selfContained m.inputSchema) = [false]
      ∧ (convertToMCPTools exampleGhostDoc).methods.map
        (fun m => refsIn m.inputSchema) = [["#/$defs/Ghost"]]
      ∧ wfDoc exampleGhostDoc = false := by
  decide

/-- C5 (corrected: restricted to well-formed documents, in which every
`$ref` names an existing component schema): every produced tool method's
input schema — and its return schema when present — is self-contained:
each `#/$defs/`-prefixed `$ref` string occurring anywhere inside the
schema names a key of that same schema's own top-level `$defs` map. -/
theorem C5_self_containment (doc : Json) (hwf : wfDoc doc = true) :
    ∀ m ∈ (convertToMCPTools doc).methods,
      selfContained m.inputSchema = true
        ∧ ∀ rs, m.returnSchema = some rs → selfContained rs = true := by
  have hdoc : wfJ (schemaKeys doc) doc = true := hwf
  unfold convertToMCPTools
  refine pathsFold_sc hdoc _ _ ?_ ?_
  · exact entriesOf_wf (jsOr_wf (fun v hv => wfJ_get hdoc hv) rfl)
  · intro m hm
    simp at hm

theorem C5_witness :
    wfDoc examplePetDoc = true
      ∧ ((convertToMCPTools examplePetDoc).methods.map
          (fun m => refsIn m.inputSchema) = [["#/$defs/Pet"]])
      ∧ ∀ m ∈ (convertToMCPTools examplePetDoc).methods,
          selfContained m.inputSchema = true
            ∧ ∀ rs, m.returnSchema = some rs → selfContained rs = true :=
  ⟨by decide, by decide, C5_self_containment examplePetDoc (by decide)⟩

end NMCP
